import Mathlib

/-!
# TicTacToe: shallow embedding of `script.js`

The game core of the repository (`checkWinner`, `minimax`, `getBotMove`,
`handleMove`, `triggerBotMove`, `startGame`) is translated function by
function.  JavaScript arrays are lists of `Cell`; in-place writes to the
board buffer are modelled by explicit state passing, so every function
that mutates its argument returns the buffer it leaves behind.
-/

namespace TicTacToe

/-! ## Data model -/

/-- The two player marks, the strings 'X' and 'O' of the source. -/
inductive Mark
  | X
  | O
  deriving DecidableEq, Repr

/-- What a slot of the board array can hold.  The program itself only ever
stores `null` and the two marks; `hole` is an array slot that was never
written (it appears when a write beyond the end makes the array grow) and
`undef` is a stored `undefined` (it appears when an array with holes is
copied with the spread operator). -/
inductive Cell
  | hole
  | undef
  | null
  | mark (m : Mark)
  deriving DecidableEq, Repr

/-- JavaScript truthiness of a cell value: only the two mark strings. -/
def Cell.truthy : Cell → Bool
  | Cell.mark _ => true
  | _ => false

/-- The board buffer: a JavaScript array of cells. -/
abbrev Board := List Cell

/-- Reading `board[i]`: a hole and an index past the end both read as
`undefined`. -/
def jsGet (board : Board) (i : Nat) : Cell :=
  match board.getD i Cell.undef with
  | Cell.hole => Cell.undef
  | c => c

/-- The constant `WIN_LINES`, in source order. -/
def WIN_LINES : List (Nat × Nat × Nat) :=
  [(0,1,2), (3,4,5), (6,7,8),
   (0,3,6), (1,4,7), (2,5,8),
   (0,4,8), (2,4,6)]

/-- What `checkWinner` returns when it does not return `null`: a win
object `{winner, line}` or the draw object `{winner: 'draw', line: null}`. -/
inductive Result
  | win (winner : Mark) (line : Nat × Nat × Nat)
  | draw
  deriving DecidableEq, Repr

/-- The test of one loop iteration of `checkWinner`:
`board[a] && board[a] === board[b] && board[a] === board[c]`, giving the
mark `board[a]` when it succeeds. -/
def lineWinner (board : Board) (l : Nat × Nat × Nat) : Option Mark :=
  match jsGet board l.1 with
  | Cell.mark m =>
    if jsGet board l.2.1 = Cell.mark m ∧ jsGet board l.2.2 = Cell.mark m then some m else none
  | _ => none

/-- The `for (const [a,b,c] of WIN_LINES)` loop of `checkWinner`, run over
the lines that are still to be visited: returns at the first line whose
test succeeds. -/
def scanLines (board : Board) : List (Nat × Nat × Nat) → Option Result
  | [] => none
  | l :: rest =>
    match lineWinner board l with
    | some m => some (Result.win m l)
    | none => scanLines board rest

/-- The test `board.every(Boolean)`: `every` skips holes and applies
`Boolean` to every other element. -/
def everyBoolean (board : Board) : Bool :=
  board.all (fun c => c = Cell.hole || c.truthy)

/-- The function `checkWinner`; `none` is the `null` it returns for a game in
progress. -/
def checkWinner (board : Board) : Option Result :=
  match scanLines board WIN_LINES with
  | some r => some r
  | none => if everyBoolean board then some Result.draw else none

/-- The expression `board.map((v, i) => v ? null : i).filter(i => i !== null)`:
the indices of the falsy elements, ascending.  `map` and `filter` skip
holes, so a hole contributes no index. -/
def emptyIdx (board : Board) : List Nat :=
  (List.range board.length).filter
    (fun i => match board.getD i Cell.hole with
      | Cell.undef => true
      | Cell.null => true
      | _ => false)

/-- A JavaScript number as the search uses it: an integer or one of the two
infinities. -/
inductive Num
  | negInf
  | fin (n : Int)
  | posInf
  deriving DecidableEq, Repr

/-- The comparison `a <= b` on numbers. -/
def Num.le : Num → Num → Prop
  | Num.negInf, _ => True
  | Num.fin _, Num.negInf => False
  | Num.fin a, Num.fin b => a ≤ b
  | Num.fin _, Num.posInf => True
  | Num.posInf, Num.posInf => True
  | Num.posInf, _ => False

instance : LE Num := ⟨Num.le⟩

instance Num.decLe : (a b : Num) → Decidable (a ≤ b)
  | Num.negInf, _ => isTrue trivial
  | Num.fin _, Num.negInf => isFalse (fun h => h)
  | Num.fin a, Num.fin b => inferInstanceAs (Decidable (a ≤ b))
  | Num.fin _, Num.posInf => isTrue trivial
  | Num.posInf, Num.posInf => isTrue trivial
  | Num.posInf, Num.negInf => isFalse (fun h => h)
  | Num.posInf, Num.fin _ => isFalse (fun h => h)

/-- Numbers are linearly ordered; `max` and `min` are `Math.max` and
`Math.min`. -/
instance : LinearOrder Num where
  le := Num.le
  le_refl := fun a => by
    cases a
    · trivial
    · exact Int.le_refl _
    · trivial
  le_trans := fun a b c h₁ h₂ => by
    cases a <;> cases b <;> cases c <;>
      first
      | trivial
      | exact absurd h₁ (fun h => h)
      | exact absurd h₂ (fun h => h)
      | exact Int.le_trans h₁ h₂
  le_antisymm := fun a b h₁ h₂ => by
    cases a <;> cases b <;>
      first
      | rfl
      | exact absurd h₁ (fun h => h)
      | exact absurd h₂ (fun h => h)
      | exact congrArg Num.fin (Int.le_antisymm h₁ h₂)
  le_total := fun a b => by
    cases a <;> cases b <;>
      first
      | exact Or.inl trivial
      | exact Or.inr trivial
      | exact Int.le_total _ _
  decidableLE := Num.decLe

/-! ## The search: `minimax` -/

/-- What a call on the board buffer gives back: the returned value together
with the buffer as the call leaves it.  `none` means the fuel of the
embedding ran out before the call returned. -/
abbrev Ret (α : Type) := Option (α × Board)

/-- The `for (const i of moves)` loop of the maximising branch of `minimax`,
run over the moves still to be tried.  `rec` is the recursive call
`minimax(board, false, alpha, beta, depth + 1)`. -/
def maxLoop (rec : Board → Num → Num → Ret Num) :
    List Nat → Board → Num → Num → Num → Ret Num
  | [], board, best, _, _ => some (best, board)
  | i :: rest, board, best, alpha, beta =>
    match rec (board.set i (Cell.mark Mark.O)) alpha beta with
    | none => none
    | some (v, board1) =>
      let best1 := max best v
      let board2 := board1.set i Cell.null
      let alpha1 := max alpha best1
      if beta ≤ alpha1 then some (best1, board2)
      else maxLoop rec rest board2 best1 alpha1 beta

/-- The `for (const i of moves)` loop of the minimising branch of `minimax`.
`rec` is the recursive call `minimax(board, true, alpha, beta, depth + 1)`. -/
def minLoop (rec : Board → Num → Num → Ret Num) :
    List Nat → Board → Num → Num → Num → Ret Num
  | [], board, best, _, _ => some (best, board)
  | i :: rest, board, best, alpha, beta =>
    match rec (board.set i (Cell.mark Mark.X)) alpha beta with
    | none => none
    | some (v, board1) =>
      let best1 := min best v
      let board2 := board1.set i Cell.null
      let beta1 := min beta best1
      if beta1 ≤ alpha then some (best1, board2)
      else minLoop rec rest board2 best1 alpha beta1

/-- The function `minimax` with a bound on the recursion depth: each level of
recursion uses one unit of fuel. -/
def minimaxFuel : Nat → Board → Bool → Num → Num → Int → Ret Num
  | 0, _, _, _, _, _ => none
  | fuel + 1, board, isMax, alpha, beta, depth =>
    match checkWinner board with
    | some (Result.win Mark.O _) => some (Num.fin (10 - depth), board)
    | some (Result.win Mark.X _) => some (Num.fin (depth - 10), board)
    | some Result.draw => some (Num.fin 0, board)
    | none =>
      let moves := emptyIdx board
      if isMax then
        maxLoop (fun b a β => minimaxFuel fuel b false a β (depth + 1))
          moves board Num.negInf alpha beta
      else
        minLoop (fun b a β => minimaxFuel fuel b true a β (depth + 1))
          moves board Num.posInf alpha beta

/-- The function `minimax`.  Every recursive call is made on a buffer with one
more marked cell, so the recursion is at most one level deeper than the
number of empty cells. -/
def minimax (board : Board) (isMax : Bool) (alpha beta : Num) (depth : Int) : Ret Num :=
  minimaxFuel ((emptyIdx board).length + 1) board isMax alpha beta depth

/-! ## The difficulty policy: `getBotMove` -/

/-- The difficulty setting, the strings 'easy', 'medium' and 'hard'. -/
inductive Difficulty
  | easy
  | medium
  | hard
  deriving DecidableEq, Repr

/-- Rounding of a non-negative number to the nearest integer, a tie going to
the even neighbour. -/
def roundHalfEven (y : ℚ) : Int :=
  if y - (Int.floor y : ℚ) < 1/2 then Int.floor y
  else if 1/2 < y - (Int.floor y : ℚ) then Int.floor y + 1
  else if Int.floor y % 2 = 0 then Int.floor y else Int.floor y + 1

/-- The exponent of the unit in the last place of the binary64 numbers next
to `x > 0`: for `2^k ≤ x < 2^(k+1)` the numbers are `2^(k-52)` apart, and
below `2^(-1022)` (the subnormal range) they are `2^(-1074)` apart. -/
def ulpExp (x : ℚ) : Int := max (Int.log 2 x) (-1022) - 52

/-- The binary64 number nearest to the exact value `x ≥ 0`, a tie going to the
even significand: the result a floating-point operation stores for the
exact result `x`.  (Overflow needs `x` near `2^1024`; the products here
are below 9.) -/
def roundDouble (x : ℚ) : ℚ :=
  (roundHalfEven (x / (2:ℚ) ^ ulpExp x) : ℚ) * (2:ℚ) ^ ulpExp x

/-- The values `Math.random()` can return: the binary64 numbers in `[0,1)`,
that is `m / 2^q` with a significand `m < 2^53` and `q ≤ 1074`, below 1. -/
def IsDraw (r : ℚ) : Prop :=
  ∃ m q : Nat, m < 2 ^ 53 ∧ q ≤ 1074 ∧ r = (m : ℚ) / 2 ^ q ∧ r < 1

/-- The expression `empty[Math.floor(r * empty.length)]` for a draw `r` of
`Math.random()`.  The product is a binary64 multiplication: the exact
product is rounded to the nearest binary64 number before `Math.floor`
sees it (`empty.length` is a small integer and `Math.floor` of a binary64
number is exact).  A draw is never negative, so neither is the index;
`none` is the `undefined` of an index past the end of the array, which
no binary64 draw in `[0,1)` produces (`randomPick_mem`). -/
def randomPick (empty : List Nat) (r : ℚ) : Option Nat :=
  empty[(Int.floor (roundDouble (r * (empty.length : ℚ)))).toNat]?

/-- The binary64 number `0.3333333333333333`, the one nearest to one third. -/
def thirdDraw : ℚ := 6004799503160661 / 2 ^ 54

/-- The inner loop `for (const i of empty)` of the win/block scan of the
Medium branch, for one `player`: place the mark, test `checkWinner`, clear
the cell; return at the first index where the test succeeds.  The first
component is that index, if any. -/
def scanPlayer (player : Mark) : List Nat → Board → Option Nat × Board
  | [], board => (none, board)
  | i :: rest, board =>
    let board1 := board.set i (Cell.mark player)
    match checkWinner board1 with
    | some (Result.win w _) =>
      if w = player then (some i, board1.set i Cell.null)
      else scanPlayer player rest (board1.set i Cell.null)
    | _ => scanPlayer player rest (board1.set i Cell.null)

/-- The loop of the Hard branch: for each empty index place 'O', score the
position with `minimax(board, false, -Infinity, Infinity, 0)`, clear the
cell, and keep the index when the score is strictly greater than the
best so far. -/
def hardLoop : List Nat → Board → Num → Option Nat → Ret (Option Nat)
  | [], board, _, move => some (move, board)
  | i :: rest, board, best, move =>
    match minimax (board.set i (Cell.mark Mark.O)) false Num.negInf Num.posInf 0 with
    | none => none
    | some (score, board1) =>
      let board2 := board1.set i Cell.null
      if best < score then hardLoop rest board2 score (some i)
      else hardLoop rest board2 best move

/-- The Hard branch of `getBotMove`: `best = -Infinity`, `move = empty[0]`, then
the loop. -/
def hardMove (empty : List Nat) (board : Board) : Ret (Option Nat) :=
  hardLoop empty board Num.negInf empty.head?

/-- The Medium branch of `getBotMove`: `r1` and `r2` are the first and the
second draw of `Math.random()` the call makes. -/
def mediumMove (empty : List Nat) (board : Board) (r1 r2 : ℚ) : Ret (Option Nat) :=
  if r1 < 1/2 then some (randomPick empty r2, board)
  else
    match scanPlayer Mark.O empty board with
    | (some i, board1) => some (some i, board1)
    | (none, board1) =>
      match scanPlayer Mark.X empty board1 with
      | (some i, board2) => some (some i, board2)
      | (none, board2) => some (randomPick empty r2, board2)

/-- The function `getBotMove`.  `r1` and `r2` are the first and the second
draw of `Math.random()` (a call uses at most two).  The value is the
returned move (`none` is the `null` returned for a full board) and the
buffer after the call; the outer `none` only if the search ran out of
fuel.  The literals `0.8` and `0.5` of the two tests are written `4/5` and
`1/2`: for a binary64 draw the tests agree (`isDraw_lt_four_fifths`,
`roundDouble_half`). -/
def getBotMove (board : Board) (difficulty : Difficulty) (r1 r2 : ℚ) : Ret (Option Nat) :=
  let empty := emptyIdx board
  if empty.length = 0 then some (none, board)
  else if difficulty = Difficulty.easy ∧ r1 < 4/5 then some (randomPick empty r2, board)
  else if difficulty = Difficulty.medium then mediumMove empty board r1 r2
  else hardMove empty board

/-! ## Predicates used in the statements -/

/-- A board of the game: exactly nine cells, each `null` or a mark. -/
def Board9 (b : Board) : Prop :=
  b.length = 9 ∧ ∀ c ∈ b, c ≠ Cell.hole ∧ c ≠ Cell.undef

instance (b : Board) : Decidable (Board9 b) := by
  unfold Board9; infer_instance

/-- The three cells of the triple `l` all hold the mark `m`. -/
def Uniform (b : Board) (l : Nat × Nat × Nat) (m : Mark) : Prop :=
  b[l.1]? = some (Cell.mark m) ∧ b[l.2.1]? = some (Cell.mark m) ∧
    b[l.2.2]? = some (Cell.mark m)

instance (b : Board) (l : Nat × Nat × Nat) (m : Mark) : Decidable (Uniform b l m) := by
  unfold Uniform; infer_instance

/-- No slot of the buffer is a hole or a stored `undefined`: every cell is
`null` or a mark. -/
def Clean (b : Board) : Prop := ∀ c ∈ b, c ≠ Cell.hole ∧ c ≠ Cell.undef

instance (b : Board) : Decidable (Clean b) := by
  unfold Clean; infer_instance

/-- The reference the search is compared with: plain depth-aware minimax
without pruning.  A finished position scores `10 - depth` for an O win,
`depth - 10` for an X win and `0` for a draw; otherwise the value is the
maximum over the moves of O when `isMax`, the minimum over the moves of X
when not, each child taken at `depth + 1`. -/
def plainMinimax (board : Board) (isMax : Bool) (depth : Int) : Num :=
  match checkWinner board with
  | some (Result.win Mark.O _) => Num.fin (10 - depth)
  | some (Result.win Mark.X _) => Num.fin (depth - 10)
  | some Result.draw => Num.fin 0
  | none =>
    if isMax then
      ((emptyIdx board).attach.map
        (fun i => plainMinimax (board.set i.1 (Cell.mark Mark.O)) false (depth + 1))).foldl
        max Num.negInf
    else
      ((emptyIdx board).attach.map
        (fun i => plainMinimax (board.set i.1 (Cell.mark Mark.X)) true (depth + 1))).foldl
        min Num.posInf
termination_by (emptyIdx board).length
decreasing_by
  all_goals
    obtain ⟨i, hi⟩ := i
    have hlt : i < board.length := by
      have := (List.mem_filter.1 hi).1
      exact List.mem_range.1 this
    have hp := (List.mem_filter.1 hi).2
    show (emptyIdx (board.set i _)).length < (emptyIdx board).length
    have heq : ∀ m, emptyIdx (board.set i (Cell.mark m)) =
        (emptyIdx board).filter (fun j => decide (j ≠ i)) := by
      intro m
      unfold emptyIdx
      rw [List.length_set, List.filter_filter]
      apply List.filter_congr
      intro j _
      by_cases hji : j = i
      · subst hji
        simp [List.getElem?_set, hlt]
      · have hij : ¬ i = j := fun h => hji h.symm
        simp [List.getElem?_set, hji, hij]
    rw [heq]
    exact List.length_filter_lt_length_iff_exists.2 ⟨i, hi, by simp⟩

/-- What a fail-soft alpha-beta search with window `(α, β)` guarantees about
its result `r` relative to the true value `v`: a result at or below `α`
is an upper bound, a result at or above `β` is a lower bound, and a result
strictly inside the window is exact. -/
def Bounds (α β r v : Num) : Prop :=
  (r ≤ α → v ≤ r) ∧ (β ≤ r → r ≤ v) ∧ (α < r → r < β → r = v)

/-- Rank of a number: which of the three kinds it is. -/
def Num.rank : Num → Int
  | Num.negInf => -1
  | Num.fin _ => 0
  | Num.posInf => 1

/-- Integer part of a number, `0` for the infinities. -/
def Num.val : Num → Int
  | Num.fin n => n
  | _ => 0

/-- Placing the mark `m` on the empty cell `i` makes `checkWinner` report a
win of `m`. -/
def WinAt (m : Mark) (b : Board) (i : Nat) : Prop :=
  b[i]? = some Cell.null ∧ ∃ l, checkWinner (b.set i (Cell.mark m)) = some (Result.win m l)

/-- The test of the Medium scan at index `i` for `player`:
`checkWinner(board)?.winner === player` after `board[i] = player`. -/
def placeWins (player : Mark) (b : Board) (i : Nat) : Bool :=
  match checkWinner (b.set i (Cell.mark player)) with
  | some (Result.win w _) => decide (w = player)
  | _ => false

/-- What the non-random branch of Medium returns, as a function of the input
board: the first empty index where placing O wins, else the first where
placing X wins, else the index picked by the draw `r2`. -/
def mediumScan (b : Board) (r2 : ℚ) : Option Nat :=
  match (emptyIdx b).find? (placeWins Mark.O b) with
  | some i => some i
  | none =>
    match (emptyIdx b).find? (placeWins Mark.X b) with
    | some i => some i
    | none => randomPick (emptyIdx b) r2

/-- A position with O to move in which X (on 0, 3, 4) threatens three lines
at once and O (on 2, 7) has no winning move. -/
def doubleThreat : Board :=
  [Cell.mark Mark.X, Cell.null, Cell.mark Mark.O,
   Cell.mark Mark.X, Cell.mark Mark.X, Cell.null,
   Cell.null, Cell.mark Mark.O, Cell.null]

/-! ## The session: `state`, `handleMove`, `triggerBotMove`, `startGame` -/

/-- The game mode, the strings 'pvp' and 'bot'. -/
inductive Mode
  | pvp
  | bot
  deriving DecidableEq, Repr

/-- The counters `state.scores`. -/
structure Scores where
  X : Nat
  O : Nat
  D : Nat
  deriving DecidableEq, Repr

/-- A callback registered with `setTimeout` that has not run yet: the delayed
`showResult(result)` or the delayed body of `triggerBotMove`. -/
inductive Timer
  | showResult (result : Result)
  | botMove
  deriving DecidableEq, Repr

/-- The object `state` together with the pending timers.  `board` holds the
array elements of `state.board`; `boardProps` holds the properties of that
array object whose key is not an array index (a write `board[idx] = mark`
with `idx` negative or above `2^32 - 2` creates one). -/
structure State where
  mode : Mode
  difficulty : Difficulty
  board : Board
  boardProps : List (Int × Mark)
  current : Mark
  gameOver : Bool
  scores : Scores
  botThinking : Bool
  timers : List Timer
  deriving DecidableEq, Repr

/-- The initial value of `state` in the source, with no timer pending. -/
def initialState : State :=
  { mode := Mode.pvp
    difficulty := Difficulty.easy
    board := List.replicate 9 Cell.null
    boardProps := []
    current := Mark.X
    gameOver := false
    scores := { X := 0, O := 0, D := 0 }
    botThinking := false
    timers := [] }

/-- The array write `board[i] = c` for a natural index: inside the array it
replaces the element, past the end the array grows and the slots in
between stay holes. -/
def jsSet (b : Board) (i : Nat) (c : Cell) : Board :=
  if i < b.length then b.set i c
  else b ++ List.replicate (i - b.length) Cell.hole ++ [c]

/-- Whether an integer key is an array index, that is within `0 .. 2^32 - 2`. -/
def isArrayIndex (idx : Int) : Bool :=
  decide (0 ≤ idx) && decide (idx < 4294967295)

/-- The read `state.board[idx]` for an integer `idx`. -/
def boardGet (s : State) (idx : Int) : Cell :=
  if isArrayIndex idx then jsGet s.board idx.toNat
  else
    match s.boardProps.lookup idx with
    | some m => Cell.mark m
    | none => Cell.undef

/-- The write `state.board[idx] = m` for an integer `idx`. -/
def boardPut (s : State) (idx : Int) (m : Mark) : State :=
  if isArrayIndex idx then { s with board := jsSet s.board idx.toNat (Cell.mark m) }
  else { s with boardProps := (idx, m) :: s.boardProps }

/-- The synchronous part of `triggerBotMove`: set `botThinking` and register
the delayed callback. -/
def triggerBotMove (s : State) : State :=
  { s with botThinking := true, timers := s.timers ++ [Timer.botMove] }

/-- The expression `state.current === 'X' ? 'O' : 'X'`. -/
def Mark.other : Mark → Mark
  | Mark.X => Mark.O
  | Mark.O => Mark.X

/-- The function `handleMove(idx)`. -/
def handleMove (s : State) (idx : Int) : State :=
  if (boardGet s idx).truthy || s.gameOver || s.botThinking then s
  else
    let s1 := boardPut s idx s.current
    match checkWinner s1.board with
    | some result =>
      { s1 with gameOver := true, timers := s1.timers ++ [Timer.showResult result] }
    | none =>
      let s2 := { s1 with current := s1.current.other }
      if s2.mode = Mode.bot ∧ s2.current = Mark.O ∧ s2.gameOver = false then
        triggerBotMove s2
      else s2

/-- The state effect of `showResult(result)`: one counter is incremented. -/
def showResult (s : State) (result : Result) : State :=
  match result with
  | Result.win Mark.X _ => { s with scores := { s.scores with X := s.scores.X + 1 } }
  | Result.win Mark.O _ => { s with scores := { s.scores with O := s.scores.O + 1 } }
  | Result.draw => { s with scores := { s.scores with D := s.scores.D + 1 } }

/-- The copy `[...state.board]`: the spread operator reads every slot, so a
hole becomes a stored `undefined`. -/
def spread (b : Board) : Board :=
  b.map (fun c => match c with
    | Cell.hole => Cell.undef
    | c => c)

/-- The delayed callback of `triggerBotMove`, with the two draws that
`getBotMove` may use.  `none` only if the search ran out of fuel. -/
def botMoveCallback (s : State) (r1 r2 : ℚ) : Option State :=
  match getBotMove (spread s.board) s.difficulty r1 r2 with
  | none => none
  | some (move, _) =>
    let s1 := { s with botThinking := false }
    match move with
    | none => some s1
    | some mv =>
      if s1.gameOver then some s1
      else
        let s2 := { s1 with board := jsSet s1.board mv (Cell.mark Mark.O) }
        match checkWinner s2.board with
        | some result =>
          some { s2 with gameOver := true, timers := s2.timers ++ [Timer.showResult result] }
        | none => some { s2 with current := Mark.X }

/-- The state effect of `startGame()`. -/
def startGame (s : State) : State :=
  { s with
    board := List.replicate 9 Cell.null
    boardProps := []
    current := Mark.X
    gameOver := false
    botThinking := false }

/-- One step of a running session: a click on one of the nine cells, which
calls `handleMove` with its index, or a pending timer firing.  The draws
handed to the bot callback lie in `[0,1)` where the code uses them as an
index. -/
inductive Step : State → State → Prop
  | click (s : State) (idx : Int) (h0 : 0 ≤ idx) (h8 : idx ≤ 8) :
      Step s (handleMove s idx)
  | result (s : State) (pre post : List Timer) (r : Result)
      (h : s.timers = pre ++ Timer.showResult r :: post) :
      Step s (showResult { s with timers := pre ++ post } r)
  | bot (s s' : State) (pre post : List Timer) (r1 r2 : ℚ)
      (h : s.timers = pre ++ Timer.botMove :: post) (h0 : 0 ≤ r2) (h1 : r2 < 1)
      (hs : botMoveCallback { s with timers := pre ++ post } r1 r2 = some s') :
      Step s s'

/-- The states a session reaches from `s0` by steps, without a new
`startGame`. -/
inductive Reachable (s0 : State) : State → Prop
  | start : Reachable s0 s0
  | step {s s' : State} (hr : Reachable s0 s) (hs : Step s s') : Reachable s0 s'

/-- A state as `startGame` leaves it when no timer of an earlier game is
pending: empty board, X to move. -/
def NewGame (s : State) : Prop :=
  s.board = List.replicate 9 Cell.null ∧ s.current = Mark.X ∧ s.gameOver = false ∧
    s.botThinking = false ∧ s.timers = []

/-- The index `i` is one of the three cells of the triple `l`. -/
def OnLine (i : Nat) (l : Nat × Nat × Nat) : Prop :=
  l.1 = i ∨ l.2.1 = i ∨ l.2.2 = i

/-- A bot game on Hard at the position `doubleThreat`, O to move. -/
def threatState : State :=
  { mode := Mode.bot
    difficulty := Difficulty.hard
    board := doubleThreat
    boardProps := []
    current := Mark.O
    gameOver := false
    scores := { X := 0, O := 0, D := 0 }
    botThinking := false
    timers := [] }

/-- The state after the clicks `moves`, in order, from `s`. -/
def playClicks (s : State) (moves : List Int) : State :=
  moves.foldl handleMove s

/-- A legal two-player game whose last move, X on cell 0, completes the row
0, 1, 2 and the column 0, 3, 6 together. -/
def doubleLineGame : State :=
  playClicks initialState [1, 4, 2, 5, 3, 7, 6, 8, 0]

/-- What holds of every state of a running game: the board has nine cells,
an unfinished game has no result yet, and all uniformly marked triples
carry one mark and pass through one cell. -/
def GameInv (s : State) : Prop :=
  Board9 s.board ∧ (s.gameOver = false → checkWinner s.board = none) ∧
    ∃ i m, ∀ l ∈ WIN_LINES, ∀ k, Uniform s.board l k → k = m ∧ OnLine i l

/-- The score the Hard loop computes for the empty index `i`, through the
reference: the plain minimax value of the board with O placed at `i`, X
to move, depth 0. -/
def hardScore (b : Board) (i : Nat) : Num :=
  plainMinimax (b.set i (Cell.mark Mark.O)) false 0

/-- The selection of the Hard loop as a function of the scores: keep the
index whose score is strictly greater than the best so far. -/
def pickBest (sc : Nat → Num) : List Nat → Num → Option Nat → Option Nat
  | [], _, move => move
  | i :: rest, best, move =>
    if best < sc i then pickBest sc rest (sc i) (some i)
    else pickBest sc rest best move

/-- A position with O to move and one threat: X on 0 and 1, O on 4. -/
def singleThreat : Board :=
  [Cell.mark Mark.X, Cell.mark Mark.X, Cell.null,
   Cell.null, Cell.mark Mark.O, Cell.null,
   Cell.null, Cell.null, Cell.null]

/-- Exchange of the two marks in one cell. -/
def Cell.swap : Cell → Cell
  | Cell.mark m => Cell.mark m.other
  | c => c

/-- The board with every X and O mark exchanged. -/
def swap (b : Board) : Board := b.map Cell.swap

/-- Negation of a number, as JavaScript's unary minus. -/
def Num.neg : Num → Num
  | Num.negInf => Num.posInf
  | Num.fin n => Num.fin (-n)
  | Num.posInf => Num.negInf

/-- A result with the winner's mark exchanged. -/
def Result.swap : Result → Result
  | Result.win m l => Result.win m.other l
  | Result.draw => Result.draw

/-- The side O can avoid losing from the position `b`; the flag says whether O
is to move.  Either the game is finished and X has not won, or it is X's
turn and O holds after every move of X, or it is O's turn and O holds
after some move of O. -/
inductive Holds : Board → Bool → Prop
  | done (b : Board) (t : Bool) (r : Result) (h : checkWinner b = some r)
      (hx : ∀ l, r ≠ Result.win Mark.X l) : Holds b t
  | xMove (b : Board) (h : checkWinner b = none)
      (hall : ∀ i ∈ emptyIdx b, Holds (b.set i (Cell.mark Mark.X)) true) : Holds b false
  | oMove (b : Board) (i : Nat) (h : checkWinner b = none) (hi : i ∈ emptyIdx b)
      (hnext : Holds (b.set i (Cell.mark Mark.O)) false) : Holds b true

/-- Whether a cell holds the mark `m`. -/
def Cell.isMark (m : Mark) : Cell → Bool
  | Cell.mark Mark.X => match m with
    | Mark.X => true
    | Mark.O => false
  | Cell.mark Mark.O => match m with
    | Mark.X => false
    | Mark.O => true
  | _ => false

/-- Whether a cell is `null`. -/
def Cell.isNull : Cell → Bool
  | Cell.null => true
  | _ => false

/-- Whether one of the eight triples is uniformly marked `m` on the board with
cells `a` to `i`. -/
def wins9 (m : Mark) (a b c d e f g h i : Cell) : Bool :=
  (a.isMark m && b.isMark m && c.isMark m) || (d.isMark m && e.isMark m && f.isMark m) ||
  (g.isMark m && h.isMark m && i.isMark m) || (a.isMark m && d.isMark m && g.isMark m) ||
  (b.isMark m && e.isMark m && h.isMark m) || (c.isMark m && f.isMark m && i.isMark m) ||
  (a.isMark m && e.isMark m && i.isMark m) || (c.isMark m && e.isMark m && g.isMark m)

/-- A search, over the cells `a` to `i`, for a way for O never to lose: at X's
turn every move of X is followed up, at O's turn the first move that works
is taken, the centre and the corners being tried first. -/
def holds9 : Nat → Bool → Cell → Cell → Cell → Cell → Cell → Cell → Cell → Cell → Cell → Bool
  | 0, _, _, _, _, _, _, _, _, _, _ => false
  | n + 1, oToMove, a, b, c, d, e, f, g, h, i =>
    if wins9 Mark.X a b c d e f g h i then false
    else if wins9 Mark.O a b c d e f g h i then true
    else if oToMove then
      (!a.isNull && !b.isNull && !c.isNull && !d.isNull && !e.isNull && !f.isNull &&
        !g.isNull && !h.isNull && !i.isNull) ||
      (e.isNull && holds9 n false a b c d (Cell.mark Mark.O) f g h i) ||
      (a.isNull && holds9 n false (Cell.mark Mark.O) b c d e f g h i) ||
      (c.isNull && holds9 n false a b (Cell.mark Mark.O) d e f g h i) ||
      (g.isNull && holds9 n false a b c d e f (Cell.mark Mark.O) h i) ||
      (i.isNull && holds9 n false a b c d e f g h (Cell.mark Mark.O)) ||
      (b.isNull && holds9 n false a (Cell.mark Mark.O) c d e f g h i) ||
      (d.isNull && holds9 n false a b c (Cell.mark Mark.O) e f g h i) ||
      (f.isNull && holds9 n false a b c d e (Cell.mark Mark.O) g h i) ||
      (h.isNull && holds9 n false a b c d e f g (Cell.mark Mark.O) i)
    else
      (!a.isNull || holds9 n true (Cell.mark Mark.X) b c d e f g h i) &&
      (!b.isNull || holds9 n true a (Cell.mark Mark.X) c d e f g h i) &&
      (!c.isNull || holds9 n true a b (Cell.mark Mark.X) d e f g h i) &&
      (!d.isNull || holds9 n true a b c (Cell.mark Mark.X) e f g h i) &&
      (!e.isNull || holds9 n true a b c d (Cell.mark Mark.X) f g h i) &&
      (!f.isNull || holds9 n true a b c d e (Cell.mark Mark.X) g h i) &&
      (!g.isNull || holds9 n true a b c d e f (Cell.mark Mark.X) h i) &&
      (!h.isNull || holds9 n true a b c d e f g (Cell.mark Mark.X) i) &&
      (!i.isNull || holds9 n true a b c d e f g h (Cell.mark Mark.X))

/-- A new game against the computer on Hard. -/
def HardBotGame (s0 : State) : Prop :=
  NewGame s0 ∧ s0.mode = Mode.bot ∧ s0.difficulty = Difficulty.hard

/-- What holds of every state of a game against the computer on Hard: the
game is over and X has not won; or the human is to move, no bot callback
is pending and O can hold the position; or the single bot callback is
pending and O, to move, can hold the position. -/
def HardInv (s : State) : Prop :=
  s.mode = Mode.bot ∧ s.difficulty = Difficulty.hard ∧ Board9 s.board ∧
  ((s.gameOver = true ∧ (∀ l, checkWinner s.board ≠ some (Result.win Mark.X l)) ∧
      s.timers.count Timer.botMove = 0) ∨
   (s.gameOver = false ∧ s.botThinking = false ∧ s.current = Mark.X ∧
      checkWinner s.board = none ∧ Holds s.board false ∧
      s.timers.count Timer.botMove = 0) ∨
   (s.gameOver = false ∧ s.botThinking = true ∧ checkWinner s.board = none ∧
      Holds s.board true ∧ s.timers.count Timer.botMove ≤ 1))

/-- The start of a game against the computer on Hard. -/
def hardStart : State :=
  { mode := Mode.bot
    difficulty := Difficulty.hard
    board := List.replicate 9 Cell.null
    boardProps := []
    current := Mark.X
    gameOver := false
    scores := { X := 0, O := 0, D := 0 }
    botThinking := false
    timers := [] }

/-- Placing the mark `m` on the empty cell `i` completes a triple of
`WIN_LINES` with three marks `m`. -/
def Completes (m : Mark) (b : Board) (i : Nat) : Prop :=
  b[i]? = some Cell.null ∧ ∃ l ∈ WIN_LINES, Uniform (b.set i (Cell.mark m)) l m

/-- A position with O to move in which O (on 0, 1) can win at index 2 and X
(on 3, 4) threatens at index 5. -/
def winOrBlock : Board :=
  [Cell.mark Mark.O, Cell.mark Mark.O, Cell.null,
   Cell.mark Mark.X, Cell.mark Mark.X, Cell.null,
   Cell.null, Cell.null, Cell.null]

/-! ## Theorems -/

/-! ### `checkWinner` -/

theorem jsGet_eq_mark (b : Board) (i : Nat) (m : Mark) :
    jsGet b i = Cell.mark m ↔ b[i]? = some (Cell.mark m) := by
  unfold jsGet
  rw [List.getD_eq_getElem?_getD]
  cases h : b[i]? with
  | none => simp
  | some c => cases c <;> simp

theorem lineWinner_eq_some (b : Board) (l : Nat × Nat × Nat) (m : Mark) :
    lineWinner b l = some m ↔ Uniform b l m := by
  unfold lineWinner Uniform
  cases h : jsGet b l.1 with
  | mark m' =>
    rw [← jsGet_eq_mark, ← jsGet_eq_mark, ← jsGet_eq_mark, h]
    by_cases hm : m' = m
    · subst hm
      by_cases h2 : jsGet b l.2.1 = Cell.mark m' ∧ jsGet b l.2.2 = Cell.mark m'
      · simp [h2]
      · simp [h2]
    · constructor
      · intro h1
        by_cases h2 : jsGet b l.2.1 = Cell.mark m' ∧ jsGet b l.2.2 = Cell.mark m'
        · simp only [h2, and_self, if_true, Option.some.injEq] at h1
          exact absurd h1 hm
        · simp only [h2, if_false] at h1
          exact absurd h1 (by simp)
      · intro h1
        exact absurd (Cell.mark.inj h1.1) hm
  | hole => simp [← jsGet_eq_mark, h]
  | undef => simp [← jsGet_eq_mark, h]
  | null => simp [← jsGet_eq_mark, h]

theorem lineWinner_eq_none (b : Board) (l : Nat × Nat × Nat) :
    lineWinner b l = none ↔ ∀ m, ¬ Uniform b l m := by
  constructor
  · intro h m hu
    rw [← lineWinner_eq_some, h] at hu
    exact absurd hu (by simp)
  · intro h
    cases hl : lineWinner b l with
    | none => rfl
    | some m => exact absurd ((lineWinner_eq_some b l m).1 hl) (h m)

theorem scanLines_ne_draw (b : Board) (ls : List (Nat × Nat × Nat)) :
    scanLines b ls ≠ some Result.draw := by
  induction ls with
  | nil => simp [scanLines]
  | cons l rest ih =>
    unfold scanLines
    cases lineWinner b l with
    | none => exact ih
    | some m => simp

theorem scanLines_eq_none (b : Board) (ls : List (Nat × Nat × Nat)) :
    scanLines b ls = none ↔ ∀ l ∈ ls, ∀ m, ¬ Uniform b l m := by
  induction ls with
  | nil => simp [scanLines]
  | cons l rest ih =>
    unfold scanLines
    cases hl : lineWinner b l with
    | none =>
      have h0 := (lineWinner_eq_none b l).1 hl
      simp only [ih, List.mem_cons, forall_eq_or_imp]
      exact ⟨fun h => ⟨h0, h⟩, fun h => h.2⟩
    | some m =>
      have h0 := (lineWinner_eq_some b l m).1 hl
      simp only [List.mem_cons, forall_eq_or_imp]
      constructor
      · intro h; exact absurd h (by simp)
      · intro h; exact absurd h0 (h.1 m)

theorem scanLines_eq_win (b : Board) (ls : List (Nat × Nat × Nat)) (m : Mark)
    (L : Nat × Nat × Nat) :
    scanLines b ls = some (Result.win m L) ↔
      ∃ pre post, ls = pre ++ L :: post ∧ Uniform b L m ∧
        ∀ l ∈ pre, ∀ k, ¬ Uniform b l k := by
  induction ls with
  | nil => simp [scanLines]
  | cons l rest ih =>
    unfold scanLines
    cases hl : lineWinner b l with
    | none =>
      have h0 := (lineWinner_eq_none b l).1 hl
      simp only [ih]
      constructor
      · rintro ⟨pre, post, h1, h2, h3⟩
        refine ⟨l :: pre, post, by simp [h1], h2, ?_⟩
        intro l' hl' k
        rcases List.mem_cons.1 hl' with h | h
        · subst h; exact h0 k
        · exact h3 l' h k
      · rintro ⟨pre, post, h1, h2, h3⟩
        cases pre with
        | nil =>
          simp only [List.nil_append, List.cons.injEq] at h1
          rw [← h1.1] at h2
          exact absurd h2 (h0 m)
        | cons p pre' =>
          simp only [List.cons_append, List.cons.injEq] at h1
          exact ⟨pre', post, h1.2, h2, fun l' hl' => h3 l' (List.mem_cons_of_mem _ hl')⟩
    | some m' =>
      have h0 := (lineWinner_eq_some b l m').1 hl
      constructor
      · intro h
        simp only [Option.some.injEq, Result.win.injEq] at h
        obtain ⟨h1, h2⟩ := h
        subst h1; subst h2
        exact ⟨[], rest, rfl, h0, by simp⟩
      · rintro ⟨pre, post, h1, h2, h3⟩
        cases pre with
        | nil =>
          simp only [List.nil_append, List.cons.injEq] at h1
          obtain ⟨h1, -⟩ := h1
          subst h1
          have : lineWinner b l = some m := (lineWinner_eq_some b l m).2 h2
          rw [hl] at this
          simp only [Option.some.injEq] at this
          rw [this]
        | cons p pre' =>
          simp only [List.cons_append, List.cons.injEq] at h1
          obtain ⟨h1, -⟩ := h1
          subst h1
          exact absurd h0 (h3 l (List.mem_cons_self _ _) m')

theorem checkWinner_eq_win (b : Board) (m : Mark) (L : Nat × Nat × Nat) :
    checkWinner b = some (Result.win m L) ↔ scanLines b WIN_LINES = some (Result.win m L) := by
  unfold checkWinner
  cases h : scanLines b WIN_LINES with
  | none =>
    simp only []
    split <;> simp
  | some r => simp

/-- Claim C1.  `checkWinner` returns the win result with mark `m` and line `L`
exactly when `L` is the first triple of `WIN_LINES`, in the source order of
rows, columns, diagonals, whose three cells all hold `m`; in particular,
when the only uniformly marked triple is `L`, the result names `L` and its
mark.  This holds for every board buffer, so for every 9-cell board. -/
theorem checkWinner_win_iff_first_uniform (b : Board) :
    WIN_LINES = [(0,1,2), (3,4,5), (6,7,8), (0,3,6), (1,4,7), (2,5,8), (0,4,8), (2,4,6)] ∧
    (∀ m L, checkWinner b = some (Result.win m L) ↔
      ∃ pre post, WIN_LINES = pre ++ L :: post ∧ Uniform b L m ∧
        ∀ l ∈ pre, ∀ k, ¬ Uniform b l k) ∧
    (∀ m L, L ∈ WIN_LINES → Uniform b L m →
      (∀ l ∈ WIN_LINES, ∀ k, Uniform b l k → l = L) →
      checkWinner b = some (Result.win m L)) := by
  refine ⟨rfl, ?_, ?_⟩
  · intro m L
    rw [checkWinner_eq_win, scanLines_eq_win]
  · intro m L hL hu hone
    rw [checkWinner_eq_win, scanLines_eq_win]
    obtain ⟨pre, post, h1, h2⟩ := List.eq_append_cons_of_mem hL
    refine ⟨pre, post, h1, hu, ?_⟩
    intro l hl k huk
    have hmem : l ∈ WIN_LINES := by rw [h1]; exact List.mem_append_left _ hl
    have := hone l hmem k huk
    subst this
    exact h2 hl

theorem board9_cell_cases {b : Board} (hb : Board9 b) {c : Cell} (hc : c ∈ b) :
    c = Cell.null ∨ ∃ m, c = Cell.mark m := by
  have := hb.2 c hc
  cases c with
  | hole => exact absurd rfl this.1
  | undef => exact absurd rfl this.2
  | null => exact Or.inl rfl
  | mark m => exact Or.inr ⟨m, rfl⟩

theorem everyBoolean_iff (b : Board) :
    everyBoolean b = true ↔ ∀ c ∈ b, c = Cell.hole ∨ ∃ m, c = Cell.mark m := by
  unfold everyBoolean
  rw [List.all_eq_true]
  constructor
  · intro h c hc
    have := h c hc
    cases c <;> simp [Cell.truthy] at this ⊢
  · intro h c hc
    rcases h c hc with h1 | ⟨m, h1⟩ <;> subst h1 <;> simp [Cell.truthy]

theorem board9_everyBoolean_iff {b : Board} (hb : Board9 b) :
    everyBoolean b = true ↔ ∀ i, i < 9 → ∃ m, b[i]? = some (Cell.mark m) := by
  rw [everyBoolean_iff]
  constructor
  · intro h i hi
    have hlt : i < b.length := by rw [hb.1]; exact hi
    have hmem : b[i] ∈ b := List.getElem_mem hlt
    rcases h _ hmem with h1 | ⟨m, h1⟩
    · exact absurd h1 (hb.2 _ hmem).1
    · exact ⟨m, by rw [List.getElem?_eq_getElem hlt, h1]⟩
  · intro h c hc
    obtain ⟨i, hi, rfl⟩ := List.getElem_of_mem hc
    obtain ⟨m, hm⟩ := h i (by rw [← hb.1]; exact hi)
    rw [List.getElem?_eq_getElem hi] at hm
    exact Or.inr ⟨m, Option.some.inj hm⟩

theorem board9_not_everyBoolean_iff {b : Board} (hb : Board9 b) :
    everyBoolean b = false ↔ ∃ i, i < 9 ∧ b[i]? = some Cell.null := by
  rw [← Bool.not_eq_true, board9_everyBoolean_iff hb]
  constructor
  · intro h
    by_contra hcon
    apply h
    intro i hi
    have hlt : i < b.length := by rw [hb.1]; exact hi
    rcases board9_cell_cases hb (List.getElem_mem hlt) with h1 | ⟨m, h1⟩
    · exact absurd ⟨i, hi, by rw [List.getElem?_eq_getElem hlt, h1]⟩ hcon
    · exact ⟨m, by rw [List.getElem?_eq_getElem hlt, h1]⟩
  · rintro ⟨i, hi, h1⟩ h
    obtain ⟨m, hm⟩ := h i hi
    rw [h1] at hm
    exact absurd (Option.some.inj hm) (by simp)

theorem checkWinner_eq_draw (b : Board) :
    checkWinner b = some Result.draw ↔
      scanLines b WIN_LINES = none ∧ everyBoolean b = true := by
  unfold checkWinner
  cases h : scanLines b WIN_LINES with
  | none =>
    simp only [true_and]
    cases everyBoolean b <;> simp
  | some r =>
    have := scanLines_ne_draw b WIN_LINES
    rw [h] at this
    constructor
    · intro h1
      exact absurd h1 this
    · intro h1
      exact absurd h1.1 (by simp)

theorem checkWinner_eq_none (b : Board) :
    checkWinner b = none ↔ scanLines b WIN_LINES = none ∧ everyBoolean b = false := by
  unfold checkWinner
  cases h : scanLines b WIN_LINES with
  | none =>
    simp only [true_and]
    cases everyBoolean b <;> simp
  | some r => simp

/-- Claim C2.  On a 9-cell board over empty, X, O, `checkWinner` returns the draw
result exactly when all nine cells hold a mark and no triple of `WIN_LINES`
is uniformly marked, and returns `null` exactly when no triple is uniformly
marked and some cell is empty. -/
theorem checkWinner_draw_iff_and_null_iff (b : Board) (hb : Board9 b) :
    (checkWinner b = some Result.draw ↔
      (∀ i, i < 9 → ∃ m, b[i]? = some (Cell.mark m)) ∧
        ∀ l ∈ WIN_LINES, ∀ m, ¬ Uniform b l m) ∧
    (checkWinner b = none ↔
      (∀ l ∈ WIN_LINES, ∀ m, ¬ Uniform b l m) ∧
        ∃ i, i < 9 ∧ b[i]? = some Cell.null) := by
  constructor
  · rw [checkWinner_eq_draw, scanLines_eq_none, board9_everyBoolean_iff hb]
    exact And.comm
  · rw [checkWinner_eq_none, scanLines_eq_none, board9_not_everyBoolean_iff hb]

/-- Witness for C2: the full board X O X / X O O / O X X is a draw. -/
theorem checkWinner_draw_iff_and_null_iff_witness :
    Board9 [Cell.mark Mark.X, Cell.mark Mark.O, Cell.mark Mark.X,
            Cell.mark Mark.X, Cell.mark Mark.O, Cell.mark Mark.O,
            Cell.mark Mark.O, Cell.mark Mark.X, Cell.mark Mark.X] ∧
    checkWinner [Cell.mark Mark.X, Cell.mark Mark.O, Cell.mark Mark.X,
            Cell.mark Mark.X, Cell.mark Mark.O, Cell.mark Mark.O,
            Cell.mark Mark.O, Cell.mark Mark.X, Cell.mark Mark.X] = some Result.draw ∧
    ((∀ i, i < 9 → ∃ m, [Cell.mark Mark.X, Cell.mark Mark.O, Cell.mark Mark.X,
            Cell.mark Mark.X, Cell.mark Mark.O, Cell.mark Mark.O,
            Cell.mark Mark.O, Cell.mark Mark.X, Cell.mark Mark.X][i]? = some (Cell.mark m)) ∧
        ∀ l ∈ WIN_LINES, ∀ m, ¬ Uniform [Cell.mark Mark.X, Cell.mark Mark.O, Cell.mark Mark.X,
            Cell.mark Mark.X, Cell.mark Mark.O, Cell.mark Mark.O,
            Cell.mark Mark.O, Cell.mark Mark.X, Cell.mark Mark.X] l m) :=
  ⟨by decide, by decide,
   (checkWinner_draw_iff_and_null_iff _ (by decide)).1.1 (by decide)⟩

/-! ### Order on `Num` through integer codes -/

theorem num_rank_cases (a : Num) :
    (a.rank = -1 ∧ a.val = 0) ∨ a.rank = 0 ∨ (a.rank = 1 ∧ a.val = 0) := by
  cases a <;> simp [Num.rank, Num.val]

theorem num_le_iff (a b : Num) :
    a ≤ b ↔ a.rank < b.rank ∨ (a.rank = b.rank ∧ a.val ≤ b.val) := by
  show Num.le a b ↔ _
  cases a <;> cases b <;> simp [Num.le, Num.rank, Num.val]

theorem num_lt_iff (a b : Num) :
    a < b ↔ a.rank < b.rank ∨ (a.rank = b.rank ∧ a.val < b.val) := by
  rw [lt_iff_not_le, num_le_iff]
  have ha := num_rank_cases a
  have hb := num_rank_cases b
  omega

theorem num_eq_iff (a b : Num) :
    a = b ↔ a.rank = b.rank ∧ a.val = b.val := by
  constructor
  · intro h; subst h; exact ⟨rfl, rfl⟩
  · cases a <;> cases b <;> simp [Num.rank, Num.val]

theorem bounds_self (α β v : Num) : Bounds α β v v :=
  ⟨fun _ => le_refl v, fun _ => le_refl v, fun _ _ => rfl⟩

theorem maxStep_break (best α β ri vi V : Num) (h1 : best ≤ α) (h2 : α < β)
    (hc : Bounds α β ri vi) (hb : β ≤ max α (max best ri)) :
    Bounds α β (max best ri) (max (max best vi) V) := by
  obtain ⟨-, hc2, -⟩ := hc
  have hri : β ≤ ri := by
    rcases le_max_iff.1 hb with h | h
    · exact absurd h (not_le.2 h2)
    · rcases le_max_iff.1 h with h | h
      · exact absurd (le_trans h h1) (not_le.2 h2)
      · exact h
  have hbr : best ≤ ri := le_trans h1 (le_trans (le_of_lt h2) hri)
  rw [max_eq_right hbr]
  have hv : ri ≤ max (max best vi) V :=
    le_trans (hc2 hri) (le_trans (le_max_right _ _) (le_max_left _ _))
  refine ⟨fun h => ?_, fun _ => hv, fun _ h => ?_⟩
  · exact absurd (le_trans hri h) (not_le.2 h2)
  · exact absurd hri (not_le.2 h)

theorem maxStep_cont (best α β ri vi V r : Num) (h1 : best ≤ α) (h2 : α < β)
    (hc : Bounds α β ri vi) (hnb : ¬ β ≤ max α (max best ri))
    (hr : max best ri ≤ r)
    (ih : Bounds (max α (max best ri)) β r (max (max best ri) V)) :
    Bounds α β r (max (max best vi) V) := by
  obtain ⟨hc1, -, hc3⟩ := hc
  obtain ⟨ih1, ih2, ih3⟩ := ih
  have hnb1 : max α (max best ri) < β := not_le.1 hnb
  have hriβ : ri < β :=
    lt_of_le_of_lt (le_trans (le_max_right _ _) (le_max_right _ _)) hnb1
  have hbr : best ≤ r := le_trans (le_max_left _ _) hr
  have hrir : ri ≤ r := le_trans (le_max_right _ _) hr
  have hA1 : vi ≤ ri := by
    rcases le_or_lt ri α with h | h
    · exact hc1 h
    · exact le_of_eq (hc3 h hriβ).symm
  have hWW : max (max best vi) V ≤ max (max best ri) V :=
    max_le_max (max_le_max (le_refl _) hA1) (le_refl _)
  refine ⟨fun h => ?_, fun h => ?_, fun ha hb => ?_⟩
  · exact le_trans hWW (ih1 (le_trans h (le_max_left _ _)))
  · have h3 := ih2 h
    rcases le_max_iff.1 h3 with h4 | h4
    · rcases le_max_iff.1 h4 with h5 | h5
      · exact absurd (le_trans h (le_trans h5 h1)) (not_le.2 h2)
      · exact absurd (le_trans h h5) (not_le.2 hriβ)
    · exact le_trans h4 (le_max_right _ _)
  · rcases le_or_lt r (max α (max best ri)) with h | h
    · have hW1 := ih1 h
      have hrri : r ≤ ri := by
        rcases le_max_iff.1 h with h4 | h4
        · exact absurd h4 (not_le.2 ha)
        · rcases le_max_iff.1 h4 with h5 | h5
          · exact absurd (le_trans h5 h1) (not_le.2 ha)
          · exact h5
      have hrieq : ri = r := le_antisymm hrir hrri
      have hvi : ri = vi := hc3 (by rw [hrieq]; exact ha) hriβ
      apply le_antisymm
      · rw [← hrieq, hvi]
        exact le_trans (le_max_right _ _) (le_max_left _ _)
      · exact le_trans hWW hW1
    · have hW1 := ih3 h hb
      have hVr : r ≤ V := by
        have h3 : r ≤ max (max best ri) V := le_of_eq hW1
        rcases le_max_iff.1 h3 with h4 | h4
        · exact absurd (le_trans h4 (le_max_right _ _)) (not_le.2 h)
        · exact h4
      apply le_antisymm
      · exact le_trans hVr (le_max_right _ _)
      · rw [hW1]; exact hWW

theorem minStep_break (best α β ri vi V : Num) (h1 : β ≤ best) (h2 : α < β)
    (hc : Bounds α β ri vi) (hb : min β (min best ri) ≤ α) :
    Bounds α β (min best ri) (min (min best vi) V) := by
  obtain ⟨hc1, -, -⟩ := hc
  have hri : ri ≤ α := by
    rcases min_le_iff.1 hb with h | h
    · exact absurd h (not_le.2 h2)
    · rcases min_le_iff.1 h with h | h
      · exact absurd (le_trans h1 h) (not_le.2 h2)
      · exact h
  have hbr : ri ≤ best := le_trans hri (le_trans (le_of_lt h2) h1)
  rw [min_eq_right hbr]
  have hv : min (min best vi) V ≤ ri :=
    le_trans (le_trans (min_le_left _ _) (min_le_right _ _)) (hc1 hri)
  refine ⟨fun _ => hv, fun h => ?_, fun h _ => ?_⟩
  · exact absurd (le_trans h hri) (not_le.2 h2)
  · exact absurd hri (not_le.2 h)

theorem minStep_cont (best α β ri vi V r : Num) (h1 : β ≤ best) (h2 : α < β)
    (hc : Bounds α β ri vi) (hnb : ¬ min β (min best ri) ≤ α)
    (hr : r ≤ min best ri)
    (ih : Bounds α (min β (min best ri)) r (min (min best ri) V)) :
    Bounds α β r (min (min best vi) V) := by
  obtain ⟨-, hc2, hc3⟩ := hc
  obtain ⟨ih1, ih2, ih3⟩ := ih
  have hnb1 : α < min β (min best ri) := not_le.1 hnb
  have hriα : α < ri :=
    lt_of_lt_of_le hnb1 (le_trans (min_le_right _ _) (min_le_right _ _))
  have hbr : r ≤ best := le_trans hr (min_le_left _ _)
  have hrir : r ≤ ri := le_trans hr (min_le_right _ _)
  have hA1 : ri ≤ vi := by
    rcases le_or_lt β ri with h | h
    · exact hc2 h
    · exact le_of_eq (hc3 hriα h)
  have hWW : min (min best ri) V ≤ min (min best vi) V :=
    min_le_min (min_le_min (le_refl _) hA1) (le_refl _)
  refine ⟨fun h => ?_, fun h => ?_, fun ha hb => ?_⟩
  · have h3 := ih1 h
    rcases min_le_iff.1 h3 with h4 | h4
    · rcases min_le_iff.1 h4 with h5 | h5
      · exact absurd (le_trans h1 (le_trans h5 h)) (not_le.2 h2)
      · exact absurd (le_trans h5 h) (not_le.2 hriα)
    · exact le_trans (min_le_right _ _) h4
  · exact le_trans (ih2 (le_trans (min_le_left _ _) h)) hWW
  · rcases le_or_lt (min β (min best ri)) r with h | h
    · have hW1 := ih2 h
      have hrri : ri ≤ r := by
        rcases min_le_iff.1 h with h4 | h4
        · exact absurd h4 (not_le.2 hb)
        · rcases min_le_iff.1 h4 with h5 | h5
          · exact absurd (le_trans h1 h5) (not_le.2 hb)
          · exact h5
      have hrieq : ri = r := le_antisymm hrri hrir
      have hvi : ri = vi := hc3 hriα (by rw [hrieq]; exact hb)
      apply le_antisymm
      · exact le_trans hW1 hWW
      · rw [← hrieq, hvi]
        exact le_trans (min_le_left _ _) (min_le_right _ _)
    · have hW1 := ih3 ha h
      have hVr : V ≤ r := by
        have h3 : min (min best ri) V ≤ r := le_of_eq hW1.symm
        rcases min_le_iff.1 h3 with h4 | h4
        · exact absurd (le_trans (min_le_right _ _) h4) (not_le.2 h)
        · exact h4
      apply le_antisymm
      · rw [hW1]; exact hWW
      · exact le_trans (min_le_right _ _) hVr

theorem bounds_full (r v : Num) (h : Bounds Num.negInf Num.posInf r v) : r = v := by
  simp only [Bounds, num_le_iff, num_lt_iff, num_eq_iff] at *
  have h1 : Num.negInf.rank = -1 := rfl
  have h2 : Num.posInf.rank = 1 := rfl
  have h3 : Num.negInf.val = 0 := rfl
  have h4 : Num.posInf.val = 0 := rfl
  have ha := num_rank_cases r
  have hb := num_rank_cases v
  omega

/-! ### The board buffer -/

theorem mem_emptyIdx (b : Board) (i : Nat) :
    i ∈ emptyIdx b ↔ b[i]? = some Cell.undef ∨ b[i]? = some Cell.null := by
  unfold emptyIdx
  rw [List.mem_filter, List.mem_range, List.getD_eq_getElem?_getD]
  constructor
  · rintro ⟨hlt, h⟩
    rw [List.getElem?_eq_getElem hlt] at h ⊢
    simp only [Option.getD_some] at h
    cases hc : b[i] <;> simp [hc] at h ⊢
  · intro h
    have hlt : i < b.length := by
      rcases h with h | h <;>
        exact (List.getElem?_eq_some_iff.1 h).1
    refine ⟨hlt, ?_⟩
    rcases h with h | h <;> simp [h]

theorem clean_mem_emptyIdx {b : Board} (hb : Clean b) (i : Nat) :
    i ∈ emptyIdx b ↔ b[i]? = some Cell.null := by
  rw [mem_emptyIdx]
  constructor
  · rintro (h | h)
    · obtain ⟨hlt, hc⟩ := List.getElem?_eq_some_iff.1 h
      have hmem : b[i] ∈ b := List.getElem_mem hlt
      rw [hc] at hmem
      exact absurd rfl (hb _ hmem).2
    · exact h
  · exact Or.inr

theorem clean_set {b : Board} (hb : Clean b) (i : Nat) {c : Cell}
    (h1 : c ≠ Cell.hole) (h2 : c ≠ Cell.undef) : Clean (b.set i c) := by
  intro x hx
  rcases List.mem_or_eq_of_mem_set hx with h | h
  · exact hb x h
  · subst h; exact ⟨h1, h2⟩

theorem clean_set_mark {b : Board} (hb : Clean b) (i : Nat) (m : Mark) :
    Clean (b.set i (Cell.mark m)) :=
  clean_set hb i (by simp) (by simp)

theorem set_set_null {b : Board} {i : Nat} (h : b[i]? = some Cell.null) (c : Cell) :
    (b.set i c).set i Cell.null = b := by
  rw [List.set_set]
  apply List.ext_getElem?
  intro j
  rw [List.getElem?_set]
  by_cases hij : i = j
  · subst hij
    have hlt : i < b.length := (List.getElem?_eq_some_iff.1 h).1
    simp [hlt, h]
  · simp [hij]

theorem emptyIdx_set_mark (b : Board) (i : Nat) (m : Mark) :
    emptyIdx (b.set i (Cell.mark m)) = (emptyIdx b).filter (fun j => decide (j ≠ i)) := by
  unfold emptyIdx
  rw [List.length_set, List.filter_filter]
  apply List.filter_congr
  intro j hj
  have hlt : j < b.length := List.mem_range.1 hj
  by_cases hji : j = i
  · subst hji
    simp [List.getElem?_set, hlt]
  · have hij : ¬ i = j := fun h => hji h.symm
    simp [List.getElem?_set, hji, hij]

theorem emptyIdx_set_mark_length_lt {b : Board} {i : Nat} (hi : i ∈ emptyIdx b) (m : Mark) :
    (emptyIdx (b.set i (Cell.mark m))).length < (emptyIdx b).length := by
  rw [emptyIdx_set_mark]
  exact List.length_filter_lt_length_iff_exists.2 ⟨i, hi, by simp⟩

/-! ### The reference `plainMinimax` -/

theorem plainMinimax_unfold (b : Board) (isMax : Bool) (d : Int) :
    plainMinimax b isMax d =
      match checkWinner b with
      | some (Result.win Mark.O _) => Num.fin (10 - d)
      | some (Result.win Mark.X _) => Num.fin (d - 10)
      | some Result.draw => Num.fin 0
      | none =>
        if isMax then
          ((emptyIdx b).map
            (fun i => plainMinimax (b.set i (Cell.mark Mark.O)) false (d + 1))).foldl
            max Num.negInf
        else
          ((emptyIdx b).map
            (fun i => plainMinimax (b.set i (Cell.mark Mark.X)) true (d + 1))).foldl
            min Num.posInf := by
  have h := plainMinimax.eq_1 b isMax d
  rw [List.attach_map_coe (emptyIdx b)
        (fun i => plainMinimax (b.set i (Cell.mark Mark.O)) false (d + 1)),
      List.attach_map_coe (emptyIdx b)
        (fun i => plainMinimax (b.set i (Cell.mark Mark.X)) true (d + 1))] at h
  refine h.trans ?_
  cases checkWinner b with
  | none => rfl
  | some r =>
    cases r with
    | draw => rfl
    | win m l => cases m <;> rfl

theorem negInf_le (a : Num) : Num.negInf ≤ a := (trivial : Num.le Num.negInf a)

theorem le_posInf (a : Num) : a ≤ Num.posInf := by
  show Num.le a Num.posInf
  cases a <;> trivial

theorem foldl_max_eq (l : List Num) (a : Num) :
    l.foldl max a = max a (l.foldl max Num.negInf) := by
  induction l generalizing a with
  | nil => simp [max_eq_left (negInf_le a)]
  | cons x l ih =>
    rw [List.foldl_cons, List.foldl_cons, ih (max a x), ih (max Num.negInf x),
      max_eq_right (negInf_le x), max_assoc]

theorem foldl_min_eq (l : List Num) (a : Num) :
    l.foldl min a = min a (l.foldl min Num.posInf) := by
  induction l generalizing a with
  | nil => simp [min_eq_left (le_posInf a)]
  | cons x l ih =>
    rw [List.foldl_cons, List.foldl_cons, ih (min a x), ih (min Num.posInf x),
      min_eq_right (le_posInf x), min_assoc]

/-! ### The loops of `minimax` -/

theorem maxLoop_spec (rec : Board → Num → Num → Ret Num) (val : Nat → Num) (b : Board) :
    ∀ moves : List Nat,
    (∀ i ∈ moves, (b.set i (Cell.mark Mark.O)).set i Cell.null = b) →
    (∀ i ∈ moves, ∀ α β, ∃ r,
      rec (b.set i (Cell.mark Mark.O)) α β = some (r, b.set i (Cell.mark Mark.O)) ∧
        (α < β → Bounds α β r (val i))) →
    ∀ best α β, ∃ r, maxLoop rec moves b best α β = some (r, b) ∧ best ≤ r ∧
      (best ≤ α → α < β →
        Bounds α β r (max best ((moves.map val).foldl max Num.negInf))) := by
  intro moves
  induction moves with
  | nil =>
    intro _ _ best α β
    refine ⟨best, rfl, le_refl _, fun _ _ => ?_⟩
    simp only [List.map_nil, List.foldl_nil, max_eq_left (negInf_le best)]
    exact bounds_self α β best
  | cons i rest ih =>
    intro hnull hrec best α β
    obtain ⟨ri, hri, hbi⟩ := hrec i (List.mem_cons_self _ _) α β
    have hW : max best (((i :: rest).map val).foldl max Num.negInf) =
        max (max best (val i)) ((rest.map val).foldl max Num.negInf) := by
      rw [List.map_cons, List.foldl_cons, max_eq_right (negInf_le (val i)),
        foldl_max_eq, max_assoc]
    have ih1 := ih (fun j hj => hnull j (List.mem_cons_of_mem _ hj))
      (fun j hj => hrec j (List.mem_cons_of_mem _ hj))
    unfold maxLoop
    rw [hri]
    simp only []
    rw [hnull i (List.mem_cons_self _ _)]
    by_cases hbr : β ≤ max α (max best ri)
    · rw [if_pos hbr]
      refine ⟨max best ri, rfl, le_max_left _ _, fun h1 h2 => ?_⟩
      rw [hW]
      exact maxStep_break best α β ri (val i) _ h1 h2 (hbi h2) hbr
    · rw [if_neg hbr]
      obtain ⟨r, hr, hle, hb⟩ := ih1 (max best ri) (max α (max best ri)) β
      refine ⟨r, hr, le_trans (le_max_left _ _) hle, fun h1 h2 => ?_⟩
      rw [hW]
      exact maxStep_cont best α β ri (val i) _ r h1 h2 (hbi h2) hbr hle
        (hb (le_max_right _ _) (not_le.1 hbr))

theorem minLoop_spec (rec : Board → Num → Num → Ret Num) (val : Nat → Num) (b : Board) :
    ∀ moves : List Nat,
    (∀ i ∈ moves, (b.set i (Cell.mark Mark.X)).set i Cell.null = b) →
    (∀ i ∈ moves, ∀ α β, ∃ r,
      rec (b.set i (Cell.mark Mark.X)) α β = some (r, b.set i (Cell.mark Mark.X)) ∧
        (α < β → Bounds α β r (val i))) →
    ∀ best α β, ∃ r, minLoop rec moves b best α β = some (r, b) ∧ r ≤ best ∧
      (β ≤ best → α < β →
        Bounds α β r (min best ((moves.map val).foldl min Num.posInf))) := by
  intro moves
  induction moves with
  | nil =>
    intro _ _ best α β
    refine ⟨best, rfl, le_refl _, fun _ _ => ?_⟩
    simp only [List.map_nil, List.foldl_nil, min_eq_left (le_posInf best)]
    exact bounds_self α β best
  | cons i rest ih =>
    intro hnull hrec best α β
    obtain ⟨ri, hri, hbi⟩ := hrec i (List.mem_cons_self _ _) α β
    have hW : min best (((i :: rest).map val).foldl min Num.posInf) =
        min (min best (val i)) ((rest.map val).foldl min Num.posInf) := by
      rw [List.map_cons, List.foldl_cons, min_eq_right (le_posInf (val i)),
        foldl_min_eq, min_assoc]
    have ih1 := ih (fun j hj => hnull j (List.mem_cons_of_mem _ hj))
      (fun j hj => hrec j (List.mem_cons_of_mem _ hj))
    unfold minLoop
    rw [hri]
    simp only []
    rw [hnull i (List.mem_cons_self _ _)]
    by_cases hbr : min β (min best ri) ≤ α
    · rw [if_pos hbr]
      refine ⟨min best ri, rfl, min_le_left _ _, fun h1 h2 => ?_⟩
      rw [hW]
      exact minStep_break best α β ri (val i) _ h1 h2 (hbi h2) hbr
    · rw [if_neg hbr]
      obtain ⟨r, hr, hle, hb⟩ := ih1 (min best ri) α (min β (min best ri))
      refine ⟨r, hr, le_trans hle (min_le_left _ _), fun h1 h2 => ?_⟩
      rw [hW]
      exact minStep_cont best α β ri (val i) _ r h1 h2 (hbi h2) hbr hle
        (hb (min_le_right _ _) (not_le.1 hbr))

/-! ### `minimax` returns, restores the buffer and bounds the plain value -/

theorem minimaxFuel_spec : ∀ (n : Nat) (b : Board), Clean b → (emptyIdx b).length < n →
    ∀ (isMax : Bool) (α β : Num) (d : Int), ∃ r,
      minimaxFuel n b isMax α β d = some (r, b) ∧
        (α < β → Bounds α β r (plainMinimax b isMax d)) := by
  intro n
  induction n with
  | zero => intro b _ h; exact absurd h (Nat.not_lt_zero _)
  | succ n ih =>
    intro b hb hlen isMax α β d
    rw [plainMinimax_unfold]
    unfold minimaxFuel
    cases hcw : checkWinner b with
    | some res =>
      cases res with
      | draw => exact ⟨_, rfl, fun _ => bounds_self _ _ _⟩
      | win m l =>
        cases m with
        | X => exact ⟨_, rfl, fun _ => bounds_self _ _ _⟩
        | O => exact ⟨_, rfl, fun _ => bounds_self _ _ _⟩
    | none =>
      simp only []
      have hnull : ∀ (m : Mark), ∀ i ∈ emptyIdx b,
          (b.set i (Cell.mark m)).set i Cell.null = b :=
        fun m i hi => set_set_null ((clean_mem_emptyIdx hb i).1 hi) _
      have hrec : ∀ (m : Mark) (t : Bool), ∀ i ∈ emptyIdx b, ∀ α β, ∃ r,
          minimaxFuel n (b.set i (Cell.mark m)) t α β (d + 1) =
            some (r, b.set i (Cell.mark m)) ∧
          (α < β → Bounds α β r (plainMinimax (b.set i (Cell.mark m)) t (d + 1))) := by
        intro m t i hi α β
        have hl := emptyIdx_set_mark_length_lt hi m
        exact ih _ (clean_set_mark hb i m) (by omega) t α β (d + 1)
      cases isMax with
      | true =>
        simp only [if_true]
        obtain ⟨r, hr, -, hbd⟩ := maxLoop_spec
          (fun b a β => minimaxFuel n b false a β (d + 1))
          (fun i => plainMinimax (b.set i (Cell.mark Mark.O)) false (d + 1)) b
          (emptyIdx b) (hnull Mark.O) (hrec Mark.O false) Num.negInf α β
        refine ⟨r, hr, fun h => ?_⟩
        have := hbd (negInf_le α) h
        rwa [max_eq_right (negInf_le _)] at this
      | false =>
        simp only [Bool.false_eq_true, if_false]
        obtain ⟨r, hr, -, hbd⟩ := minLoop_spec
          (fun b a β => minimaxFuel n b true a β (d + 1))
          (fun i => plainMinimax (b.set i (Cell.mark Mark.X)) true (d + 1)) b
          (emptyIdx b) (hnull Mark.X) (hrec Mark.X true) Num.posInf α β
        refine ⟨r, hr, fun h => ?_⟩
        have := hbd (le_posInf β) h
        rwa [min_eq_right (le_posInf _)] at this

theorem minimax_spec (b : Board) (hb : Clean b) (isMax : Bool) (α β : Num) (d : Int) :
    ∃ r, minimax b isMax α β d = some (r, b) ∧
      (α < β → Bounds α β r (plainMinimax b isMax d)) :=
  minimaxFuel_spec _ b hb (Nat.lt_succ_self _) isMax α β d

theorem negInf_lt_posInf : Num.negInf < Num.posInf := by decide

theorem minimax_full_window (b : Board) (hb : Clean b) (isMax : Bool) (d : Int) :
    minimax b isMax Num.negInf Num.posInf d = some (plainMinimax b isMax d, b) := by
  obtain ⟨r, hr, hbd⟩ := minimax_spec b hb isMax Num.negInf Num.posInf d
  rw [hr, bounds_full r _ (hbd negInf_lt_posInf)]

theorem board9_clean {b : Board} (hb : Board9 b) : Clean b := hb.2

theorem board9_set_mark {b : Board} (hb : Board9 b) (i : Nat) (m : Mark) :
    Board9 (b.set i (Cell.mark m)) :=
  ⟨by rw [List.length_set]; exact hb.1, clean_set_mark hb.2 i m⟩

/-- Claim C4.  On every 9-cell board, for every side to move and every depth,
`minimax` called with the full window `(-Infinity, +Infinity)` returns
exactly the value of the plain unpruned depth-aware minimax `plainMinimax`
(and leaves the buffer as it found it): pruning never changes the value. -/
theorem minimax_eq_plainMinimax (b : Board) (hb : Board9 b) (isMax : Bool) (d : Int) :
    minimax b isMax Num.negInf Num.posInf d = some (plainMinimax b isMax d, b) :=
  minimax_full_window b hb.2 isMax d

/-- Witness for C4: with X on 0, 3, 4 and O on 2, 7, X to move, both searches
give `-8` at depth 1. -/
theorem minimax_eq_plainMinimax_witness :
    Board9 [Cell.mark Mark.X, Cell.null, Cell.mark Mark.O,
            Cell.mark Mark.X, Cell.mark Mark.X, Cell.null,
            Cell.null, Cell.mark Mark.O, Cell.null] ∧
    minimax [Cell.mark Mark.X, Cell.null, Cell.mark Mark.O,
            Cell.mark Mark.X, Cell.mark Mark.X, Cell.null,
            Cell.null, Cell.mark Mark.O, Cell.null] false Num.negInf Num.posInf 1 =
      some (Num.fin (-8), [Cell.mark Mark.X, Cell.null, Cell.mark Mark.O,
            Cell.mark Mark.X, Cell.mark Mark.X, Cell.null,
            Cell.null, Cell.mark Mark.O, Cell.null]) ∧
    plainMinimax [Cell.mark Mark.X, Cell.null, Cell.mark Mark.O,
            Cell.mark Mark.X, Cell.mark Mark.X, Cell.null,
            Cell.null, Cell.mark Mark.O, Cell.null] false 1 = Num.fin (-8) := by
  have h := minimax_eq_plainMinimax [Cell.mark Mark.X, Cell.null, Cell.mark Mark.O,
            Cell.mark Mark.X, Cell.mark Mark.X, Cell.null,
            Cell.null, Cell.mark Mark.O, Cell.null] (by decide) false 1
  have h2 : minimax [Cell.mark Mark.X, Cell.null, Cell.mark Mark.O,
            Cell.mark Mark.X, Cell.mark Mark.X, Cell.null,
            Cell.null, Cell.mark Mark.O, Cell.null] false Num.negInf Num.posInf 1 =
      some (Num.fin (-8), [Cell.mark Mark.X, Cell.null, Cell.mark Mark.O,
            Cell.mark Mark.X, Cell.mark Mark.X, Cell.null,
            Cell.null, Cell.mark Mark.O, Cell.null]) := by decide
  refine ⟨by decide, h2, ?_⟩
  rw [h2] at h
  exact (congrArg Prod.fst (Option.some.inj h)).symm

/-! ### `getBotMove` restores the buffer -/

theorem scanPlayer_frame (player : Mark) (b : Board) :
    ∀ moves : List Nat, (∀ i ∈ moves, b[i]? = some Cell.null) →
      (scanPlayer player moves b).2 = b := by
  intro moves
  induction moves with
  | nil => intro _; rfl
  | cons i rest ih =>
    intro h
    have hi := set_set_null (h i (List.mem_cons_self _ _)) (Cell.mark player)
    have ih1 := ih (fun j hj => h j (List.mem_cons_of_mem _ hj))
    unfold scanPlayer
    simp only [hi]
    split
    · split
      · rfl
      · exact ih1
    · exact ih1

theorem hardLoop_frame (b : Board) (hb : Clean b) :
    ∀ (moves : List Nat), (∀ i ∈ moves, b[i]? = some Cell.null) →
      ∀ best move, ∃ mv, hardLoop moves b best move = some (mv, b) ∧
        (mv = move ∨ ∃ i ∈ moves, mv = some i) := by
  intro moves
  induction moves with
  | nil => intro _ best move; exact ⟨move, rfl, Or.inl rfl⟩
  | cons i rest ih =>
    intro h best move
    have hi := set_set_null (h i (List.mem_cons_self _ _)) (Cell.mark Mark.O)
    have ih1 := ih (fun j hj => h j (List.mem_cons_of_mem _ hj))
    obtain ⟨r, hr, -⟩ := minimax_spec (b.set i (Cell.mark Mark.O))
      (clean_set_mark hb i Mark.O) false Num.negInf Num.posInf 0
    unfold hardLoop
    rw [hr]
    simp only [hi]
    split
    · obtain ⟨mv, h1, h2⟩ := ih1 r (some i)
      refine ⟨mv, h1, Or.inr ?_⟩
      rcases h2 with h2 | ⟨j, hj, h2⟩
      · exact ⟨i, List.mem_cons_self _ _, h2⟩
      · exact ⟨j, List.mem_cons_of_mem _ hj, h2⟩
    · obtain ⟨mv, h1, h2⟩ := ih1 best move
      refine ⟨mv, h1, ?_⟩
      rcases h2 with h2 | ⟨j, hj, h2⟩
      · exact Or.inl h2
      · exact Or.inr ⟨j, List.mem_cons_of_mem _ hj, h2⟩

theorem getBotMove_frame (b : Board) (hb : Clean b) (diff : Difficulty) (r1 r2 : ℚ) :
    ∃ mv, getBotMove b diff r1 r2 = some (mv, b) := by
  have hnull : ∀ i ∈ emptyIdx b, b[i]? = some Cell.null :=
    fun i hi => (clean_mem_emptyIdx hb i).1 hi
  unfold getBotMove
  simp only []
  split
  · exact ⟨_, rfl⟩
  · split
    · exact ⟨_, rfl⟩
    · split
      · unfold mediumMove
        split
        · exact ⟨_, rfl⟩
        · have h1 := scanPlayer_frame Mark.O b _ hnull
          have h2 := scanPlayer_frame Mark.X b _ hnull
          rcases hO : scanPlayer Mark.O (emptyIdx b) b with ⟨mo, bo⟩
          rw [hO] at h1
          simp only at h1
          subst h1
          cases mo with
          | some i => exact ⟨_, rfl⟩
          | none =>
            simp only []
            rcases hX : scanPlayer Mark.X (emptyIdx bo) bo with ⟨mx, bx⟩
            rw [hX] at h2
            simp only at h2
            subst h2
            cases mx with
            | some i => exact ⟨_, rfl⟩
            | none => exact ⟨_, rfl⟩
      · obtain ⟨mv, h, -⟩ := hardLoop_frame b hb (emptyIdx b) hnull Num.negInf
          (emptyIdx b).head?
        exact ⟨mv, h⟩

/-- Claim C8.  On a 9-cell board whose empty cells are `null`, `minimax` returns
and leaves the buffer cell for cell as it was before the call, for every
side, window and depth (so also when a loop is left through the pruning
break), and so does `getBotMove` for every difficulty and every pair of
random draws, on every return path. -/
theorem minimax_and_getBotMove_restore_board (b : Board) (hb : Board9 b) :
    (∀ (isMax : Bool) (α β : Num) (d : Int), ∃ r, minimax b isMax α β d = some (r, b)) ∧
    (∀ (diff : Difficulty) (r1 r2 : ℚ), ∃ mv, getBotMove b diff r1 r2 = some (mv, b)) := by
  constructor
  · intro isMax α β d
    obtain ⟨r, hr, -⟩ := minimax_spec b hb.2 isMax α β d
    exact ⟨r, hr⟩
  · intro diff r1 r2
    exact getBotMove_frame b hb.2 diff r1 r2

/-- Witness for C8: a narrow window that prunes, and the Medium scan that
returns early at index 5. -/
theorem minimax_and_getBotMove_restore_board_witness :
    Board9 [Cell.mark Mark.X, Cell.null, Cell.mark Mark.O,
            Cell.mark Mark.X, Cell.mark Mark.X, Cell.null,
            Cell.null, Cell.mark Mark.O, Cell.null] ∧
    (∃ r, minimax [Cell.mark Mark.X, Cell.null, Cell.mark Mark.O,
            Cell.mark Mark.X, Cell.mark Mark.X, Cell.null,
            Cell.null, Cell.mark Mark.O, Cell.null] true (Num.fin 0) (Num.fin 1) 0 =
      some (r, [Cell.mark Mark.X, Cell.null, Cell.mark Mark.O,
            Cell.mark Mark.X, Cell.mark Mark.X, Cell.null,
            Cell.null, Cell.mark Mark.O, Cell.null])) ∧
    (∃ mv, getBotMove [Cell.mark Mark.X, Cell.null, Cell.mark Mark.O,
            Cell.mark Mark.X, Cell.mark Mark.X, Cell.null,
            Cell.null, Cell.mark Mark.O, Cell.null] Difficulty.medium (3/4) (1/4) =
      some (mv, [Cell.mark Mark.X, Cell.null, Cell.mark Mark.O,
            Cell.mark Mark.X, Cell.mark Mark.X, Cell.null,
            Cell.null, Cell.mark Mark.O, Cell.null])) :=
  ⟨by decide,
   (minimax_and_getBotMove_restore_board _ (by decide)).1 true (Num.fin 0) (Num.fin 1) 0,
   (minimax_and_getBotMove_restore_board _ (by decide)).2 Difficulty.medium (3/4) (1/4)⟩

/-! ### The moves `getBotMove` returns -/

/-! ### Rounding of the index product -/

theorem roundHalfEven_cases (y : ℚ) :
    roundHalfEven y = Int.floor y ∨
      (roundHalfEven y = Int.floor y + 1 ∧ (1:ℚ)/2 ≤ y - (Int.floor y : ℚ)) := by
  unfold roundHalfEven
  split_ifs with h1 h2 h3
  · exact Or.inl rfl
  · exact Or.inr ⟨rfl, le_of_lt h2⟩
  · exact Or.inl rfl
  · exact Or.inr ⟨rfl, not_lt.mp h1⟩

theorem roundHalfEven_nonneg (y : ℚ) (hy : 0 ≤ y) : 0 ≤ roundHalfEven y := by
  have hf : 0 ≤ Int.floor y := Int.floor_nonneg.mpr hy
  rcases roundHalfEven_cases y with h | ⟨h, _⟩ <;> rw [h] <;> omega

theorem roundHalfEven_lt (y : ℚ) (N : ℤ) (h : y < (N : ℚ) - 1/2) : roundHalfEven y < N := by
  have hfl : (Int.floor y : ℚ) ≤ y := Int.floor_le y
  rcases roundHalfEven_cases y with h1 | ⟨h1, h2⟩
  · rw [h1]
    have : (Int.floor y : ℚ) < (N : ℚ) := by linarith
    exact_mod_cast this
  · rw [h1]
    have : ((Int.floor y + 1 : ℤ) : ℚ) < (N : ℚ) := by push_cast; linarith
    exact_mod_cast this

theorem roundDouble_nonneg (x : ℚ) (hx : 0 ≤ x) : 0 ≤ roundDouble x := by
  unfold roundDouble
  have hu : (0:ℚ) < (2:ℚ) ^ ulpExp x := by positivity
  have := roundHalfEven_nonneg (x / (2:ℚ) ^ ulpExp x) (div_nonneg hx hu.le)
  have h2 : (0:ℚ) ≤ (roundHalfEven (x / (2:ℚ) ^ ulpExp x) : ℚ) := by exact_mod_cast this
  exact mul_nonneg h2 hu.le

theorem ulpExp_eq (x : ℚ) (hx : 0 < x) (hlt : x < 2 ^ 52) :
    ∃ s : Nat, (2:ℚ) ^ ulpExp x = 1 / 2 ^ s ∧ (2:ℚ) ^ 52 / 2 ^ s ≤ max x (1/2) := by
  have hk1 : ((2:ℕ):ℚ) ^ Int.log 2 x ≤ x := Int.zpow_log_le_self (by norm_num) hx
  have hk2 : Int.log 2 x < 52 := by
    apply (Int.lt_zpow_iff_log_lt (by norm_num) hx).mp
    exact_mod_cast hlt
  have hs : 0 ≤ 52 - max (Int.log 2 x) (-1022) := by
    have := max_le (le_of_lt hk2) (show (-1022:ℤ) ≤ 52 by norm_num)
    omega
  refine ⟨(52 - max (Int.log 2 x) (-1022)).toNat, ?_, ?_⟩
  · have he : ulpExp x = -(((52 - max (Int.log 2 x) (-1022)).toNat : ℕ) : ℤ) := by
      rw [Int.toNat_of_nonneg hs]; unfold ulpExp; ring
    rw [he, zpow_neg, zpow_natCast, one_div]
  · have h2 : (2:ℚ) ^ 52 / 2 ^ (52 - max (Int.log 2 x) (-1022)).toNat
        = (2:ℚ) ^ max (Int.log 2 x) (-1022) := by
      have h3 : max (Int.log 2 x) (-1022)
          = (52:ℤ) - (((52 - max (Int.log 2 x) (-1022)).toNat : ℕ) : ℤ) := by
        rw [Int.toNat_of_nonneg hs]; ring
      conv_rhs => rw [h3]
      rw [zpow_sub₀ (by norm_num : (2:ℚ) ≠ 0), zpow_natCast]
      norm_num
    rw [h2]
    rcases le_total (Int.log 2 x) (-1022) with h | h
    · rw [max_eq_right h]
      apply le_max_of_le_right
      norm_num
    · rw [max_eq_left h]
      apply le_max_of_le_left
      exact_mod_cast hk1

theorem roundDouble_zero : roundDouble 0 = 0 := by
  unfold roundDouble roundHalfEven
  simp

theorem roundDouble_lt (x : ℚ) (n : Nat) (hx0 : 0 ≤ x) (hn1 : 1 ≤ n) (hn : n ≤ 2 ^ 52)
    (hx : x ≤ (n : ℚ) * (1 - 1 / 2 ^ 53)) : roundDouble x < (n : ℚ) := by
  have hnq : (1:ℚ) ≤ (n : ℚ) := by exact_mod_cast hn1
  have hnq2 : (n : ℚ) ≤ 2 ^ 52 := by exact_mod_cast hn
  rcases eq_or_lt_of_le hx0 with h0 | hpos
  · rw [← h0, roundDouble_zero]; linarith
  · have hxn : x < (n : ℚ) := by nlinarith
    obtain ⟨s, hu, hM⟩ := ulpExp_eq x hpos (lt_of_lt_of_le hxn hnq2)
    have hMn : max x (1/2) < (n : ℚ) := max_lt hxn (by linarith)
    have hp : (0:ℚ) < 2 ^ s := by positivity
    unfold roundDouble
    rw [hu]
    have hlt : roundHalfEven (x / (1 / 2 ^ s)) < ((n * 2 ^ s : ℕ) : ℤ) := by
      apply roundHalfEven_lt
      push_cast
      rw [div_div_eq_mul_div, div_one]
      have h1 : (2:ℚ) ^ 52 / 2 ^ s < (n : ℚ) := lt_of_le_of_lt hM hMn
      rw [div_lt_iff₀ hp] at h1
      have h2 : x * 2 ^ s ≤ (n : ℚ) * (1 - 1 / 2 ^ 53) * 2 ^ s :=
        mul_le_mul_of_nonneg_right hx hp.le
      have h3 : (n : ℚ) * (1 - 1 / 2 ^ 53) * 2 ^ s
          = (n : ℚ) * 2 ^ s - (n : ℚ) * 2 ^ s / 2 ^ 53 := by ring
      have h4 : (1:ℚ) / 2 < (n : ℚ) * 2 ^ s / 2 ^ 53 := by
        rw [lt_div_iff₀ (by positivity)]
        norm_num at h1 ⊢
        linarith
      linarith
    have hq : (roundHalfEven (x / (1 / 2 ^ s)) : ℚ) < (n : ℚ) * 2 ^ s := by
      exact_mod_cast hlt
    calc (roundHalfEven (x / (1 / 2 ^ s)) : ℚ) * (1 / 2 ^ s)
        < (n : ℚ) * 2 ^ s * (1 / 2 ^ s) := mul_lt_mul_of_pos_right hq (by positivity)
      _ = (n : ℚ) := by field_simp

theorem isDraw_le (r : ℚ) (hd : IsDraw r) : r ≤ 1 - 1 / 2 ^ 53 := by
  obtain ⟨m, q, hm, hq, rfl, h1⟩ := hd
  have hp : (0:ℚ) < 2 ^ q := by positivity
  rcases le_or_lt q 53 with h | h
  · rw [div_lt_one hp] at h1
    have h2 : m < 2 ^ q := by exact_mod_cast h1
    have h3 : ((m + 1 : ℕ) : ℚ) ≤ 2 ^ q := by exact_mod_cast h2
    have h4 : (2:ℚ) ^ q ≤ 2 ^ 53 := by
      exact_mod_cast Nat.pow_le_pow_right (by norm_num) h
    rw [div_le_iff₀ hp]
    have h5 : (1:ℚ) / 2 ^ 53 * 2 ^ q ≤ 1 := by
      rw [div_mul_eq_mul_div, one_mul, div_le_one (by positivity)]; exact h4
    push_cast at h3
    nlinarith
  · have h4 : (2:ℚ) ^ 54 ≤ 2 ^ q := by
      exact_mod_cast Nat.pow_le_pow_right (by norm_num) h
    have h5 : (m : ℚ) < 2 ^ 53 := by exact_mod_cast hm
    rw [div_le_iff₀ hp]
    have h6 : (1:ℚ) / 2 * 2 ^ q ≤ (1 - 1 / 2 ^ 53) * 2 ^ q :=
      mul_le_mul_of_nonneg_right (by norm_num) hp.le
    have h7 : (2:ℚ) ^ 54 = 2 * 2 ^ 53 := by norm_num
    linarith

theorem isDraw_nonneg (r : ℚ) (hd : IsDraw r) : 0 ≤ r := by
  obtain ⟨m, q, _, _, rfl, _⟩ := hd
  positivity

/-- For a binary64 draw in `[0,1)` the rounded product stays below the length,
so the index read is inside the array. -/
theorem randomPick_mem (empty : List Nat) (r : ℚ) (hd : IsDraw r)
    (hne : empty ≠ []) (hlen : empty.length ≤ 2 ^ 52) :
    ∃ i ∈ empty, randomPick empty r = some i := by
  have h0 := isDraw_nonneg r hd
  have hle := isDraw_le r hd
  have hpos : 1 ≤ empty.length := List.length_pos.mpr hne
  have hx0 : 0 ≤ r * (empty.length : ℚ) := mul_nonneg h0 (by positivity)
  have hxle : r * (empty.length : ℚ) ≤ (empty.length : ℚ) * (1 - 1 / 2 ^ 53) := by
    rw [mul_comm]; exact mul_le_mul_of_nonneg_left hle (by positivity)
  have hlt := roundDouble_lt _ _ hx0 hpos hlen hxle
  have hnn := roundDouble_nonneg _ hx0
  have hf0 : 0 ≤ Int.floor (roundDouble (r * (empty.length : ℚ))) := Int.floor_nonneg.mpr hnn
  have hf1 : Int.floor (roundDouble (r * (empty.length : ℚ))) < (empty.length : ℤ) := by
    rw [Int.floor_lt]; exact_mod_cast hlt
  have hidx : (Int.floor (roundDouble (r * (empty.length : ℚ)))).toNat < empty.length := by
    omega
  refine ⟨empty[(Int.floor (roundDouble (r * (empty.length : ℚ)))).toNat], ?_, ?_⟩
  · exact List.getElem_mem _
  · unfold randomPick
    exact List.getElem?_eq_getElem hidx

theorem roundHalfEven_of_near (y : ℚ) (f : ℤ) (h1 : (f : ℚ) - 1/2 < y)
    (h2 : y < (f : ℚ) + 1/2) : roundHalfEven y = f := by
  rcases lt_or_le y (f : ℚ) with h | h
  · have hfl : Int.floor y = f - 1 := by
      rw [Int.floor_eq_iff]; push_cast; constructor <;> linarith
    unfold roundHalfEven
    rw [hfl]
    push_cast
    rw [if_neg (by linarith), if_pos (by linarith)]
    ring
  · have hfl : Int.floor y = f := by
      rw [Int.floor_eq_iff]; constructor <;> linarith
    unfold roundHalfEven
    rw [hfl, if_pos (by linarith)]

theorem roundHalfEven_of_tie_odd (y : ℚ) (f : ℤ) (h1 : y = (f : ℚ) + 1/2)
    (h2 : f % 2 = 1) : roundHalfEven y = f + 1 := by
  have hfl : Int.floor y = f := by
    rw [Int.floor_eq_iff]; constructor <;> linarith
  unfold roundHalfEven
  rw [hfl, if_neg (by linarith), if_neg (by linarith), if_neg (by omega)]

theorem ulpExp_of_binade (x : ℚ) (k : ℤ) (hk : -1022 ≤ k) (h1 : (2:ℚ) ^ k ≤ x)
    (h2 : x < (2:ℚ) ^ (k + 1)) : ulpExp x = k - 52 := by
  have hx : 0 < x := lt_of_lt_of_le (by positivity) h1
  have ha : k ≤ Int.log 2 x := by
    apply (Int.zpow_le_iff_le_log (by norm_num) hx).mp
    exact_mod_cast h1
  have hb : Int.log 2 x < k + 1 := by
    apply (Int.lt_zpow_iff_log_lt (by norm_num) hx).mp
    exact_mod_cast h2
  unfold ulpExp
  rw [max_eq_left (by omega)]
  omega

/-- The draw `thirdDraw` is what the literal `1/3` rounds to. -/
theorem roundDouble_one_third : roundDouble (1/3) = thirdDraw := by
  have he : ulpExp (1/3) = -54 := by
    rw [ulpExp_of_binade _ (-2) (by norm_num) (by norm_num) (by norm_num)]
    norm_num
  unfold roundDouble
  rw [he, roundHalfEven_of_near _ 6004799503160661 (by norm_num) (by norm_num)]
  norm_num [thirdDraw]

theorem roundDouble_thirdDraw_mul_nine : roundDouble (thirdDraw * 9) = 3 := by
  have he : ulpExp (thirdDraw * 9) = -51 := by
    rw [ulpExp_of_binade _ 1 (by norm_num) (by norm_num [thirdDraw]) (by norm_num [thirdDraw])]
    norm_num
  unfold roundDouble
  rw [he, roundHalfEven_of_near _ (3 * 2 ^ 51) (by norm_num [thirdDraw]) (by norm_num [thirdDraw])]
  norm_num

theorem roundDouble_thirdDraw_mul_three : roundDouble (thirdDraw * 3) = 1 := by
  have he : ulpExp (thirdDraw * 3) = -53 := by
    rw [ulpExp_of_binade _ (-1) (by norm_num) (by norm_num [thirdDraw]) (by norm_num [thirdDraw])]
    norm_num
  unfold roundDouble
  rw [he, roundHalfEven_of_tie_odd _ (2 ^ 53 - 1) (by norm_num [thirdDraw]) (by norm_num)]
  norm_num

theorem randomPick_thirdDraw_nine :
    randomPick [0, 1, 2, 3, 4, 5, 6, 7, 8] thirdDraw = some 3 := by
  unfold randomPick
  have : (([0, 1, 2, 3, 4, 5, 6, 7, 8] : List Nat).length : ℚ) = 9 := by norm_num
  rw [this, roundDouble_thirdDraw_mul_nine]
  have h3 : Int.toNat (Int.floor (3 : ℚ)) = 3 := by
    rw [show (3 : ℚ) = ((3 : ℤ) : ℚ) by norm_num, Int.floor_intCast]; rfl
  rw [h3]
  rfl

theorem randomPick_thirdDraw_three (a b c : Nat) : randomPick [a, b, c] thirdDraw = some b := by
  unfold randomPick
  have : (([a, b, c] : List Nat).length : ℚ) = 3 := by norm_num
  rw [this, roundDouble_thirdDraw_mul_three]
  have h1 : Int.toNat (Int.floor (1 : ℚ)) = 1 := by
    rw [show (1 : ℚ) = ((1 : ℤ) : ℚ) by norm_num, Int.floor_intCast]; rfl
  rw [h1]
  rfl

theorem isDraw_thirdDraw : IsDraw thirdDraw :=
  ⟨6004799503160661, 54, by norm_num, by norm_num, by norm_num [thirdDraw],
    by norm_num [thirdDraw]⟩

theorem isDraw_quarter : IsDraw (1/4) :=
  ⟨1, 2, by norm_num, by norm_num, by norm_num, by norm_num⟩

theorem randomPick_cases (empty : List Nat) (r : ℚ) :
    randomPick empty r = none ∨ ∃ i ∈ empty, randomPick empty r = some i := by
  cases h : randomPick empty r with
  | none => exact Or.inl rfl
  | some i =>
    unfold randomPick at h
    obtain ⟨hlt, heq⟩ := List.getElem?_eq_some_iff.1 h
    exact Or.inr ⟨i, heq ▸ List.getElem_mem hlt, rfl⟩

theorem emptyIdx_length_le (b : Board) : (emptyIdx b).length ≤ b.length := by
  unfold emptyIdx
  exact (List.length_filter_le _ _).trans (le_of_eq (List.length_range _))

/-- The literal `0.8` denotes the binary64 number nearest to four fifths. -/
theorem roundDouble_four_fifths : roundDouble (4/5) = 7205759403792794 / 2 ^ 53 := by
  have he : ulpExp (4/5) = -53 := by
    rw [ulpExp_of_binade _ (-1) (by norm_num) (by norm_num) (by norm_num)]
    norm_num
  unfold roundDouble
  rw [he, roundHalfEven_of_near _ 7205759403792794 (by norm_num) (by norm_num)]
  norm_num

/-- The literal `0.5` is a binary64 number. -/
theorem roundDouble_half : roundDouble (1/2) = 1/2 := by
  have he : ulpExp (1/2) = -53 := by
    rw [ulpExp_of_binade _ (-1) (by norm_num) (by norm_num) (by norm_num)]
    norm_num
  unfold roundDouble
  rw [he, roundHalfEven_of_near _ (2 ^ 52) (by norm_num) (by norm_num)]
  norm_num

/-- The test `Math.random() < 0.8` compares the draw with the binary64 number
that the literal denotes, which lies just above four fifths; no binary64
number lies between the two, so for a draw the test is `r < 4/5`. -/
theorem isDraw_lt_four_fifths (r : ℚ) (hd : IsDraw r) :
    r < roundDouble (4/5) ↔ r < 4/5 := by
  rw [roundDouble_four_fifths]
  constructor
  · intro h
    by_contra hge
    rw [not_lt] at hge
    obtain ⟨m, q, hm, -, rfl, -⟩ := hd
    have hp : (0:ℚ) < 2 ^ q := by positivity
    have hmq : (m : ℚ) < 2 ^ 53 := by exact_mod_cast hm
    rw [le_div_iff₀ hp] at hge
    have hq : q ≤ 53 := by
      by_contra hq
      rw [not_le] at hq
      have h4 : (2:ℚ) ^ 54 ≤ 2 ^ q := by
        exact_mod_cast Nat.pow_le_pow_right (by norm_num) hq
      have h7 : (2:ℚ) ^ 54 = 2 * 2 ^ 53 := by norm_num
      linarith
    obtain ⟨t, ht⟩ : ∃ t, q + t = 53 := ⟨53 - q, by omega⟩
    have hT : (0:ℚ) < 2 ^ t := by positivity
    have e : (2:ℚ) ^ 53 = 2 ^ q * 2 ^ t := by rw [← pow_add, ht]
    have h0 : (m : ℚ) * 2 ^ t < 7205759403792794 := by
      rw [e, div_lt_div_iff₀ hp (by positivity)] at h
      have h5 : (m : ℚ) * 2 ^ t * 2 ^ q < 7205759403792794 * 2 ^ q := by linarith
      exact lt_of_mul_lt_mul_right h5 hp.le
    have h1 : m * 2 ^ t < 7205759403792794 := by exact_mod_cast h0
    have h3 : ((m * 2 ^ t : ℕ) : ℚ) ≤ 7205759403792793 := by
      exact_mod_cast Nat.le_of_lt_succ h1
    have h2 : (4:ℚ) / 5 * (2 ^ q * 2 ^ t) ≤ (m : ℚ) * 2 ^ t := by
      rw [← mul_assoc]; exact mul_le_mul_of_nonneg_right hge hT.le
    rw [← e] at h2
    push_cast at h3
    norm_num at h2
    linarith
  · intro h
    exact lt_trans h (by norm_num)

theorem scanPlayer_eq (player : Mark) (b : Board) :
    ∀ moves : List Nat, (∀ i ∈ moves, b[i]? = some Cell.null) →
      scanPlayer player moves b = (moves.find? (placeWins player b), b) := by
  intro moves
  induction moves with
  | nil => intro _; rfl
  | cons i rest ih =>
    intro h
    have hi := set_set_null (h i (List.mem_cons_self _ _)) (Cell.mark player)
    have ih1 := ih (fun j hj => h j (List.mem_cons_of_mem _ hj))
    unfold scanPlayer
    simp only [hi]
    rw [List.find?_cons]
    cases hcw : checkWinner (b.set i (Cell.mark player)) with
    | none =>
      have hp : placeWins player b i = false := by unfold placeWins; rw [hcw]
      simp only [hp, ih1]
    | some res =>
      cases res with
      | draw =>
        have hp : placeWins player b i = false := by unfold placeWins; rw [hcw]
        simp only [hp, ih1]
      | win w l =>
        have hp : placeWins player b i = decide (w = player) := by
          unfold placeWins; rw [hcw]
        by_cases hw : w = player
        · simp [hp, hw]
        · simp [hp, hw, ih1]

theorem placeWins_iff (player : Mark) (b : Board) (i : Nat) (hi : b[i]? = some Cell.null) :
    placeWins player b i = true ↔ WinAt player b i := by
  unfold placeWins WinAt
  cases hcw : checkWinner (b.set i (Cell.mark player)) with
  | none => simp [hi]
  | some res =>
    cases res with
    | draw => simp [hi]
    | win w l =>
      by_cases hw : w = player
      · subst hw; simp [hi]
      · simp only [hw, decide_False, Bool.false_eq_true, hi, true_and, false_iff]
        rintro ⟨l', hl'⟩
        simp only [Option.some.injEq, Result.win.injEq] at hl'
        exact hw hl'.1

theorem emptyIdx_pairwise (b : Board) : (emptyIdx b).Pairwise (· < ·) :=
  List.Pairwise.filter _ (List.pairwise_lt_range _)

theorem find_first_sorted (p : Nat → Bool) (l : List Nat) (hl : l.Pairwise (· < ·))
    (i : Nat) (h : l.find? p = some i) :
    i ∈ l ∧ p i = true ∧ ∀ j ∈ l, j < i → p j = false := by
  induction l with
  | nil => simp at h
  | cons x rest ih =>
    rw [List.find?_cons] at h
    rw [List.pairwise_cons] at hl
    cases hpx : p x with
    | true =>
      rw [hpx] at h
      simp only [Option.some.injEq] at h
      subst h
      refine ⟨List.mem_cons_self _ _, hpx, ?_⟩
      intro j hj hlt
      rcases List.mem_cons.1 hj with h1 | h1
      · subst h1; exact absurd hlt (lt_irrefl _)
      · exact absurd (hl.1 j h1) (not_lt.2 (le_of_lt hlt))
    | false =>
      rw [hpx] at h
      obtain ⟨h1, h2, h3⟩ := ih hl.2 h
      refine ⟨List.mem_cons_of_mem _ h1, h2, ?_⟩
      intro j hj hlt
      rcases List.mem_cons.1 hj with h4 | h4
      · subst h4; exact hpx
      · exact h3 j h4 hlt

theorem mediumMove_eq (b : Board) (hb : Clean b) (r1 r2 : ℚ) (hr1 : ¬ r1 < 1/2) :
    mediumMove (emptyIdx b) b r1 r2 = some (mediumScan b r2, b) := by
  have hnull : ∀ i ∈ emptyIdx b, b[i]? = some Cell.null :=
    fun i hi => (clean_mem_emptyIdx hb i).1 hi
  unfold mediumMove mediumScan
  rw [if_neg hr1, scanPlayer_eq Mark.O b _ hnull]
  cases hO : (emptyIdx b).find? (placeWins Mark.O b) with
  | some i => rfl
  | none =>
    simp only []
    rw [scanPlayer_eq Mark.X b _ hnull]
    cases hX : (emptyIdx b).find? (placeWins Mark.X b) with
    | some i => rfl
    | none => rfl

theorem getBotMove_move_cases (b : Board) (hb : Clean b) (diff : Difficulty) (r1 r2 : ℚ)
    (hne : emptyIdx b ≠ []) :
    ∃ mv, getBotMove b diff r1 r2 = some (mv, b) ∧
      (mv = randomPick (emptyIdx b) r2 ∨ ∃ i ∈ emptyIdx b, mv = some i) := by
  have hnull : ∀ i ∈ emptyIdx b, b[i]? = some Cell.null :=
    fun i hi => (clean_mem_emptyIdx hb i).1 hi
  have hlen : ¬ (emptyIdx b).length = 0 := fun h => hne (List.length_eq_zero.1 h)
  unfold getBotMove
  simp only []
  rw [if_neg hlen]
  split
  · exact ⟨_, rfl, Or.inl rfl⟩
  · split
    · by_cases hr1 : r1 < 1/2
      · unfold mediumMove
        rw [if_pos hr1]
        exact ⟨_, rfl, Or.inl rfl⟩
      · rw [mediumMove_eq b hb r1 r2 hr1]
        unfold mediumScan
        cases hO : (emptyIdx b).find? (placeWins Mark.O b) with
        | some i => exact ⟨_, rfl, Or.inr ⟨i, List.mem_of_find?_eq_some hO, rfl⟩⟩
        | none =>
          cases hX : (emptyIdx b).find? (placeWins Mark.X b) with
          | some i => exact ⟨_, rfl, Or.inr ⟨i, List.mem_of_find?_eq_some hX, rfl⟩⟩
          | none => exact ⟨_, rfl, Or.inl rfl⟩
    · obtain ⟨mv, h, hmv⟩ := hardLoop_frame b hb (emptyIdx b) hnull Num.negInf
        (emptyIdx b).head?
      unfold hardMove
      rw [h]
      rcases hmv with hmv | ⟨i, hi, hmv⟩
      · cases hl : emptyIdx b with
        | nil => exact absurd hl hne
        | cons x rest =>
          rw [hl] at hmv
          exact ⟨_, rfl, Or.inr ⟨x, List.mem_cons_self _ _, by rw [hmv]; rfl⟩⟩
      · exact ⟨_, rfl, Or.inr ⟨i, hi, hmv⟩⟩

/-- On a 9-cell board with an empty cell, whatever the difficulty and the
first draw, a binary64 index draw in `[0,1)` makes `getBotMove` return an
index of `emptyIdx`. -/
theorem getBotMove_mem (b : Board) (hb : Board9 b) (diff : Difficulty) (r1 r2 : ℚ)
    (hd : IsDraw r2) (hne : emptyIdx b ≠ []) :
    ∃ i ∈ emptyIdx b, getBotMove b diff r1 r2 = some (some i, b) := by
  have hlen : (emptyIdx b).length ≤ 2 ^ 52 :=
    (emptyIdx_length_le b).trans (by rw [hb.1]; norm_num)
  obtain ⟨ir, hir, hpick⟩ := randomPick_mem (emptyIdx b) r2 hd hne hlen
  obtain ⟨mv, h, hmv⟩ := getBotMove_move_cases b hb.2 diff r1 r2 hne
  rcases hmv with hmv | ⟨i, hi, hmv⟩
  · exact ⟨ir, hir, by rw [h, hmv, hpick]⟩
  · exact ⟨i, hi, by rw [h, hmv]⟩

theorem getBotMove_full (b : Board) (diff : Difficulty) (r1 r2 : ℚ)
    (h : emptyIdx b = []) : getBotMove b diff r1 r2 = some (none, b) := by
  unfold getBotMove
  simp [h]

/-- Claim C7.  On a 9-cell board, for every difficulty and every pair of draws
of the random source (the index draw a binary64 number in `[0,1)`, its
product with the number of empty cells rounded as the code rounds it),
`getBotMove` returns; it returns `null` exactly when the board has no
empty cell, and any index it returns is in `0..8` and names a cell that is
empty on the input board. -/
theorem getBotMove_null_iff_full_else_empty_index (b : Board) (hb : Board9 b)
    (diff : Difficulty) (r1 r2 : ℚ) (hd : IsDraw r2) :
    ∃ mv, getBotMove b diff r1 r2 = some (mv, b) ∧
      (mv = none ↔ ∀ i, i < 9 → b[i]? ≠ some Cell.null) ∧
      (∀ i, mv = some i → i < 9 ∧ b[i]? = some Cell.null) := by
  by_cases hne : emptyIdx b = []
  · refine ⟨none, getBotMove_full b diff r1 r2 hne, ?_, fun i h => by simp at h⟩
    refine ⟨fun _ i _ hi => ?_, fun _ => rfl⟩
    have : i ∈ emptyIdx b := (clean_mem_emptyIdx hb.2 i).2 hi
    rw [hne] at this
    exact absurd this (List.not_mem_nil _)
  · obtain ⟨i, hi, h⟩ := getBotMove_mem b hb diff r1 r2 hd hne
    have hi1 := (clean_mem_emptyIdx hb.2 i).1 hi
    have hlt : i < 9 := by
      rw [← hb.1]; exact (List.getElem?_eq_some_iff.1 hi1).1
    refine ⟨some i, h, ⟨fun h2 => by simp at h2, fun h2 => absurd hi1 (h2 i hlt)⟩, ?_⟩
    intro j hj
    simp only [Option.some.injEq] at hj
    subst hj
    exact ⟨hlt, hi1⟩

/-- Witness for C7 on the random branch of Easy: the empty board, first draw
0.5 and index draw `0.3333333333333333`, whose product with 9 rounds to 3. -/
theorem getBotMove_null_iff_full_else_empty_index_witness :
    Board9 (List.replicate 9 Cell.null) ∧ IsDraw thirdDraw ∧
    ∃ mv, getBotMove (List.replicate 9 Cell.null) Difficulty.easy (1/2) thirdDraw =
        some (mv, List.replicate 9 Cell.null) ∧
      (mv = none ↔ ∀ i, i < 9 → (List.replicate 9 Cell.null)[i]? ≠ some Cell.null) ∧
      (∀ i, mv = some i → i < 9 ∧ (List.replicate 9 Cell.null)[i]? = some Cell.null) :=
  ⟨by decide, isDraw_thirdDraw,
   getBotMove_null_iff_full_else_empty_index (List.replicate 9 Cell.null) (by decide)
     Difficulty.easy (1/2) thirdDraw isDraw_thirdDraw⟩

/-- The rounding is visible in the move: on the empty board Easy with first
draw 0.5 and index draw `0.3333333333333333` returns cell 3 (the product
rounds to 3), where the unrounded product `3 - 3/2^54` has floor 2. -/
theorem getBotMove_easy_third_draw :
    getBotMove (List.replicate 9 Cell.null) Difficulty.easy (1/2) thirdDraw =
        some (some 3, List.replicate 9 Cell.null) ∧
      Int.floor (thirdDraw * 9) = 2 := by
  constructor
  · have he : emptyIdx (List.replicate 9 Cell.null) = [0, 1, 2, 3, 4, 5, 6, 7, 8] := by
      decide
    unfold getBotMove
    simp only []
    rw [he, if_neg (by decide), if_pos ⟨trivial, by norm_num⟩, randomPick_thirdDraw_nine]
  · rw [Int.floor_eq_iff]
    constructor <;> norm_num [thirdDraw]

/-! ### The Easy and Medium branches -/

theorem getBotMove_easy_high (b : Board) (r1 r2 s1 s2 : ℚ) (h : ¬ r1 < 4/5) :
    getBotMove b Difficulty.easy r1 r2 = getBotMove b Difficulty.hard s1 s2 := by
  unfold getBotMove
  simp [h]

theorem getBotMove_hard_eq (b : Board) (s1 s2 : ℚ) (hne : emptyIdx b ≠ []) :
    getBotMove b Difficulty.hard s1 s2 = hardMove (emptyIdx b) b := by
  unfold getBotMove
  simp [hne]

theorem getBotMove_medium_high (b : Board) (hb : Clean b) (r1 r2 : ℚ) (h : ¬ r1 < 1/2)
    (hne : emptyIdx b ≠ []) :
    getBotMove b Difficulty.medium r1 r2 = some (mediumScan b r2, b) := by
  rw [← mediumMove_eq b hb r1 r2 h]
  unfold getBotMove
  simp [hne]

theorem find_none_not_winAt (m : Mark) (b : Board) (hb : Clean b)
    (h : (emptyIdx b).find? (placeWins m b) = none) (j : Nat) : ¬ WinAt m b j := by
  intro hw
  have hj : j ∈ emptyIdx b := (clean_mem_emptyIdx hb j).2 hw.1
  have := List.find?_eq_none.1 h j hj
  exact this ((placeWins_iff m b j hw.1).2 hw)

theorem find_some_first_winAt (m : Mark) (b : Board) (hb : Clean b) (i : Nat)
    (h : (emptyIdx b).find? (placeWins m b) = some i) :
    WinAt m b i ∧ ∀ j, j < i → ¬ WinAt m b j := by
  obtain ⟨h1, h2, h3⟩ := find_first_sorted _ _ (emptyIdx_pairwise b) i h
  have hi := (clean_mem_emptyIdx hb i).1 h1
  refine ⟨(placeWins_iff m b i hi).1 h2, ?_⟩
  intro j hlt hw
  have hj : j ∈ emptyIdx b := (clean_mem_emptyIdx hb j).2 hw.1
  have := h3 j hj hlt
  rw [(placeWins_iff m b j hw.1).2 hw] at this
  exact absurd this (by simp)

/-- Claim C6.  For difficulty 'medium' on a 9-cell board with an empty cell,
terminal or not, when the first draw is not below 0.5, `getBotMove` returns
the smallest empty index at which placing O makes `checkWinner` report an
O win if there is one; otherwise the smallest empty index at which
placing X makes `checkWinner` report an X win if there is one; otherwise
the empty index picked by the second draw of the random source, a
binary64 number in `[0,1)`: the element of the list of empty indices at
the floor of the rounded product of the draw and the list length. -/
theorem getBotMove_medium_win_block_random (b : Board) (hb : Board9 b)
    (hne : ∃ i, i < 9 ∧ b[i]? = some Cell.null) (r1 r2 : ℚ) (hr1 : ¬ r1 < 1/2)
    (hd : IsDraw r2) :
    ∃ i, getBotMove b Difficulty.medium r1 r2 = some (some i, b) ∧
      ((WinAt Mark.O b i ∧ ∀ j, j < i → ¬ WinAt Mark.O b j) ∨
       ((∀ j, ¬ WinAt Mark.O b j) ∧ WinAt Mark.X b i ∧ ∀ j, j < i → ¬ WinAt Mark.X b j) ∨
       ((∀ j, ¬ WinAt Mark.O b j) ∧ (∀ j, ¬ WinAt Mark.X b j) ∧
         b[i]? = some Cell.null ∧ randomPick (emptyIdx b) r2 = some i)) := by
  obtain ⟨i0, -, hi0⟩ := hne
  have hmem0 : i0 ∈ emptyIdx b := (clean_mem_emptyIdx hb.2 i0).2 hi0
  have hnil : emptyIdx b ≠ [] := List.ne_nil_of_mem hmem0
  have hlen : (emptyIdx b).length ≤ 2 ^ 52 :=
    (emptyIdx_length_le b).trans (by rw [hb.1]; norm_num)
  rw [getBotMove_medium_high b hb.2 r1 r2 hr1 hnil]
  unfold mediumScan
  cases hO : (emptyIdx b).find? (placeWins Mark.O b) with
  | some i => exact ⟨i, rfl, Or.inl (find_some_first_winAt Mark.O b hb.2 i hO)⟩
  | none =>
    have hnO := find_none_not_winAt Mark.O b hb.2 hO
    cases hX : (emptyIdx b).find? (placeWins Mark.X b) with
    | some i =>
      exact ⟨i, rfl, Or.inr (Or.inl ⟨hnO, find_some_first_winAt Mark.X b hb.2 i hX⟩)⟩
    | none =>
      have hnX := find_none_not_winAt Mark.X b hb.2 hX
      obtain ⟨ir, hir, hpick⟩ := randomPick_mem (emptyIdx b) r2 hd hnil hlen
      refine ⟨ir, by simp only [hpick], Or.inr (Or.inr ⟨hnO, hnX, ?_, hpick⟩)⟩
      exact (clean_mem_emptyIdx hb.2 ir).1 hir

/-- Witness for C6 on the fallback: the empty board, where the scan finds no
win for either mark, with first draw 0.9 and index draw
`0.3333333333333333`. -/
theorem getBotMove_medium_win_block_random_witness :
    Board9 (List.replicate 9 Cell.null) ∧ ¬ ((9/10 : ℚ) < 1/2) ∧ IsDraw thirdDraw ∧
    ∃ i, getBotMove (List.replicate 9 Cell.null) Difficulty.medium (9/10) thirdDraw =
        some (some i, List.replicate 9 Cell.null) ∧
      ((WinAt Mark.O (List.replicate 9 Cell.null) i ∧
          ∀ j, j < i → ¬ WinAt Mark.O (List.replicate 9 Cell.null) j) ∨
       ((∀ j, ¬ WinAt Mark.O (List.replicate 9 Cell.null) j) ∧
          WinAt Mark.X (List.replicate 9 Cell.null) i ∧
          ∀ j, j < i → ¬ WinAt Mark.X (List.replicate 9 Cell.null) j) ∨
       ((∀ j, ¬ WinAt Mark.O (List.replicate 9 Cell.null) j) ∧
         (∀ j, ¬ WinAt Mark.X (List.replicate 9 Cell.null) j) ∧
         (List.replicate 9 Cell.null)[i]? = some Cell.null ∧
         randomPick (emptyIdx (List.replicate 9 Cell.null)) thirdDraw = some i)) :=
  ⟨by decide, by norm_num, isDraw_thirdDraw,
   getBotMove_medium_win_block_random (List.replicate 9 Cell.null) (by decide)
     ⟨0, by decide, by decide⟩ (9/10) thirdDraw (by norm_num) isDraw_thirdDraw⟩

/-- The move of that call is cell 3: the scan finds nothing on the empty
board, and the product of `0.3333333333333333` and 9 rounds to 3. -/
theorem getBotMove_medium_third_draw :
    getBotMove (List.replicate 9 Cell.null) Difficulty.medium (9/10) thirdDraw =
      some (some 3, List.replicate 9 Cell.null) := by
  have he : emptyIdx (List.replicate 9 Cell.null) = [0, 1, 2, 3, 4, 5, 6, 7, 8] := by
    decide
  rw [getBotMove_medium_high _ (by decide) _ _ (by norm_num) (by decide)]
  unfold mediumScan
  rw [he]
  have hO : [0, 1, 2, 3, 4, 5, 6, 7, 8].find? (placeWins Mark.O (List.replicate 9 Cell.null))
      = none := by decide
  have hX : [0, 1, 2, 3, 4, 5, 6, 7, 8].find? (placeWins Mark.X (List.replicate 9 Cell.null))
      = none := by decide
  simp only [hO, hX, randomPick_thirdDraw_nine]

/-- Counterexample to C5 as stated.  On `doubleThreat`, O has no winning
placement and the first empty index where X would win is 5, which is what
the Medium scan returns; yet for 'easy' with first draw 0.9 `getBotMove`
returns 1, the move of the Hard branch. -/
theorem easy_high_draw_is_not_medium_scan :
    ¬ ((9/10 : ℚ) < 4/5) ∧
    (∀ j, ¬ WinAt Mark.O doubleThreat j) ∧
    WinAt Mark.X doubleThreat 5 ∧ (∀ j, j < 5 → ¬ WinAt Mark.X doubleThreat j) ∧
    getBotMove doubleThreat Difficulty.medium (9/10) 0 = some (some 5, doubleThreat) ∧
    getBotMove doubleThreat Difficulty.easy (9/10) 0 = some (some 1, doubleThreat) := by
  have hO : (emptyIdx doubleThreat).find? (placeWins Mark.O doubleThreat) = none := by
    decide
  have hX : (emptyIdx doubleThreat).find? (placeWins Mark.X doubleThreat) = some 5 := by
    decide
  have hc : Clean doubleThreat := by decide
  have hX1 := find_some_first_winAt Mark.X doubleThreat hc 5 hX
  refine ⟨by norm_num, find_none_not_winAt Mark.O doubleThreat hc hO, hX1.1, hX1.2, ?_, ?_⟩
  · rw [getBotMove_medium_high doubleThreat hc (9/10) 0 (by norm_num) (by decide)]
    unfold mediumScan
    rw [hO, hX]
  · rw [getBotMove_easy_high doubleThreat (9/10) 0 0 0 (by norm_num)]
    decide

/-- Claim C5, amended.  For difficulty 'easy' on every board, when the first
draw is not below 0.8, `getBotMove` does not reach the Medium scan: it
returns exactly what it returns for difficulty 'hard', the result of the
minimax loop `hardMove` when the board has an empty cell. -/
theorem getBotMove_easy_high_draw_is_hard (b : Board) (r1 r2 s1 s2 : ℚ)
    (h : ¬ r1 < 4/5) :
    getBotMove b Difficulty.easy r1 r2 = getBotMove b Difficulty.hard s1 s2 ∧
    (emptyIdx b ≠ [] → getBotMove b Difficulty.easy r1 r2 = hardMove (emptyIdx b) b) :=
  ⟨getBotMove_easy_high b r1 r2 s1 s2 h,
   fun hne => (getBotMove_easy_high b r1 r2 0 0 h).trans (getBotMove_hard_eq b 0 0 hne)⟩

/-- Witness for C5, amended: first draw 0.9 on `doubleThreat`. -/
theorem getBotMove_easy_high_draw_is_hard_witness :
    ¬ ((9/10 : ℚ) < 4/5) ∧
    getBotMove doubleThreat Difficulty.easy (9/10) (1/2) =
      getBotMove doubleThreat Difficulty.hard 0 0 ∧
    (emptyIdx doubleThreat ≠ [] →
      getBotMove doubleThreat Difficulty.easy (9/10) (1/2) =
        hardMove (emptyIdx doubleThreat) doubleThreat) :=
  ⟨by norm_num, getBotMove_easy_high_draw_is_hard doubleThreat (9/10) (1/2) 0 0 (by norm_num)⟩

/-! ### `handleMove` -/

theorem isArrayIndex_of_range (idx : Int) (h0 : 0 ≤ idx) (h8 : idx ≤ 8) :
    isArrayIndex idx = true := by
  unfold isArrayIndex
  simp only [Bool.and_eq_true, decide_eq_true_eq]
  omega

theorem jsGet_truthy_iff (b : Board) (i : Nat) :
    (jsGet b i).truthy = true ↔ ∃ m, b[i]? = some (Cell.mark m) := by
  constructor
  · intro h
    cases hc : jsGet b i with
    | mark m => exact ⟨m, (jsGet_eq_mark b i m).1 hc⟩
    | hole => rw [hc] at h; exact absurd h (by simp [Cell.truthy])
    | undef => rw [hc] at h; exact absurd h (by simp [Cell.truthy])
    | null => rw [hc] at h; exact absurd h (by simp [Cell.truthy])
  · rintro ⟨m, hm⟩
    rw [(jsGet_eq_mark b i m).2 hm]
    rfl

theorem handleMove_of_guard (s : State) (idx : Int)
    (h : ((boardGet s idx).truthy || s.gameOver || s.botThinking) = true) :
    handleMove s idx = s := by
  unfold handleMove
  rw [if_pos h]

/-- Claim C9.  For every session state and every index `0..8`, if the cell at
that index holds a mark, or the game is over, or the bot is thinking,
`handleMove` returns the whole state unchanged (board, current mark,
`gameOver`, scores, pending timers); applying it again is again a no-op. -/
theorem handleMove_rejected_is_noop (s : State) (idx : Int) (h0 : 0 ≤ idx) (h8 : idx ≤ 8)
    (h : (∃ m, s.board[idx.toNat]? = some (Cell.mark m)) ∨ s.gameOver = true ∨
      s.botThinking = true) :
    handleMove s idx = s ∧ handleMove (handleMove s idx) idx = s := by
  have hg : ((boardGet s idx).truthy || s.gameOver || s.botThinking) = true := by
    rcases h with h | h | h
    · have : (boardGet s idx).truthy = true := by
        unfold boardGet
        rw [if_pos (isArrayIndex_of_range idx h0 h8)]
        exact (jsGet_truthy_iff _ _).2 h
      simp [this]
    · simp [h]
    · simp [h]
  have h1 := handleMove_of_guard s idx hg
  exact ⟨h1, by rw [h1, h1]⟩

/-- Witness for C9: a click on the occupied cell 0 of a running game. -/
theorem handleMove_rejected_is_noop_witness :
    handleMove { initialState with board := doubleThreat, current := Mark.O } 0 =
        { initialState with board := doubleThreat, current := Mark.O } ∧
    handleMove (handleMove { initialState with board := doubleThreat, current := Mark.O } 0) 0 =
        { initialState with board := doubleThreat, current := Mark.O } :=
  handleMove_rejected_is_noop { initialState with board := doubleThreat, current := Mark.O } 0
    (by decide) (by decide) (Or.inl ⟨Mark.X, by decide⟩)

theorem handleMove_accept (s : State) (idx : Int)
    (h : ((boardGet s idx).truthy || s.gameOver || s.botThinking) = false) :
    (handleMove s idx).board = (boardPut s idx s.current).board ∧
    (handleMove s idx).boardProps = (boardPut s idx s.current).boardProps ∧
    (handleMove s idx).mode = s.mode ∧
    (handleMove s idx).difficulty = s.difficulty ∧
    (handleMove s idx).scores = s.scores ∧
    (∀ r, checkWinner (boardPut s idx s.current).board = some r →
      (handleMove s idx).gameOver = true ∧ (handleMove s idx).current = s.current ∧
      (handleMove s idx).botThinking = false ∧
      (handleMove s idx).timers = s.timers ++ [Timer.showResult r]) ∧
    (checkWinner (boardPut s idx s.current).board = none →
      (handleMove s idx).gameOver = false ∧ (handleMove s idx).current = s.current.other ∧
      ((handleMove s idx).botThinking = true ↔
        (s.mode = Mode.bot ∧ s.current.other = Mark.O)) ∧
      (handleMove s idx).timers =
        if s.mode = Mode.bot ∧ s.current.other = Mark.O then s.timers ++ [Timer.botMove]
        else s.timers) := by
  have hg : s.gameOver = false := by
    cases hx : s.gameOver
    · rfl
    · rw [hx] at h; simp at h
  have hbt : s.botThinking = false := by
    cases hx : s.botThinking
    · rfl
    · rw [hx] at h; simp at h
  have hput : (boardPut s idx s.current).mode = s.mode ∧
      (boardPut s idx s.current).difficulty = s.difficulty ∧
      (boardPut s idx s.current).scores = s.scores ∧
      (boardPut s idx s.current).current = s.current ∧
      (boardPut s idx s.current).gameOver = s.gameOver ∧
      (boardPut s idx s.current).botThinking = s.botThinking ∧
      (boardPut s idx s.current).timers = s.timers := by
    unfold boardPut
    split <;> exact ⟨rfl, rfl, rfl, rfl, rfl, rfl, rfl⟩
  obtain ⟨hp1, hp2, hp3, hp4, hp5, hp6, hp7⟩ := hput
  unfold handleMove
  rw [h]
  simp only [Bool.false_eq_true, if_false]
  cases hcw : checkWinner (boardPut s idx s.current).board with
  | some r =>
    simp only [hp1, hp2, hp3, hp4, hp6, hp7, hbt, true_and]
    refine ⟨?_, ?_⟩
    · intro r' hr'
      simp only [Option.some.injEq] at hr'
      rw [hr']
    · intro hc; exact absurd hc (by simp)
  | none =>
    simp only [hp1, hp4, hp5, hg]
    by_cases hb : s.mode = Mode.bot ∧ s.current.other = Mark.O
    · simp only [and_true, hb, and_self, if_true, triggerBotMove, hp2, hp3, hp7,
        true_and]
      refine ⟨?_, ?_⟩
      · intro r hr; exact absurd hr (by simp)
      · intro _; simp [hg]
    · simp only [and_true, hb, if_false, hp2, hp3, hp6, hp7, hbt, true_and]
      refine ⟨?_, ?_⟩
      · intro r hr; exact absurd hr (by simp)
      · intro _; simp [hg]

theorem jsSet_in_range (b : Board) (i : Nat) (c : Cell) (h : i < b.length) :
    jsSet b i c = b.set i c := by
  unfold jsSet
  rw [if_pos h]

theorem boardGet_falsy_of_null (s : State) (idx : Int) (h0 : 0 ≤ idx) (h8 : idx ≤ 8)
    (h : s.board[idx.toNat]? = some Cell.null) : (boardGet s idx).truthy = false := by
  unfold boardGet
  rw [if_pos (isArrayIndex_of_range idx h0 h8)]
  cases ht : (jsGet s.board idx.toNat).truthy with
  | false => rfl
  | true =>
    obtain ⟨m, hm⟩ := (jsGet_truthy_iff _ _).1 ht
    rw [h] at hm
    exact absurd (Option.some.inj hm) (by simp)

theorem boardPut_board_in_range (s : State) (idx : Int) (m : Mark) (h0 : 0 ≤ idx)
    (h8 : idx ≤ 8) (hlt : idx.toNat < s.board.length) :
    (boardPut s idx m).board = s.board.set idx.toNat (Cell.mark m) := by
  unfold boardPut
  rw [if_pos (isArrayIndex_of_range idx h0 h8)]
  exact jsSet_in_range _ _ _ hlt

theorem handleMove_accepted_fields (s : State) (idx : Int) (h0 : 0 ≤ idx) (h8 : idx ≤ 8)
    (hg : s.gameOver = false) (hbt : s.botThinking = false)
    (hcell : s.board[idx.toNat]? = some Cell.null) :
    (handleMove s idx).board = s.board.set idx.toNat (Cell.mark s.current) ∧
    (handleMove s idx).board[idx.toNat]? = some (Cell.mark s.current) ∧
    (∀ j, j ≠ idx.toNat → (handleMove s idx).board[j]? = s.board[j]?) ∧
    (checkWinner (handleMove s idx).board ≠ none →
      (handleMove s idx).gameOver = true ∧ (handleMove s idx).current = s.current) ∧
    (checkWinner (handleMove s idx).board = none →
      (handleMove s idx).gameOver = false ∧ (handleMove s idx).current = s.current.other) := by
  have hlt : idx.toNat < s.board.length := (List.getElem?_eq_some_iff.1 hcell).1
  have hguard : ((boardGet s idx).truthy || s.gameOver || s.botThinking) = false := by
    rw [boardGet_falsy_of_null s idx h0 h8 hcell, hg, hbt]; rfl
  obtain ⟨hb, -, -, -, -, hwin, hnone⟩ := handleMove_accept s idx hguard
  have hput := boardPut_board_in_range s idx s.current h0 h8 hlt
  rw [hput] at hb hwin hnone
  refine ⟨hb, ?_, ?_, ?_, ?_⟩
  · rw [hb, List.getElem?_set_self hlt]
  · intro j hj
    rw [hb, List.getElem?_set_ne (fun h => hj h.symm)]
  · intro hne
    rw [hb] at hne
    cases hcw : checkWinner (s.board.set idx.toNat (Cell.mark s.current)) with
    | none => exact absurd hcw hne
    | some r => exact ⟨(hwin r hcw).1, (hwin r hcw).2.1⟩
  · intro hn
    rw [hb] at hn
    exact ⟨(hnone hn).1, (hnone hn).2.1⟩

/-- Claim C11.  In a state that is neither game-over nor bot-thinking, for an
index `0..8` naming an empty cell, `handleMove` writes the current mark at
that index and leaves every other cell as it was; if `checkWinner` of the
new board is non-null it sets `gameOver` and keeps the current mark,
otherwise `gameOver` stays false and the current mark flips. -/
theorem handleMove_accepted_move (s : State) (idx : Int) (h0 : 0 ≤ idx) (h8 : idx ≤ 8)
    (hg : s.gameOver = false) (hbt : s.botThinking = false)
    (hcell : s.board[idx.toNat]? = some Cell.null) :
    (handleMove s idx).board = s.board.set idx.toNat (Cell.mark s.current) ∧
    (handleMove s idx).board[idx.toNat]? = some (Cell.mark s.current) ∧
    (∀ j, j ≠ idx.toNat → (handleMove s idx).board[j]? = s.board[j]?) ∧
    (checkWinner (handleMove s idx).board ≠ none →
      (handleMove s idx).gameOver = true ∧ (handleMove s idx).current = s.current) ∧
    (checkWinner (handleMove s idx).board = none →
      (handleMove s idx).gameOver = false ∧ (handleMove s idx).current = s.current.other) :=
  handleMove_accepted_fields s idx h0 h8 hg hbt hcell

/-- Witness for C11: on the board X X _ / _ _ _ / _ _ _ with X to move, the
move at index 2 ends the game with an X win on the line 0, 1, 2. -/
theorem handleMove_accepted_move_witness :
    checkWinner (handleMove { initialState with
        board := [Cell.mark Mark.X, Cell.mark Mark.X, Cell.null, Cell.null, Cell.null,
          Cell.null, Cell.null, Cell.null, Cell.null] } 2).board =
      some (Result.win Mark.X (0, 1, 2)) ∧
    (handleMove { initialState with
        board := [Cell.mark Mark.X, Cell.mark Mark.X, Cell.null, Cell.null, Cell.null,
          Cell.null, Cell.null, Cell.null, Cell.null] } 2).gameOver = true ∧
    (handleMove { initialState with
        board := [Cell.mark Mark.X, Cell.mark Mark.X, Cell.null, Cell.null, Cell.null,
          Cell.null, Cell.null, Cell.null, Cell.null] } 2).current = Mark.X := by
  have h := handleMove_accepted_move { initialState with
        board := [Cell.mark Mark.X, Cell.mark Mark.X, Cell.null, Cell.null, Cell.null,
          Cell.null, Cell.null, Cell.null, Cell.null] } 2 (by decide) (by decide) rfl rfl rfl
  have hcw : checkWinner (handleMove { initialState with
        board := [Cell.mark Mark.X, Cell.mark Mark.X, Cell.null, Cell.null, Cell.null,
          Cell.null, Cell.null, Cell.null, Cell.null] } 2).board =
      some (Result.win Mark.X (0, 1, 2)) := by
    rw [h.1]; decide
  exact ⟨hcw, h.2.2.2.1 (by rw [hcw]; simp)⟩

/-! ### Indices outside `0..8` -/

/-- Counterexample to C10 as stated: in the initial state `handleMove(9)` is
not ignored; the board grows to 10 cells, with X stored at index 9, and the
current mark flips to O. -/
theorem handleMove_nine_grows_board :
    initialState.board.length = 9 ∧ initialState.current = Mark.X ∧
    (handleMove initialState 9).board.length = 10 ∧
    (handleMove initialState 9).board[9]? = some (Cell.mark Mark.X) ∧
    (handleMove initialState 9).current = Mark.O := by
  decide

theorem boardPut_changes (s : State) (idx : Int) (m : Mark) (hlen : s.board.length = 9)
    (h : idx < 0 ∨ 8 < idx) :
    (boardPut s idx m).board ≠ s.board ∨ (boardPut s idx m).boardProps ≠ s.boardProps := by
  unfold boardPut
  by_cases ha : isArrayIndex idx = true
  · rw [if_pos ha]
    left
    unfold isArrayIndex at ha
    simp only [Bool.and_eq_true, decide_eq_true_eq] at ha
    have hge : ¬ idx.toNat < s.board.length := by rw [hlen]; omega
    intro heq
    have := congrArg List.length heq
    unfold jsSet at this
    rw [if_neg hge] at this
    simp at this
  · rw [if_neg ha]
    right
    intro heq
    have := congrArg List.length heq
    simp at this

/-- Claim C10, amended.  For a state with a 9-cell board and an index outside
`0..8`, `handleMove` is ignored when the game is over or the bot is
thinking.  With neither flag set and nothing yet stored under that index,
the move is not ignored: the state changes, the current mark is stored
under the index, and for an array index from 9 up the board grows to
`idx + 1` cells. -/
theorem handleMove_out_of_range (s : State) (idx : Int) (hlen : s.board.length = 9)
    (h : idx < 0 ∨ 8 < idx) :
    ((s.gameOver = true ∨ s.botThinking = true) → handleMove s idx = s) ∧
    (s.gameOver = false → s.botThinking = false → (boardGet s idx).truthy = false →
      handleMove s idx ≠ s ∧ boardGet (handleMove s idx) idx = Cell.mark s.current ∧
      (8 < idx → idx < 4294967295 → (handleMove s idx).board.length = idx.toNat + 1)) := by
  constructor
  · intro hf
    apply handleMove_of_guard
    rcases hf with hf | hf <;> simp [hf]
  · intro hg hbt hcell
    have hguard : ((boardGet s idx).truthy || s.gameOver || s.botThinking) = false := by
      rw [hcell, hg, hbt]; rfl
    obtain ⟨hb, hp, -⟩ := handleMove_accept s idx hguard
    refine ⟨?_, ?_, ?_⟩
    · intro heq
      rcases boardPut_changes s idx s.current hlen h with hc | hc
      · exact hc (by rw [← hb, heq])
      · exact hc (by rw [← hp, heq])
    · unfold boardGet
      rw [hb, hp]
      unfold boardPut
      by_cases ha : isArrayIndex idx = true
      · simp only [ha, if_true]
        rw [jsGet_eq_mark]
        unfold isArrayIndex at ha
        simp only [Bool.and_eq_true, decide_eq_true_eq] at ha
        have hge : ¬ idx.toNat < s.board.length := by rw [hlen]; omega
        unfold jsSet
        rw [if_neg hge]
        rw [List.getElem?_append_right (by simp; omega)]
        have hz : idx.toNat -
            (s.board ++ List.replicate (idx.toNat - s.board.length) Cell.hole).length = 0 := by
          simp; omega
        rw [hz]
        rfl
      · simp only [ha, Bool.false_eq_true, if_false]
        simp [List.lookup]
    · intro h9 hmax
      rw [hb]
      unfold boardPut
      have ha : isArrayIndex idx = true := by
        unfold isArrayIndex
        simp only [Bool.and_eq_true, decide_eq_true_eq]
        omega
      rw [if_pos ha]
      have hge : ¬ idx.toNat < s.board.length := by rw [hlen]; omega
      show (jsSet s.board idx.toNat (Cell.mark s.current)).length = idx.toNat + 1
      unfold jsSet
      rw [if_neg hge]
      simp
      omega

/-- Witness for C10, amended: index 12 in the initial state. -/
theorem handleMove_out_of_range_witness :
    handleMove initialState 12 ≠ initialState ∧
    boardGet (handleMove initialState 12) 12 = Cell.mark Mark.X ∧
    (handleMove initialState 12).board.length = 13 := by
  have h := (handleMove_out_of_range initialState 12 (by decide) (Or.inr (by decide))).2
    rfl rfl (by decide)
  exact ⟨h.1, h.2.1, h.2.2 (by decide) (by decide)⟩

/-! ### Steps keep the marks on the board -/

theorem spread_clean {b : Board} (hb : Clean b) : spread b = b := by
  unfold spread
  conv_rhs => rw [← List.map_id b]
  apply List.map_congr_left
  intro c hc
  have := hb c hc
  cases c with
  | hole => exact absurd rfl this.1
  | undef => rfl
  | null => rfl
  | mark m => rfl

theorem set_mark_keeps_marks (b : Board) (i : Nat) (k : Mark)
    (hi : b[i]? = some Cell.null) (j : Nat) (m : Mark)
    (h : b[j]? = some (Cell.mark m)) : (b.set i (Cell.mark k))[j]? = some (Cell.mark m) := by
  have hne : i ≠ j := by
    intro heq
    subst heq
    rw [hi] at h
    exact absurd (Option.some.inj h) (by simp)
  rw [List.getElem?_set_ne hne]
  exact h

theorem board9_null_of_falsy {b : Board} (hb : Board9 b) (i : Nat) (hi : i < 9)
    (h : (jsGet b i).truthy = false) : b[i]? = some Cell.null := by
  have hlt : i < b.length := by rw [hb.1]; exact hi
  rcases board9_cell_cases hb (List.getElem_mem hlt) with h1 | ⟨m, h1⟩
  · rw [List.getElem?_eq_getElem hlt, h1]
  · have : (jsGet b i).truthy = true :=
      (jsGet_truthy_iff b i).2 ⟨m, by rw [List.getElem?_eq_getElem hlt, h1]⟩
    rw [this] at h
    exact absurd h (by simp)

/-- What a click does to a 9-cell board: nothing, or the current mark lands
on an empty cell. -/
theorem handleMove_board_cases (s : State) (hb : Board9 s.board) (idx : Int)
    (h0 : 0 ≤ idx) (h8 : idx ≤ 8) :
    handleMove s idx = s ∨
    (s.gameOver = false ∧ s.board[idx.toNat]? = some Cell.null ∧
      (handleMove s idx).board = s.board.set idx.toNat (Cell.mark s.current) ∧
      ((handleMove s idx).gameOver = true ↔
        checkWinner (s.board.set idx.toNat (Cell.mark s.current)) ≠ none)) := by
  cases hguard : ((boardGet s idx).truthy || s.gameOver || s.botThinking) with
  | true => exact Or.inl (handleMove_of_guard s idx hguard)
  | false =>
    right
    simp only [Bool.or_eq_false_iff] at hguard
    obtain ⟨⟨hc, hg⟩, hbt⟩ := hguard
    have hi : idx.toNat < 9 := by omega
    have hcell : s.board[idx.toNat]? = some Cell.null := by
      unfold boardGet at hc
      rw [if_pos (isArrayIndex_of_range idx h0 h8)] at hc
      exact board9_null_of_falsy hb _ hi hc
    obtain ⟨hbd, -, -, hw, hn⟩ := handleMove_accepted_fields s idx h0 h8 hg hbt hcell
    refine ⟨hg, hcell, hbd, ?_⟩
    rw [← hbd]
    constructor
    · intro hgo hcw
      have := (hn hcw).1
      rw [hgo] at this
      exact absurd this (by simp)
    · intro hcw
      exact (hw hcw).1

/-- What the bot callback does to a 9-cell board: it returns, and either the
board is unchanged or O lands on an empty cell of a game not yet over. -/
theorem botMoveCallback_board_cases (s : State) (hb : Board9 s.board) (r1 r2 : ℚ) :
    ∃ s', botMoveCallback s r1 r2 = some s' ∧
      ((s'.board = s.board ∧ s'.gameOver = s.gameOver) ∨
       (s.gameOver = false ∧ ∃ i, s.board[i]? = some Cell.null ∧
          s'.board = s.board.set i (Cell.mark Mark.O) ∧
          (s'.gameOver = true ↔ checkWinner (s.board.set i (Cell.mark Mark.O)) ≠ none))) := by
  obtain ⟨mode, diff, board, props, cur, go, sc, bt, tm⟩ := s
  simp only at hb
  unfold botMoveCallback
  simp only []
  rw [spread_clean hb.2]
  by_cases hne : emptyIdx board = []
  · rw [getBotMove_full board diff r1 r2 hne]
    exact ⟨_, rfl, Or.inl ⟨rfl, rfl⟩⟩
  · obtain ⟨mv, h, hmv⟩ := getBotMove_move_cases board hb.2 diff r1 r2 hne
    rw [h]
    have hcases : mv = none ∨ ∃ i ∈ emptyIdx board, mv = some i := by
      rcases hmv with hmv | hmv
      · rw [hmv]; exact randomPick_cases _ _
      · exact Or.inr hmv
    rcases hcases with hnone | ⟨i, hi, hsome⟩
    · rw [hnone]
      exact ⟨_, rfl, Or.inl ⟨rfl, rfl⟩⟩
    rw [hsome]
    have hi1 := (clean_mem_emptyIdx hb.2 i).1 hi
    have hlt : i < board.length := (List.getElem?_eq_some_iff.1 hi1).1
    simp only [jsSet_in_range _ _ _ hlt]
    cases go with
    | true => exact ⟨_, rfl, Or.inl ⟨rfl, rfl⟩⟩
    | false =>
      simp only [Bool.false_eq_true, if_false]
      cases hcw : checkWinner (board.set i (Cell.mark Mark.O)) with
      | some r =>
        exact ⟨_, rfl, Or.inr ⟨trivial, i, hi1, rfl, by simp [hcw]⟩⟩
      | none =>
        exact ⟨_, rfl, Or.inr ⟨trivial, i, hi1, rfl, by simp [hcw]⟩⟩

theorem showResult_board (s : State) (r : Result) :
    (showResult s r).board = s.board ∧ (showResult s r).gameOver = s.gameOver := by
  unfold showResult
  cases r with
  | draw => exact ⟨rfl, rfl⟩
  | win m l => cases m <;> exact ⟨rfl, rfl⟩

theorem botMoveCallback_keeps_marks (s : State) (hb : Board9 s.board) (r1 r2 : ℚ) :
    ∃ s' : State, botMoveCallback s r1 r2 = some s' ∧ s'.board.length = 9 ∧
      ∀ (i : Nat) (m : Mark), s.board[i]? = some (Cell.mark m) →
        s'.board[i]? = some (Cell.mark m) := by
  obtain ⟨s', hs, hc⟩ := botMoveCallback_board_cases s hb r1 r2
  refine ⟨s', hs, ?_⟩
  rcases hc with ⟨h, -⟩ | ⟨-, i, hcell, hbd, -⟩
  · rw [h]
    refine ⟨hb.1, ?_⟩
    intro i m hm
    exact hm
  · rw [hbd]
    exact ⟨by rw [List.length_set]; exact hb.1,
      fun i m h => set_mark_keeps_marks _ _ _ hcell i m h⟩

/-- Claim C15.  From every state with a 9-cell board, a `handleMove` call
with an index `0..8` and the bot move applied by the callback of
`triggerBotMove` (which does return) leave every marked cell with the same
mark, and the board still has exactly 9 cells. -/
theorem steps_keep_marks_and_length (s : State) (hb : Board9 s.board) :
    (∀ idx : Int, 0 ≤ idx → idx ≤ 8 →
      (handleMove s idx).board.length = 9 ∧
      ∀ (i : Nat) (m : Mark), s.board[i]? = some (Cell.mark m) →
        (handleMove s idx).board[i]? = some (Cell.mark m)) ∧
    (∀ r1 r2 : ℚ, 0 ≤ r2 → r2 < 1 →
      ∃ s' : State, botMoveCallback s r1 r2 = some s' ∧ s'.board.length = 9 ∧
        ∀ (i : Nat) (m : Mark), s.board[i]? = some (Cell.mark m) → s'.board[i]? = some (Cell.mark m)) := by
  constructor
  · intro idx h0 h8
    rcases handleMove_board_cases s hb idx h0 h8 with h | ⟨-, hcell, hbd, -⟩
    · rw [h]; exact ⟨hb.1, fun _ _ h => h⟩
    · rw [hbd]
      exact ⟨by rw [List.length_set]; exact hb.1,
        fun i m h => set_mark_keeps_marks _ _ _ hcell i m h⟩
  · intro r1 r2 _ _
    exact botMoveCallback_keeps_marks s hb r1 r2

/-- Witness for C15: the position `doubleThreat` with O to move in a bot game. -/
theorem steps_keep_marks_and_length_witness :
    Board9 threatState.board ∧
    (handleMove threatState 1).board.length = 9 ∧
    ∃ s' : State, botMoveCallback threatState 0 0 = some s' ∧ s'.board.length = 9 :=
  ⟨by decide,
   ((steps_keep_marks_and_length threatState (by decide)).1 1 (by decide) (by decide)).1,
   ((steps_keep_marks_and_length threatState (by decide)).2 0 0
      (by norm_num) (by norm_num)).imp (fun (_ : State) h => ⟨h.1, h.2.1⟩)⟩

/-! ### Reachable boards -/

theorem newGame_initialState : NewGame initialState :=
  ⟨rfl, rfl, rfl, rfl, rfl⟩

theorem reachable_playClicks (s0 : State) (moves : List Int)
    (hm : ∀ i ∈ moves, 0 ≤ i ∧ i ≤ 8) :
    ∀ s, Reachable s0 s → Reachable s0 (playClicks s moves) := by
  induction moves with
  | nil => intro s hs; exact hs
  | cons i rest ih =>
    intro s hs
    have hi := hm i (List.mem_cons_self _ _)
    exact ih (fun j hj => hm j (List.mem_cons_of_mem _ hj)) _
      (Reachable.step hs (Step.click s i hi.1 hi.2))

theorem no_lines_of_checkWinner_none {b : Board} (h : checkWinner b = none) :
    ∀ l ∈ WIN_LINES, ∀ k, ¬ Uniform b l k :=
  (scanLines_eq_none b WIN_LINES).1 ((checkWinner_eq_none b).1 h).1

theorem lines_after_move {b : Board} (h : checkWinner b = none) (i : Nat) (m : Mark)
    (hi : i < b.length) :
    ∀ l ∈ WIN_LINES, ∀ k, Uniform (b.set i (Cell.mark m)) l k → k = m ∧ OnLine i l := by
  intro l hl k hu
  have hno := no_lines_of_checkWinner_none h l hl k
  by_cases h1 : l.1 = i
  · refine ⟨?_, Or.inl h1⟩
    have := hu.1
    rw [h1, List.getElem?_set_self hi] at this
    exact (Cell.mark.inj (Option.some.inj this)).symm
  · by_cases h2 : l.2.1 = i
    · refine ⟨?_, Or.inr (Or.inl h2)⟩
      have := hu.2.1
      rw [h2, List.getElem?_set_self hi] at this
      exact (Cell.mark.inj (Option.some.inj this)).symm
    · by_cases h3 : l.2.2 = i
      · refine ⟨?_, Or.inr (Or.inr h3)⟩
        have := hu.2.2
        rw [h3, List.getElem?_set_self hi] at this
        exact (Cell.mark.inj (Option.some.inj this)).symm
      · exfalso
        apply hno
        obtain ⟨u1, u2, u3⟩ := hu
        rw [List.getElem?_set_ne (fun h => h1 h.symm)] at u1
        rw [List.getElem?_set_ne (fun h => h2 h.symm)] at u2
        rw [List.getElem?_set_ne (fun h => h3 h.symm)] at u3
        exact ⟨u1, u2, u3⟩

theorem gameInv_after_move {b : Board} (hb : Board9 b) (hcw : checkWinner b = none)
    (i : Nat) (m : Mark) (hi : b[i]? = some Cell.null) (s' : State)
    (hbd : s'.board = b.set i (Cell.mark m))
    (hgo : s'.gameOver = true ↔ checkWinner (b.set i (Cell.mark m)) ≠ none) :
    GameInv s' := by
  have hlt : i < b.length := (List.getElem?_eq_some_iff.1 hi).1
  refine ⟨by rw [hbd]; exact board9_set_mark hb i m, ?_, i, m, ?_⟩
  · intro hg
    rw [hbd]
    by_contra hne
    have := hgo.2 hne
    rw [hg] at this
    exact absurd this (by simp)
  · rw [hbd]
    exact lines_after_move hcw i m hlt

theorem gameInv_of_same {s s' : State} (h : GameInv s) (hb : s'.board = s.board)
    (hg : s'.gameOver = s.gameOver) : GameInv s' := by
  unfold GameInv
  rw [hb, hg]
  exact h

theorem gameInv_step {s s' : State} (h : GameInv s) (hs : Step s s') : GameInv s' := by
  cases hs with
  | click idx h0 h8 =>
    rcases handleMove_board_cases s h.1 idx h0 h8 with he | ⟨hg, hcell, hbd, hgo⟩
    · rw [he]; exact h
    · exact gameInv_after_move h.1 (h.2.1 hg) _ _ hcell _ hbd hgo
  | result pre post r ht =>
    have := showResult_board { s with timers := pre ++ post } r
    exact gameInv_of_same h this.1 this.2
  | bot _ pre post r1 r2 ht h0 h1 hcb =>
    have hinv : GameInv { s with timers := pre ++ post } := gameInv_of_same h rfl rfl
    obtain ⟨s'', hs'', hc⟩ :=
      botMoveCallback_board_cases { s with timers := pre ++ post } hinv.1 r1 r2
    rw [hcb] at hs''
    have heq : s' = s'' := Option.some.inj hs''
    subst heq
    rcases hc with ⟨hb, hg⟩ | ⟨hg, i, hcell, hbd, hgo⟩
    · exact gameInv_of_same hinv hb hg
    · exact gameInv_after_move hinv.1 (hinv.2.1 hg) _ _ hcell _ hbd hgo

theorem gameInv_newGame {s0 : State} (h0 : NewGame s0) : GameInv s0 := by
  obtain ⟨hb, -, -, -, -⟩ := h0
  have hcw : checkWinner s0.board = none := by rw [hb]; decide
  refine ⟨by rw [hb]; decide, fun _ => hcw, 0, Mark.X, ?_⟩
  intro l hl k hu
  exact absurd hu (no_lines_of_checkWinner_none hcw l hl k)

theorem gameInv_reachable {s0 s : State} (h0 : NewGame s0) (hr : Reachable s0 s) :
    GameInv s := by
  induction hr with
  | start => exact gameInv_newGame h0
  | step _ hs ih => exact gameInv_step ih hs

/-- Counterexample to C14 as stated: the legal game X1 O4 X2 O5 X3 O7 X6 O8
X0 ends on a board where both the row 0, 1, 2 and the column 0, 3, 6 are
uniformly marked with X. -/
theorem reachable_board_with_two_lines :
    NewGame initialState ∧ Reachable initialState doubleLineGame ∧
    (0, 1, 2) ∈ WIN_LINES ∧ (0, 3, 6) ∈ WIN_LINES ∧
    Uniform doubleLineGame.board (0, 1, 2) Mark.X ∧
    Uniform doubleLineGame.board (0, 3, 6) Mark.X := by
  refine ⟨newGame_initialState, ?_, by decide, by decide, by decide, by decide⟩
  exact reachable_playClicks initialState _ (by decide) _ Reachable.start

/-- Claim C14, amended.  On every board reachable from a new game by clicks on
the nine cells and timer callbacks, no triple of `WIN_LINES` is uniformly
marked while the game is not over, and any two uniformly marked triples
hold the same mark and have a cell in common. -/
theorem reachable_lines_one_mark_one_cell (s0 s : State) (h0 : NewGame s0)
    (hr : Reachable s0 s) :
    (s.gameOver = false → ∀ l ∈ WIN_LINES, ∀ k, ¬ Uniform s.board l k) ∧
    (∀ l1 ∈ WIN_LINES, ∀ l2 ∈ WIN_LINES, ∀ k1 k2,
      Uniform s.board l1 k1 → Uniform s.board l2 k2 →
        k1 = k2 ∧ ∃ i, OnLine i l1 ∧ OnLine i l2) := by
  obtain ⟨-, hgo, i, m, hl⟩ := gameInv_reachable h0 hr
  refine ⟨fun hg => no_lines_of_checkWinner_none (hgo hg), ?_⟩
  intro l1 h1 l2 h2 k1 k2 u1 u2
  obtain ⟨e1, o1⟩ := hl l1 h1 k1 u1
  obtain ⟨e2, o2⟩ := hl l2 h2 k2 u2
  exact ⟨e1.trans e2.symm, i, o1, o2⟩

/-- Witness for C14, amended: the two lines of `doubleLineGame` meet in cell 0. -/
theorem reachable_lines_one_mark_one_cell_witness :
    NewGame initialState ∧ Reachable initialState doubleLineGame ∧
    ∃ i, OnLine i (0, 1, 2) ∧ OnLine i (0, 3, 6) :=
  ⟨newGame_initialState, reachable_playClicks initialState _ (by decide) _ Reachable.start,
   ((reachable_lines_one_mark_one_cell initialState doubleLineGame newGame_initialState
      (reachable_playClicks initialState _ (by decide) _ Reachable.start)).2
      (0, 1, 2) (by decide) (0, 3, 6) (by decide) Mark.X Mark.X (by decide) (by decide)).2⟩

theorem scanLines_winner_iff (b : Board) (ls : List (Nat × Nat × Nat)) (m : Mark)
    (hone : ∀ l ∈ ls, ∀ k, Uniform b l k → k = m ∨ ∀ l' ∈ ls, ¬ Uniform b l' m) :
    (∃ l, scanLines b ls = some (Result.win m l)) ↔ ∃ l ∈ ls, Uniform b l m := by
  constructor
  · rintro ⟨l, hl⟩
    obtain ⟨pre, post, h1, h2, -⟩ := (scanLines_eq_win b ls m l).1 hl
    exact ⟨l, by rw [h1]; simp, h2⟩
  · rintro ⟨l, hl, hu⟩
    cases hs : scanLines b ls with
    | none => exact absurd hu ((scanLines_eq_none b ls).1 hs l hl m)
    | some r =>
      cases r with
      | draw => exact absurd hs (scanLines_ne_draw b ls)
      | win k l' =>
        obtain ⟨pre, post, h1, h2, -⟩ := (scanLines_eq_win b ls k l').1 hs
        have hl' : l' ∈ ls := by rw [h1]; simp
        rcases hone l' hl' k h2 with h | h
        · rw [h]; exact ⟨l', rfl⟩
        · exact absurd hu (h l hl)

/-- Claim C19.  On every board reachable from a new game by clicks on the nine
cells and the bot's replies, no X line and O line are uniformly marked at
the same time; hence scanning the triples of `WIN_LINES` in any other
order reports a win of the same mark as `checkWinner` does. -/
theorem reachable_no_mixed_lines (s0 s : State) (h0 : NewGame s0)
    (hr : Reachable s0 s) :
    (¬ ∃ l1 ∈ WIN_LINES, ∃ l2 ∈ WIN_LINES,
        Uniform s.board l1 Mark.X ∧ Uniform s.board l2 Mark.O) ∧
    (∀ ls : List (Nat × Nat × Nat), (∀ l, l ∈ ls ↔ l ∈ WIN_LINES) →
      ∀ m, (∃ l, scanLines s.board ls = some (Result.win m l)) ↔
        ∃ l, checkWinner s.board = some (Result.win m l)) := by
  obtain ⟨-, -, i, m, hl⟩ := gameInv_reachable h0 hr
  have hone : ∀ ls : List (Nat × Nat × Nat), (∀ l, l ∈ ls → l ∈ WIN_LINES) →
      ∀ k, ∀ l ∈ ls, ∀ k', Uniform s.board l k' → k' = k ∨ ∀ l' ∈ ls, ¬ Uniform s.board l' k := by
    intro ls hsub k l hmem k' hu
    by_cases hk : k' = k
    · exact Or.inl hk
    · right
      intro l' hl' hu'
      have e1 := (hl l (hsub l hmem) k' hu).1
      have e2 := (hl l' (hsub l' hl') k hu').1
      exact hk (e1.trans e2.symm)
  constructor
  · rintro ⟨l1, h1, l2, h2, u1, u2⟩
    have e1 := (hl l1 h1 _ u1).1
    have e2 := (hl l2 h2 _ u2).1
    exact absurd (e1.trans e2.symm) (by decide)
  · intro ls hls k
    rw [scanLines_winner_iff s.board ls k (hone ls (fun l h => (hls l).1 h) k)]
    have : (∃ l, checkWinner s.board = some (Result.win k l)) ↔
        ∃ l, scanLines s.board WIN_LINES = some (Result.win k l) := by
      constructor
      · rintro ⟨l, h⟩; exact ⟨l, (checkWinner_eq_win _ _ _).1 h⟩
      · rintro ⟨l, h⟩; exact ⟨l, (checkWinner_eq_win _ _ _).2 h⟩
    rw [this, scanLines_winner_iff s.board WIN_LINES k (hone WIN_LINES (fun l h => h) k)]
    constructor
    · rintro ⟨l, h1, h2⟩; exact ⟨l, (hls l).1 h1, h2⟩
    · rintro ⟨l, h1, h2⟩; exact ⟨l, (hls l).2 h1, h2⟩

/-- Witness for C19: the finished game `doubleLineGame`, scanned with the
diagonals first. -/
theorem reachable_no_mixed_lines_witness :
    NewGame initialState ∧ Reachable initialState doubleLineGame ∧
    ((∃ l, scanLines doubleLineGame.board
        [(2,4,6), (0,4,8), (2,5,8), (1,4,7), (0,3,6), (6,7,8), (3,4,5), (0,1,2)] =
          some (Result.win Mark.X l)) ↔
      ∃ l, checkWinner doubleLineGame.board = some (Result.win Mark.X l)) :=
  ⟨newGame_initialState, reachable_playClicks initialState _ (by decide) _ Reachable.start,
   (reachable_no_mixed_lines initialState doubleLineGame newGame_initialState
      (reachable_playClicks initialState _ (by decide) _ Reachable.start)).2
      [(2,4,6), (0,4,8), (2,5,8), (1,4,7), (0,3,6), (6,7,8), (3,4,5), (0,1,2)]
      (by
        intro l
        simp only [WIN_LINES, List.mem_cons, List.mem_singleton, List.not_mem_nil, or_false]
        tauto) Mark.X⟩

/-! ### The Hard loop picks the first index of maximal score -/

theorem hardLoop_eq_pickBest (b : Board) (hb : Clean b) :
    ∀ (moves : List Nat), (∀ i ∈ moves, b[i]? = some Cell.null) →
      ∀ best move, hardLoop moves b best move =
        some (pickBest (hardScore b) moves best move, b) := by
  intro moves
  induction moves with
  | nil => intro _ best move; rfl
  | cons i rest ih =>
    intro h best move
    have hi := set_set_null (h i (List.mem_cons_self _ _)) (Cell.mark Mark.O)
    have ih1 := ih (fun j hj => h j (List.mem_cons_of_mem _ hj))
    have hm := minimax_full_window (b.set i (Cell.mark Mark.O))
      (clean_set_mark hb i Mark.O) false 0
    unfold hardLoop pickBest
    rw [hm]
    simp only [hi]
    have hs : plainMinimax (b.set i (Cell.mark Mark.O)) false 0 = hardScore b i := rfl
    rw [hs]
    split
    · exact ih1 _ _
    · exact ih1 _ _

theorem pickBest_cases (sc : Nat → Num) (moves : List Nat) :
    ∀ best move,
      (pickBest sc moves best move = move ∧ ∀ j ∈ moves, sc j ≤ best) ∨
      (∃ pre i post, moves = pre ++ i :: post ∧ pickBest sc moves best move = some i ∧
        best < sc i ∧ (∀ j ∈ pre, sc j < sc i) ∧ (∀ j ∈ post, sc j ≤ sc i)) := by
  induction moves with
  | nil => intro best move; exact Or.inl ⟨rfl, fun j hj => absurd hj (List.not_mem_nil _)⟩
  | cons x rest ih =>
    intro best move
    unfold pickBest
    by_cases hlt : best < sc x
    · rw [if_pos hlt]
      rcases ih (sc x) (some x) with ⟨h1, h2⟩ | ⟨pre, i, post, h1, h2, h3, h4, h5⟩
      · exact Or.inr ⟨[], x, rest, rfl, h1, hlt, fun j hj => absurd hj (List.not_mem_nil _), h2⟩
      · refine Or.inr ⟨x :: pre, i, post, by rw [h1]; rfl, h2, lt_trans hlt h3, ?_, h5⟩
        intro j hj
        rcases List.mem_cons.1 hj with h | h
        · rw [h]; exact h3
        · exact h4 j h
    · rw [if_neg hlt]
      have hle : sc x ≤ best := not_lt.1 hlt
      rcases ih best move with ⟨h1, h2⟩ | ⟨pre, i, post, h1, h2, h3, h4, h5⟩
      · refine Or.inl ⟨h1, ?_⟩
        intro j hj
        rcases List.mem_cons.1 hj with h | h
        · rw [h]; exact hle
        · exact h2 j h
      · refine Or.inr ⟨x :: pre, i, post, by rw [h1]; rfl, h2, h3, ?_, h5⟩
        intro j hj
        rcases List.mem_cons.1 hj with h | h
        · rw [h]; exact lt_of_le_of_lt hle h3
        · exact h4 j h

theorem sorted_split_lt {l pre post : List Nat} {i : Nat} (hl : l.Pairwise (· < ·))
    (h : l = pre ++ i :: post) (j : Nat) (hj : j ∈ l) (hlt : j < i) : j ∈ pre := by
  rw [h] at hl hj
  rw [List.pairwise_append] at hl
  obtain ⟨-, h2, -⟩ := hl
  rw [List.pairwise_cons] at h2
  rcases List.mem_append.1 hj with h3 | h3
  · exact h3
  · rcases List.mem_cons.1 h3 with h4 | h4
    · rw [h4] at hlt; exact absurd hlt (lt_irrefl _)
    · exact absurd (h2.1 j h4) (not_lt.2 (le_of_lt hlt))

/-- The move of the Hard branch on a board with an empty cell: the smallest
empty index whose `hardScore` is maximal. -/
theorem hardMove_first_argmax (b : Board) (hb : Clean b) (hne : emptyIdx b ≠ []) :
    ∃ i, hardMove (emptyIdx b) b = some (some i, b) ∧ b[i]? = some Cell.null ∧
      (∀ j, b[j]? = some Cell.null → hardScore b j ≤ hardScore b i) ∧
      (∀ j, b[j]? = some Cell.null → j < i → hardScore b j < hardScore b i) := by
  have hnull : ∀ i ∈ emptyIdx b, b[i]? = some Cell.null :=
    fun i hi => (clean_mem_emptyIdx hb i).1 hi
  have hmem : ∀ j, b[j]? = some Cell.null → j ∈ emptyIdx b :=
    fun j hj => (clean_mem_emptyIdx hb j).2 hj
  unfold hardMove
  rw [hardLoop_eq_pickBest b hb _ hnull]
  rcases pickBest_cases (hardScore b) (emptyIdx b) Num.negInf (emptyIdx b).head? with
    ⟨h1, h2⟩ | ⟨pre, i, post, h1, h2, h3, h4, h5⟩
  · cases hl : emptyIdx b with
    | nil => exact absurd hl hne
    | cons x rest =>
      rw [hl] at h1 h2
      have hx : x ∈ emptyIdx b := by rw [hl]; exact List.mem_cons_self _ _
      refine ⟨x, by rw [h1]; rfl, hnull x hx, ?_, ?_⟩
      · intro j hj
        have := h2 j (by rw [← hl]; exact hmem j hj)
        exact le_trans this (negInf_le _)
      · intro j hj hlt
        have hs := emptyIdx_pairwise b
        have := @sorted_split_lt (emptyIdx b) [] rest x hs hl j (hmem j hj) hlt
        exact absurd this (List.not_mem_nil _)
  · have hi : i ∈ emptyIdx b := by rw [h1]; simp
    refine ⟨i, by rw [h2], hnull i hi, ?_, ?_⟩
    · intro j hj
      have hjm := hmem j hj
      rw [h1] at hjm
      rcases List.mem_append.1 hjm with h | h
      · exact le_of_lt (h4 j h)
      · rcases List.mem_cons.1 h with h | h
        · rw [h]
        · exact h5 j h
    · intro j hj hlt
      exact h4 j (sorted_split_lt (emptyIdx_pairwise b) h1 j (hmem j hj) hlt)

theorem emptyIdx_ne_nil_of_null {b : Board} {i : Nat} (h : b[i]? = some Cell.null) :
    emptyIdx b ≠ [] :=
  List.ne_nil_of_mem ((mem_emptyIdx b i).2 (Or.inr h))

theorem minimax_hardScore (b : Board) (hb : Clean b) (j : Nat) :
    minimax (b.set j (Cell.mark Mark.O)) false Num.negInf Num.posInf 0 =
      some (hardScore b j, b.set j (Cell.mark Mark.O)) :=
  minimax_full_window _ (clean_set_mark hb j Mark.O) false 0

/-- Claim C12.  On a 9-cell board with an empty cell, `getBotMove(board, 'hard')`
returns the smallest empty index `i` that maximises the score
`minimax(board with O at i, false, -Infinity, +Infinity, 0)` over the empty
indices: no empty index scores higher, and every smaller empty index
scores strictly lower. -/
theorem getBotMove_hard_first_max (b : Board) (hb : Board9 b)
    (hne : ∃ i, i < 9 ∧ b[i]? = some Cell.null) (r1 r2 : ℚ) :
    ∃ (i : Nat) (score : Nat → Num),
      getBotMove b Difficulty.hard r1 r2 = some (some i, b) ∧ b[i]? = some Cell.null ∧
      (∀ j, b[j]? = some Cell.null →
        minimax (b.set j (Cell.mark Mark.O)) false Num.negInf Num.posInf 0 =
          some (score j, b.set j (Cell.mark Mark.O))) ∧
      (∀ j, b[j]? = some Cell.null → score j ≤ score i) ∧
      (∀ j, b[j]? = some Cell.null → j < i → score j < score i) := by
  obtain ⟨i0, -, hi0⟩ := hne
  have hnil := emptyIdx_ne_nil_of_null hi0
  obtain ⟨i, h1, h2, h3, h4⟩ := hardMove_first_argmax b hb.2 hnil
  refine ⟨i, hardScore b, ?_, h2, fun j _ => minimax_hardScore b hb.2 j, h3, h4⟩
  rw [getBotMove_hard_eq b r1 r2 hnil, h1]

/-- Witness for C12: on `doubleThreat` every move scores `-9`, so Hard takes the
first empty index, 1. -/
theorem getBotMove_hard_first_max_witness :
    Board9 doubleThreat ∧
    getBotMove doubleThreat Difficulty.hard 0 0 = some (some 1, doubleThreat) ∧
    ∃ (i : Nat) (score : Nat → Num),
      getBotMove doubleThreat Difficulty.hard 0 0 = some (some i, doubleThreat) ∧
      doubleThreat[i]? = some Cell.null ∧
      (∀ j, doubleThreat[j]? = some Cell.null →
        minimax (doubleThreat.set j (Cell.mark Mark.O)) false Num.negInf Num.posInf 0 =
          some (score j, doubleThreat.set j (Cell.mark Mark.O))) ∧
      (∀ j, doubleThreat[j]? = some Cell.null → score j ≤ score i) ∧
      (∀ j, doubleThreat[j]? = some Cell.null → j < i → score j < score i) :=
  ⟨by decide, by decide,
   getBotMove_hard_first_max doubleThreat (by decide) ⟨1, by decide, by decide⟩ 0 0⟩

/-! ### Bounds on the plain value -/

theorem fin_le_fin (a b : Int) : Num.fin a ≤ Num.fin b ↔ a ≤ b := Iff.rfl

theorem fin_lt_fin (a b : Int) : Num.fin a < Num.fin b ↔ a < b := by
  rw [lt_iff_not_le, fin_le_fin]
  omega

theorem foldl_max_le (c : Num) : ∀ (l : List Num) (a : Num), a ≤ c → (∀ x ∈ l, x ≤ c) →
    l.foldl max a ≤ c := by
  intro l
  induction l with
  | nil => intro a ha _; exact ha
  | cons x l ih =>
    intro a ha h
    exact ih (max a x) (max_le ha (h x (List.mem_cons_self _ _)))
      (fun y hy => h y (List.mem_cons_of_mem _ hy))

theorem le_foldl_max : ∀ (l : List Num) (a : Num),
    a ≤ l.foldl max a ∧ ∀ x ∈ l, x ≤ l.foldl max a := by
  intro l
  induction l with
  | nil => intro a; exact ⟨le_refl _, fun x hx => absurd hx (List.not_mem_nil _)⟩
  | cons y l ih =>
    intro a
    obtain ⟨h1, h2⟩ := ih (max a y)
    refine ⟨le_trans (le_max_left _ _) h1, ?_⟩
    intro x hx
    rcases List.mem_cons.1 hx with h | h
    · rw [h]; exact le_trans (le_max_right _ _) h1
    · exact h2 x h

theorem le_foldl_min (c : Num) : ∀ (l : List Num) (a : Num), c ≤ a → (∀ x ∈ l, c ≤ x) →
    c ≤ l.foldl min a := by
  intro l
  induction l with
  | nil => intro a ha _; exact ha
  | cons x l ih =>
    intro a ha h
    exact ih (min a x) (le_min ha (h x (List.mem_cons_self _ _)))
      (fun y hy => h y (List.mem_cons_of_mem _ hy))

theorem foldl_min_le : ∀ (l : List Num) (a : Num),
    l.foldl min a ≤ a ∧ ∀ x ∈ l, l.foldl min a ≤ x := by
  intro l
  induction l with
  | nil => intro a; exact ⟨le_refl _, fun x hx => absurd hx (List.not_mem_nil _)⟩
  | cons y l ih =>
    intro a
    obtain ⟨h1, h2⟩ := ih (min a y)
    refine ⟨le_trans h1 (min_le_left _ _), ?_⟩
    intro x hx
    rcases List.mem_cons.1 hx with h | h
    · rw [h]; exact le_trans h1 (min_le_right _ _)
    · exact h2 x h

theorem emptyIdx_ne_nil_of_checkWinner_none {b : Board} (h : checkWinner b = none) :
    emptyIdx b ≠ [] := by
  have he := ((checkWinner_eq_none b).1 h).2
  have : ¬ ∀ c ∈ b, c = Cell.hole ∨ ∃ m, c = Cell.mark m := by
    intro hall
    have := (everyBoolean_iff b).2 hall
    rw [he] at this
    exact absurd this (by simp)
  simp only [not_forall] at this
  obtain ⟨c, hc, hn⟩ := this
  obtain ⟨i, hi, rfl⟩ := List.getElem_of_mem hc
  apply List.ne_nil_of_mem (a := i)
  rw [mem_emptyIdx, List.getElem?_eq_getElem hi]
  cases hbi : b[i] with
  | hole => rw [hbi] at hn; exact absurd (Or.inl rfl) hn
  | mark m => rw [hbi] at hn; exact absurd (Or.inr ⟨m, rfl⟩) hn
  | undef => exact Or.inl rfl
  | null => exact Or.inr rfl

/-- The plain value at depth `d` lies between `d - 10` and `10 - d` as long as
the game cannot go deeper than depth 10. -/
theorem plainMinimax_bounds : ∀ (n : Nat) (b : Board) (t : Bool) (d : Int),
    (emptyIdx b).length ≤ n → d + n ≤ 10 →
      Num.fin (d - 10) ≤ plainMinimax b t d ∧ plainMinimax b t d ≤ Num.fin (10 - d) := by
  intro n
  induction n with
  | zero =>
    intro b t d hlen hd
    rw [plainMinimax_unfold]
    cases hcw : checkWinner b with
    | none =>
      have := emptyIdx_ne_nil_of_checkWinner_none hcw
      exact absurd (List.length_eq_zero.1 (Nat.le_zero.1 hlen)) this
    | some r =>
      cases r with
      | draw => simp only [fin_le_fin]; omega
      | win m l => cases m <;> simp only [fin_le_fin] <;> omega
  | succ n ih =>
    intro b t d hlen hd
    rw [plainMinimax_unfold]
    cases hcw : checkWinner b with
    | some r =>
      cases r with
      | draw => simp only [fin_le_fin]; omega
      | win m l => cases m <;> simp only [fin_le_fin] <;> omega
    | none =>
      have hne := emptyIdx_ne_nil_of_checkWinner_none hcw
      obtain ⟨i0, hi0⟩ := List.exists_mem_of_ne_nil _ hne
      have hchild : ∀ (m : Mark) (t' : Bool), ∀ i ∈ emptyIdx b,
          Num.fin (d - 10) ≤ plainMinimax (b.set i (Cell.mark m)) t' (d + 1) ∧
          plainMinimax (b.set i (Cell.mark m)) t' (d + 1) ≤ Num.fin (10 - d) := by
        intro m t' i hi
        have hl := emptyIdx_set_mark_length_lt hi m
        obtain ⟨h1, h2⟩ := ih (b.set i (Cell.mark m)) t' (d + 1) (by omega)
          (by push_cast at hd ⊢; omega)
        refine ⟨le_trans ?_ h1, le_trans h2 ?_⟩
        · rw [fin_le_fin]; omega
        · rw [fin_le_fin]; omega
      simp only []
      cases t with
      | true =>
        simp only [if_true]
        constructor
        · exact le_trans (hchild Mark.O false i0 hi0).1
            ((le_foldl_max _ _).2 _ (List.mem_map.2 ⟨i0, hi0, rfl⟩))
        · apply foldl_max_le _ _ _ (negInf_le _)
          intro x hx
          obtain ⟨i, hi, rfl⟩ := List.mem_map.1 hx
          exact (hchild Mark.O false i hi).2
      | false =>
        simp only [Bool.false_eq_true, if_false]
        constructor
        · apply le_foldl_min _ _ _ (le_posInf _)
          intro x hx
          obtain ⟨i, hi, rfl⟩ := List.mem_map.1 hx
          exact (hchild Mark.X true i hi).1
        · exact le_trans ((foldl_min_le _ _).2 _ (List.mem_map.2 ⟨i0, hi0, rfl⟩))
            (hchild Mark.X true i0 hi0).2

theorem board9_emptyIdx_length_le {b : Board} (hb : Board9 b) : (emptyIdx b).length ≤ 9 := by
  unfold emptyIdx
  calc ((List.range b.length).filter _).length ≤ (List.range b.length).length :=
        List.length_filter_le _ _
    _ = 9 := by rw [List.length_range, hb.1]

/-- The plain value of a position the mover X has not yet lost, at depth `d`
with `d + 1` at most the remaining-depth budget: at most `9 - d`. -/
theorem plainMinimax_min_node_le (b : Board) (d : Int) (hcw : checkWinner b = none)
    (hd : d + (emptyIdx b).length ≤ 10) :
    plainMinimax b false d ≤ Num.fin (10 - (d + 1)) := by
  have hne := emptyIdx_ne_nil_of_checkWinner_none hcw
  obtain ⟨i0, hi0⟩ := List.exists_mem_of_ne_nil _ hne
  rw [plainMinimax_unfold, hcw]
  simp only [Bool.false_eq_true, if_false]
  have hl := emptyIdx_set_mark_length_lt hi0 Mark.X
  have := (plainMinimax_bounds ((emptyIdx b).length - 1) (b.set i0 (Cell.mark Mark.X)) true
    (d + 1) (by omega) (by omega)).2
  exact le_trans ((foldl_min_le _ _).2 _ (List.mem_map.2 ⟨i0, hi0, rfl⟩)) this

theorem hardScore_of_win {b : Board} {i : Nat} {l : Nat × Nat × Nat}
    (h : checkWinner (b.set i (Cell.mark Mark.O)) = some (Result.win Mark.O l)) :
    hardScore b i = Num.fin 10 := by
  unfold hardScore
  rw [plainMinimax_unfold, h]
  rfl

theorem hardScore_le_nine {b : Board} (hb : Board9 b) {i : Nat} (hi : b[i]? = some Cell.null)
    (h : ∀ l, checkWinner (b.set i (Cell.mark Mark.O)) ≠ some (Result.win Mark.O l)) :
    hardScore b i ≤ Num.fin 9 := by
  have hmem : i ∈ emptyIdx b := (clean_mem_emptyIdx hb.2 i).2 hi
  have hl := emptyIdx_set_mark_length_lt hmem Mark.O
  have h9 := board9_emptyIdx_length_le hb
  cases hcw : checkWinner (b.set i (Cell.mark Mark.O)) with
  | none =>
    have := plainMinimax_min_node_le (b.set i (Cell.mark Mark.O)) 0 hcw (by omega)
    exact this
  | some r =>
    unfold hardScore
    rw [plainMinimax_unfold, hcw]
    cases r with
    | draw => simp only [fin_le_fin]; omega
    | win m l =>
      cases m with
      | X => simp only [fin_le_fin]; omega
      | O => exact absurd hcw (h l)

/-- The Hard branch takes an immediate win, stated with `WinAt`. -/
theorem hard_takes_winAt (b : Board) (hb : Board9 b)
    (hwin : ∃ i, WinAt Mark.O b i) (r1 r2 : ℚ) :
    (∃ i, getBotMove b Difficulty.hard r1 r2 = some (some i, b) ∧ WinAt Mark.O b i) ∧
    (∀ j, WinAt Mark.O b j →
      minimax (b.set j (Cell.mark Mark.O)) false Num.negInf Num.posInf 0 =
        some (Num.fin 10, b.set j (Cell.mark Mark.O))) ∧
    (∀ j, b[j]? = some Cell.null → ¬ WinAt Mark.O b j →
      ∃ v, minimax (b.set j (Cell.mark Mark.O)) false Num.negInf Num.posInf 0 =
        some (v, b.set j (Cell.mark Mark.O)) ∧ v ≤ Num.fin 9) := by
  obtain ⟨i0, hi0, l0, hl0⟩ := hwin
  have hnil := emptyIdx_ne_nil_of_null hi0
  obtain ⟨i, h1, h2, h3, -⟩ := hardMove_first_argmax b hb.2 hnil
  have hlose : ∀ j, b[j]? = some Cell.null → ¬ WinAt Mark.O b j →
      hardScore b j ≤ Num.fin 9 := by
    intro j hj hnw
    apply hardScore_le_nine hb hj
    intro l hl
    exact hnw ⟨hj, l, hl⟩
  refine ⟨⟨i, ?_, ?_⟩, ?_, ?_⟩
  · rw [getBotMove_hard_eq b r1 r2 hnil, h1]
  · by_contra hnw
    have h10 := h3 i0 hi0
    rw [hardScore_of_win hl0] at h10
    have h9 := le_trans h10 (hlose i h2 hnw)
    rw [fin_le_fin] at h9
    omega
  · rintro j ⟨-, l, hl⟩
    rw [minimax_hardScore b hb.2 j, hardScore_of_win hl]
  · intro j hj hnw
    exact ⟨hardScore b j, minimax_hardScore b hb.2 j, hlose j hj hnw⟩

/-! ### Lines before and after one more mark -/

theorem uniform_of_set_other {b : Board} {j : Nat} {c : Cell} {l : Nat × Nat × Nat}
    {m : Mark} (hj : j < b.length) (hc : c ≠ Cell.mark m)
    (hu : Uniform (b.set j c) l m) : Uniform b l m := by
  have key : ∀ i : Nat, (b.set j c)[i]? = some (Cell.mark m) → b[i]? = some (Cell.mark m) := by
    intro i hi
    by_cases hij : j = i
    · subst hij
      rw [List.getElem?_set_self hj] at hi
      exact absurd (Option.some.inj hi) hc
    · rwa [List.getElem?_set_ne hij] at hi
  exact ⟨key _ hu.1, key _ hu.2.1, key _ hu.2.2⟩

theorem uniform_set_other {b : Board} {j : Nat} (c : Cell) {l : Nat × Nat × Nat}
    {m : Mark} (hj : b[j]? ≠ some (Cell.mark m))
    (hu : Uniform b l m) : Uniform (b.set j c) l m := by
  have key : ∀ i : Nat, b[i]? = some (Cell.mark m) → (b.set j c)[i]? = some (Cell.mark m) := by
    intro i hi
    have hij : j ≠ i := by
      intro h
      subst h
      exact hj hi
    rwa [List.getElem?_set_ne hij]
  exact ⟨key _ hu.1, key _ hu.2.1, key _ hu.2.2⟩

theorem uniform_of_checkWinner_win {b : Board} {m : Mark} {l : Nat × Nat × Nat}
    (h : checkWinner b = some (Result.win m l)) : l ∈ WIN_LINES ∧ Uniform b l m := by
  obtain ⟨pre, post, h1, h2, -⟩ :=
    (scanLines_eq_win b WIN_LINES m l).1 ((checkWinner_eq_win b m l).1 h)
  exact ⟨by rw [h1]; simp, h2⟩

theorem winner_after_move {b : Board} (h : checkWinner b = none) {i : Nat} (m : Mark)
    (hi : i < b.length) {r : Result} (hr : checkWinner (b.set i (Cell.mark m)) = some r) :
    r = Result.draw ∨ ∃ l, r = Result.win m l := by
  cases r with
  | draw => exact Or.inl rfl
  | win k l =>
    obtain ⟨hl, hu⟩ := uniform_of_checkWinner_win hr
    have := (lines_after_move h i m hi l hl k hu).1
    rw [this]
    exact Or.inr ⟨l, rfl⟩

theorem win_of_uniform_after_move {b : Board} (h : checkWinner b = none) {i : Nat}
    (m : Mark) (hi : i < b.length) {l : Nat × Nat × Nat} {k : Mark} (hl : l ∈ WIN_LINES)
    (hu : Uniform (b.set i (Cell.mark m)) l k) :
    ∃ l', checkWinner (b.set i (Cell.mark m)) = some (Result.win m l') := by
  cases hs : scanLines (b.set i (Cell.mark m)) WIN_LINES with
  | none => exact absurd hu ((scanLines_eq_none _ _).1 hs l hl k)
  | some r =>
    have hcw : checkWinner (b.set i (Cell.mark m)) = some r := by
      unfold checkWinner; rw [hs]
    rcases winner_after_move h m hi hcw with h1 | ⟨l', h1⟩
    · rw [h1] at hs
      exact absurd hs (scanLines_ne_draw _ _)
    · exact ⟨l', by rw [hcw, h1]⟩

theorem null_lt_length {b : Board} {i : Nat} (h : b[i]? = some Cell.null) : i < b.length :=
  (List.getElem?_eq_some_iff.1 h).1

theorem winAt_iff_mem_placeWins {b : Board} (hb : Clean b) (m : Mark) (j : Nat) :
    WinAt m b j ↔ j ∈ emptyIdx b ∧ placeWins m b j = true := by
  constructor
  · intro h
    exact ⟨(clean_mem_emptyIdx hb j).2 h.1, (placeWins_iff m b j h.1).2 h⟩
  · rintro ⟨h1, h2⟩
    exact (placeWins_iff m b j ((clean_mem_emptyIdx hb j).1 h1)).1 h2

/-! ### Hard blocks a single threat -/

theorem hardScore_non_block {b : Board} (hb : Board9 b) (hnt : checkWinner b = none)
    (hno : ∀ j, ¬ WinAt Mark.O b j) {c : Nat} (hc : WinAt Mark.X b c)
    {j : Nat} (hj : b[j]? = some Cell.null) (hjc : j ≠ c) :
    hardScore b j = Num.fin (-9) := by
  obtain ⟨hcn, l, hl⟩ := hc
  have hjl := null_lt_length hj
  have hcl := null_lt_length hcn
  have hb1 : Board9 (b.set j (Cell.mark Mark.O)) := board9_set_mark hb j Mark.O
  have hc1 : (b.set j (Cell.mark Mark.O))[c]? = some Cell.null := by
    rw [List.getElem?_set_ne hjc]; exact hcn
  have hcl1 : c < (b.set j (Cell.mark Mark.O)).length := null_lt_length hc1
  have hnt1 : checkWinner (b.set j (Cell.mark Mark.O)) = none := by
    cases hcw : checkWinner (b.set j (Cell.mark Mark.O)) with
    | none => rfl
    | some r =>
      rcases winner_after_move hnt Mark.O hjl hcw with h | ⟨l', h⟩
      · rw [h] at hcw
        have hall := (board9_everyBoolean_iff hb1).1 ((checkWinner_eq_draw _).1 hcw).2
        obtain ⟨m, hm⟩ := hall c (by rw [← hb1.1]; exact hcl1)
        rw [hc1] at hm
        exact absurd (Option.some.inj hm) (by simp)
      · rw [h] at hcw
        exact absurd ⟨hj, l', hcw⟩ (hno j)
  have hcm : c ∈ emptyIdx (b.set j (Cell.mark Mark.O)) :=
    (clean_mem_emptyIdx hb1.2 c).2 hc1
  have hchild : plainMinimax ((b.set j (Cell.mark Mark.O)).set c (Cell.mark Mark.X)) true 1 =
      Num.fin (-9) := by
    obtain ⟨hlw, hu⟩ := uniform_of_checkWinner_win hl
    have hu' : Uniform ((b.set j (Cell.mark Mark.O)).set c (Cell.mark Mark.X)) l Mark.X := by
      rw [List.set_comm _ _ _ hjc]
      apply uniform_set_other
      · rw [List.getElem?_set_ne (fun h => hjc h.symm), hj]
        simp
      · exact hu
    obtain ⟨l', hl'⟩ := win_of_uniform_after_move hnt1 Mark.X hcl1 hlw hu'
    rw [plainMinimax_unfold, hl']
    rfl
  have h9 := board9_emptyIdx_length_le hb
  have hjm : j ∈ emptyIdx b := (clean_mem_emptyIdx hb.2 j).2 hj
  have hlj := emptyIdx_set_mark_length_lt hjm Mark.O
  unfold hardScore
  rw [plainMinimax_unfold, hnt1]
  simp only [Bool.false_eq_true, if_false]
  apply le_antisymm
  · have := (foldl_min_le
      ((emptyIdx (b.set j (Cell.mark Mark.O))).map (fun i =>
        plainMinimax ((b.set j (Cell.mark Mark.O)).set i (Cell.mark Mark.X)) true (0 + 1)))
      Num.posInf).2 _ (List.mem_map.2 ⟨c, hcm, rfl⟩)
    rw [show (0 : Int) + 1 = 1 from rfl] at this
    rw [hchild] at this
    exact this
  · apply le_foldl_min _ _ _ (le_posInf _)
    intro x hx
    obtain ⟨k, hk, rfl⟩ := List.mem_map.1 hx
    have hlk := emptyIdx_set_mark_length_lt hk Mark.X
    have := (plainMinimax_bounds 7 ((b.set j (Cell.mark Mark.O)).set k (Cell.mark Mark.X))
      true (0 + 1) (by omega) (by norm_num)).1
    exact this

theorem hardScore_block {b : Board} (hb : Board9 b) (hnt : checkWinner b = none)
    {c : Nat} (hc : WinAt Mark.X b c) (huniq : ∀ j, WinAt Mark.X b j → j = c) :
    Num.fin (-8) ≤ hardScore b c := by
  obtain ⟨hcn, -⟩ := hc
  have hcl := null_lt_length hcn
  have hb2 : Board9 (b.set c (Cell.mark Mark.O)) := board9_set_mark hb c Mark.O
  have h9 := board9_emptyIdx_length_le hb
  have hcm : c ∈ emptyIdx b := (clean_mem_emptyIdx hb.2 c).2 hcn
  have hlc := emptyIdx_set_mark_length_lt hcm Mark.O
  unfold hardScore
  rw [plainMinimax_unfold]
  cases hcw : checkWinner (b.set c (Cell.mark Mark.O)) with
  | some r =>
    rcases winner_after_move hnt Mark.O hcl hcw with h | ⟨l', h⟩
    · rw [h]; simp only [fin_le_fin]; omega
    · rw [h]; simp only [fin_le_fin]; omega
  | none =>
    simp only [Bool.false_eq_true, if_false]
    apply le_foldl_min _ _ _ (le_posInf _)
    intro x hx
    obtain ⟨k, hk, rfl⟩ := List.mem_map.1 hx
    have hk2 : (b.set c (Cell.mark Mark.O))[k]? = some Cell.null :=
      (clean_mem_emptyIdx hb2.2 k).1 hk
    have hkl2 := null_lt_length hk2
    have hkc : c ≠ k := by
      intro h
      subst h
      rw [List.getElem?_set_self hcl] at hk2
      exact absurd (Option.some.inj hk2) (by simp)
    have hkn : b[k]? = some Cell.null := by
      rwa [List.getElem?_set_ne hkc] at hk2
    have hkl := null_lt_length hkn
    have hlk := emptyIdx_set_mark_length_lt hk Mark.X
    rw [plainMinimax_unfold]
    cases hcw3 : checkWinner ((b.set c (Cell.mark Mark.O)).set k (Cell.mark Mark.X)) with
    | some r =>
      rcases winner_after_move hcw Mark.X hkl2 hcw3 with h | ⟨l', h⟩
      · rw [h]; simp only [fin_le_fin]; omega
      · exfalso
        rw [h] at hcw3
        obtain ⟨hlw, hu⟩ := uniform_of_checkWinner_win hcw3
        rw [List.set_comm _ _ _ hkc] at hu
        have hu' : Uniform (b.set k (Cell.mark Mark.X)) l' Mark.X :=
          uniform_of_set_other (by rw [List.length_set]; exact hcl) (by simp) hu
        obtain ⟨l'', hl''⟩ := win_of_uniform_after_move hnt Mark.X hkl hlw hu'
        exact hkc (huniq k ⟨hkn, l'', hl''⟩).symm
    | none =>
      have hne := emptyIdx_ne_nil_of_checkWinner_none hcw3
      obtain ⟨i0, hi0⟩ := List.exists_mem_of_ne_nil _ hne
      have hl0 := emptyIdx_set_mark_length_lt hi0 Mark.O
      simp only [if_true]
      have h1 := (plainMinimax_bounds 6
        (((b.set c (Cell.mark Mark.O)).set k (Cell.mark Mark.X)).set i0 (Cell.mark Mark.O))
        false (0 + 1 + 1) (by omega) (by norm_num)).1
      exact le_trans h1 ((le_foldl_max _ _).2 _ (List.mem_map.2 ⟨i0, hi0, rfl⟩))

/-- The Hard branch blocks a single threat, stated with `WinAt`. -/
theorem hard_blocks_winAt (b : Board) (hb : Board9 b)
    (hnt : checkWinner b = none) (hno : ∀ j, ¬ WinAt Mark.O b j) (c : Nat)
    (hc : WinAt Mark.X b c) (huniq : ∀ j, WinAt Mark.X b j → j = c) (r1 r2 : ℚ) :
    getBotMove b Difficulty.hard r1 r2 = some (some c, b) ∧
    (∀ j, b[j]? = some Cell.null → j ≠ c →
      minimax (b.set j (Cell.mark Mark.O)) false Num.negInf Num.posInf 0 =
        some (Num.fin (-9), b.set j (Cell.mark Mark.O))) ∧
    (∃ v, minimax (b.set c (Cell.mark Mark.O)) false Num.negInf Num.posInf 0 =
        some (v, b.set c (Cell.mark Mark.O)) ∧ Num.fin (-8) ≤ v) := by
  have hnil := emptyIdx_ne_nil_of_null hc.1
  obtain ⟨i, h1, h2, h3, -⟩ := hardMove_first_argmax b hb.2 hnil
  have hblock := hardScore_block hb hnt hc huniq
  have hic : i = c := by
    by_contra hne
    have h9 := hardScore_non_block hb hnt hno hc h2 hne
    have := le_trans hblock (h3 c hc.1)
    rw [h9, fin_le_fin] at this
    omega
  refine ⟨?_, ?_, ?_⟩
  · rw [getBotMove_hard_eq b r1 r2 hnil, h1, hic]
  · intro j hj hjc
    rw [minimax_hardScore b hb.2 j, hardScore_non_block hb hnt hno hc hj hjc]
  · exact ⟨hardScore b c, minimax_hardScore b hb.2 c, hblock⟩

/-! ### Exchanging the marks -/

theorem jsGet_swap (b : Board) (i : Nat) : jsGet (swap b) i = (jsGet b i).swap := by
  unfold jsGet swap
  rw [List.getD_eq_getElem?_getD, List.getD_eq_getElem?_getD, List.getElem?_map]
  cases b[i]? with
  | none => rfl
  | some c => cases c <;> rfl

theorem other_other (m : Mark) : m.other.other = m := by
  cases m <;> rfl

theorem cell_swap_eq_mark (c : Cell) (m : Mark) :
    c.swap = Cell.mark m.other ↔ c = Cell.mark m := by
  cases c with
  | mark k =>
    simp only [Cell.swap, Cell.mark.injEq]
    constructor
    · intro h
      have := congrArg Mark.other h
      rwa [other_other, other_other] at this
    · intro h; rw [h]
  | hole => simp [Cell.swap]
  | undef => simp [Cell.swap]
  | null => simp [Cell.swap]

theorem lineWinner_swap (b : Board) (l : Nat × Nat × Nat) :
    lineWinner (swap b) l = (lineWinner b l).map Mark.other := by
  unfold lineWinner
  rw [jsGet_swap, jsGet_swap, jsGet_swap]
  cases h1 : jsGet b l.1 with
  | mark m =>
    have e : (Cell.mark m).swap = Cell.mark m.other := rfl
    rw [e]
    simp only [cell_swap_eq_mark]
    by_cases h : jsGet b l.2.1 = Cell.mark m ∧ jsGet b l.2.2 = Cell.mark m
    · rw [if_pos h, if_pos h]; rfl
    · rw [if_neg h, if_neg h]; rfl
  | hole => rfl
  | undef => rfl
  | null => rfl

theorem scanLines_swap (b : Board) (ls : List (Nat × Nat × Nat)) :
    scanLines (swap b) ls = (scanLines b ls).map Result.swap := by
  induction ls with
  | nil => rfl
  | cons l rest ih =>
    unfold scanLines
    rw [lineWinner_swap]
    cases lineWinner b l with
    | none => exact ih
    | some m => rfl

theorem everyBoolean_swap (b : Board) : everyBoolean (swap b) = everyBoolean b := by
  unfold everyBoolean swap
  rw [List.all_map]
  congr 1
  funext c
  cases c <;> rfl

theorem checkWinner_swap (b : Board) :
    checkWinner (swap b) = (checkWinner b).map Result.swap := by
  unfold checkWinner
  rw [scanLines_swap, everyBoolean_swap]
  cases scanLines b WIN_LINES with
  | some r => rfl
  | none =>
    cases everyBoolean b <;> rfl

theorem emptyIdx_swap (b : Board) : emptyIdx (swap b) = emptyIdx b := by
  unfold emptyIdx
  have hlen : (swap b).length = b.length := by unfold swap; rw [List.length_map]
  rw [hlen]
  apply List.filter_congr
  intro i _
  rw [List.getD_eq_getElem?_getD, List.getD_eq_getElem?_getD]
  unfold swap
  rw [List.getElem?_map]
  cases b[i]? with
  | none => rfl
  | some c => cases c <;> rfl

theorem swap_set (b : Board) (i : Nat) (c : Cell) :
    swap (b.set i c) = (swap b).set i c.swap := by
  unfold swap
  rw [List.map_set]

theorem neg_anti {a b : Num} (h : a ≤ b) : b.neg ≤ a.neg := by
  cases a with
  | negInf => exact le_posInf _
  | posInf =>
    cases b with
    | posInf => exact le_refl _
    | negInf => exact (h : False).elim
    | fin n => exact (h : False).elim
  | fin n =>
    cases b with
    | negInf => exact (h : False).elim
    | posInf => exact negInf_le _
    | fin k =>
      have hk := (fin_le_fin n k).1 h
      exact (fin_le_fin (-k) (-n)).2 (by omega)

theorem neg_min (a b : Num) : (min a b).neg = max a.neg b.neg := by
  rcases le_total a b with h | h
  · rw [min_eq_left h, max_eq_left (neg_anti h)]
  · rw [min_eq_right h, max_eq_right (neg_anti h)]

theorem neg_max (a b : Num) : (max a b).neg = min a.neg b.neg := by
  rcases le_total a b with h | h
  · rw [max_eq_right h, min_eq_right (neg_anti h)]
  · rw [max_eq_left h, min_eq_left (neg_anti h)]

theorem neg_foldl_min (l : List Num) (a : Num) :
    (l.foldl min a).neg = (l.map Num.neg).foldl max a.neg := by
  induction l generalizing a with
  | nil => rfl
  | cons x l ih => rw [List.foldl_cons, ih, neg_min]; rfl

theorem neg_foldl_max (l : List Num) (a : Num) :
    (l.foldl max a).neg = (l.map Num.neg).foldl min a.neg := by
  induction l generalizing a with
  | nil => rfl
  | cons x l ih => rw [List.foldl_cons, ih, neg_max]; rfl

theorem plainMinimax_swap : ∀ (n : Nat) (b : Board) (t : Bool) (d : Int),
    (emptyIdx b).length ≤ n →
      plainMinimax (swap b) (!t) d = (plainMinimax b t d).neg := by
  intro n
  induction n with
  | zero =>
    intro b t d hlen
    rw [plainMinimax_unfold, plainMinimax_unfold b, checkWinner_swap]
    cases hcw : checkWinner b with
    | none =>
      have := emptyIdx_ne_nil_of_checkWinner_none hcw
      exact absurd (List.length_eq_zero.1 (Nat.le_zero.1 hlen)) this
    | some r =>
      cases r with
      | draw => rfl
      | win m l =>
        cases m with
        | X => simp only [Option.map, Result.swap, Mark.other, Num.neg]; congr 1; omega
        | O => simp only [Option.map, Result.swap, Mark.other, Num.neg]; congr 1; omega
  | succ n ih =>
    intro b t d hlen
    rw [plainMinimax_unfold, plainMinimax_unfold b, checkWinner_swap]
    cases hcw : checkWinner b with
    | some r =>
      cases r with
      | draw => rfl
      | win m l =>
        cases m with
        | X => simp only [Option.map, Result.swap, Mark.other, Num.neg]; congr 1; omega
        | O => simp only [Option.map, Result.swap, Mark.other, Num.neg]; congr 1; omega
    | none =>
      simp only [Option.map, emptyIdx_swap]
      have hchild : ∀ (m : Mark) (t' : Bool), ∀ i ∈ emptyIdx b,
          plainMinimax ((swap b).set i (Cell.mark m.other)) (!t') (d + 1) =
            (plainMinimax (b.set i (Cell.mark m)) t' (d + 1)).neg := by
        intro m t' i hi
        have hl := emptyIdx_set_mark_length_lt hi m
        have := ih (b.set i (Cell.mark m)) t' (d + 1) (by omega)
        rw [swap_set] at this
        exact this
      cases t with
      | true =>
        simp only [Bool.not_true, Bool.false_eq_true, if_false, if_true]
        rw [neg_foldl_max, List.map_map]
        congr 1
        apply List.map_congr_left
        intro i hi
        exact hchild Mark.O false i hi
      | false =>
        simp only [Bool.not_false, Bool.false_eq_true, if_false, if_true]
        rw [neg_foldl_min, List.map_map]
        congr 1
        apply List.map_congr_left
        intro i hi
        exact hchild Mark.X true i hi

theorem clean_swap {b : Board} (hb : Clean b) : Clean (swap b) := by
  intro c hc
  unfold swap at hc
  obtain ⟨c0, hc0, rfl⟩ := List.mem_map.1 hc
  have := hb c0 hc0
  cases c0 with
  | hole => exact absurd rfl this.1
  | undef => exact absurd rfl this.2
  | null => exact ⟨by simp [Cell.swap], by simp [Cell.swap]⟩
  | mark m => exact ⟨by simp [Cell.swap], by simp [Cell.swap]⟩

/-- Claim C16.  For every 9-cell board `b` and depth `d`, `minimax` on the board
with X and O exchanged, O to move, returns the negation of what `minimax`
returns on `b` with X to move, both with the full window. -/
theorem minimax_swap_antisymmetric (b : Board) (hb : Board9 b) (d : Int) :
    ∃ v, minimax b false Num.negInf Num.posInf d = some (v, b) ∧
      minimax (swap b) true Num.negInf Num.posInf d = some (v.neg, swap b) := by
  refine ⟨plainMinimax b false d, minimax_full_window b hb.2 false d, ?_⟩
  rw [minimax_full_window (swap b) (clean_swap hb.2) true d]
  have := plainMinimax_swap _ b false d (le_refl _)
  simp only [Bool.not_false] at this
  rw [this]

/-- Witness for C16: `doubleThreat` scores `-8` for X to move at depth 1, and
its exchange scores `8` for O to move. -/
theorem minimax_swap_antisymmetric_witness :
    Board9 doubleThreat ∧
    minimax doubleThreat false Num.negInf Num.posInf 1 = some (Num.fin (-8), doubleThreat) ∧
    ∃ v, minimax doubleThreat false Num.negInf Num.posInf 1 = some (v, doubleThreat) ∧
      minimax (swap doubleThreat) true Num.negInf Num.posInf 1 =
        some (v.neg, swap doubleThreat) :=
  ⟨by decide, by decide, minimax_swap_antisymmetric doubleThreat (by decide) 1⟩

/-! ### Termination of `minimax` -/

theorem maxLoop_congr (rec rec' : Board → Num → Num → Ret Num) (b : Board) :
    ∀ moves : List Nat,
    (∀ i ∈ moves, (b.set i (Cell.mark Mark.O)).set i Cell.null = b) →
    (∀ i ∈ moves, ∀ α β,
      rec' (b.set i (Cell.mark Mark.O)) α β = rec (b.set i (Cell.mark Mark.O)) α β) →
    (∀ i ∈ moves, ∀ α β, ∃ r,
      rec (b.set i (Cell.mark Mark.O)) α β = some (r, b.set i (Cell.mark Mark.O))) →
    ∀ best α β, maxLoop rec' moves b best α β = maxLoop rec moves b best α β := by
  intro moves
  induction moves with
  | nil => intro _ _ _ best α β; rfl
  | cons i rest ih =>
    intro hnull heq hfr best α β
    obtain ⟨r, hr⟩ := hfr i (List.mem_cons_self _ _) α β
    have ih1 := ih (fun j hj => hnull j (List.mem_cons_of_mem _ hj))
      (fun j hj => heq j (List.mem_cons_of_mem _ hj))
      (fun j hj => hfr j (List.mem_cons_of_mem _ hj))
    unfold maxLoop
    rw [heq i (List.mem_cons_self _ _), hr]
    simp only []
    rw [hnull i (List.mem_cons_self _ _)]
    split
    · rfl
    · exact ih1 _ _ _

theorem minLoop_congr (rec rec' : Board → Num → Num → Ret Num) (b : Board) :
    ∀ moves : List Nat,
    (∀ i ∈ moves, (b.set i (Cell.mark Mark.X)).set i Cell.null = b) →
    (∀ i ∈ moves, ∀ α β,
      rec' (b.set i (Cell.mark Mark.X)) α β = rec (b.set i (Cell.mark Mark.X)) α β) →
    (∀ i ∈ moves, ∀ α β, ∃ r,
      rec (b.set i (Cell.mark Mark.X)) α β = some (r, b.set i (Cell.mark Mark.X))) →
    ∀ best α β, minLoop rec' moves b best α β = minLoop rec moves b best α β := by
  intro moves
  induction moves with
  | nil => intro _ _ _ best α β; rfl
  | cons i rest ih =>
    intro hnull heq hfr best α β
    obtain ⟨r, hr⟩ := hfr i (List.mem_cons_self _ _) α β
    have ih1 := ih (fun j hj => hnull j (List.mem_cons_of_mem _ hj))
      (fun j hj => heq j (List.mem_cons_of_mem _ hj))
      (fun j hj => hfr j (List.mem_cons_of_mem _ hj))
    unfold minLoop
    rw [heq i (List.mem_cons_self _ _), hr]
    simp only []
    rw [hnull i (List.mem_cons_self _ _)]
    split
    · rfl
    · exact ih1 _ _ _

theorem minimaxFuel_succ : ∀ (n : Nat) (b : Board), Clean b → (emptyIdx b).length < n →
    ∀ (t : Bool) (α β : Num) (d : Int),
      minimaxFuel (n + 1) b t α β d = minimaxFuel n b t α β d := by
  intro n
  induction n with
  | zero => intro b _ h; exact absurd h (Nat.not_lt_zero _)
  | succ n ih =>
    intro b hb hlen t α β d
    have hnull : ∀ (m : Mark), ∀ i ∈ emptyIdx b,
        (b.set i (Cell.mark m)).set i Cell.null = b :=
      fun m i hi => set_set_null ((clean_mem_emptyIdx hb i).1 hi) _
    have heq : ∀ (m : Mark) (t' : Bool), ∀ i ∈ emptyIdx b, ∀ α β,
        minimaxFuel (n + 1) (b.set i (Cell.mark m)) t' α β (d + 1) =
          minimaxFuel n (b.set i (Cell.mark m)) t' α β (d + 1) := by
      intro m t' i hi α β
      have hl := emptyIdx_set_mark_length_lt hi m
      exact ih _ (clean_set_mark hb i m) (by omega) t' α β (d + 1)
    have hfr : ∀ (m : Mark) (t' : Bool), ∀ i ∈ emptyIdx b, ∀ α β, ∃ r,
        minimaxFuel n (b.set i (Cell.mark m)) t' α β (d + 1) =
          some (r, b.set i (Cell.mark m)) := by
      intro m t' i hi α β
      have hl := emptyIdx_set_mark_length_lt hi m
      obtain ⟨r, hr, -⟩ := minimaxFuel_spec n _ (clean_set_mark hb i m) (by omega) t' α β
        (d + 1)
      exact ⟨r, hr⟩
    rw [minimaxFuel, minimaxFuel]
    cases hcw : checkWinner b with
    | some r =>
      cases r with
      | draw => rfl
      | win m l => cases m <;> rfl
    | none =>
      simp only []
      cases t with
      | true =>
        simp only [if_true]
        exact maxLoop_congr _ _ b _ (hnull Mark.O) (heq Mark.O false) (hfr Mark.O false) _ _ _
      | false =>
        simp only [Bool.false_eq_true, if_false]
        exact minLoop_congr _ _ b _ (hnull Mark.X) (heq Mark.X true) (hfr Mark.X true) _ _ _

theorem minimaxFuel_eq_minimax (b : Board) (hb : Clean b) (t : Bool) (α β : Num) (d : Int) :
    ∀ n, (emptyIdx b).length < n → minimaxFuel n b t α β d = minimax b t α β d := by
  intro n hn
  induction n with
  | zero => exact absurd hn (Nat.not_lt_zero _)
  | succ n ih =>
    rcases Nat.lt_or_ge (emptyIdx b).length n with h | h
    · rw [minimaxFuel_succ n b hb h, ih h]
    · have : n = (emptyIdx b).length := by omega
      rw [this]
      rfl

/-- Claim C17.  On every 9-cell board, for every side, window and depth,
`minimax` terminates: every recursive call is made on a board with
strictly fewer empty cells, the call returns a result, and that result is
reached with any recursion budget above the number of empty cells, so no
iteration cap is involved. -/
theorem minimax_terminates (b : Board) (hb : Board9 b) (isMax : Bool) (α β : Num)
    (d : Int) :
    (∀ i ∈ emptyIdx b, ∀ m : Mark,
      (emptyIdx (b.set i (Cell.mark m))).length < (emptyIdx b).length) ∧
    ∃ r, minimax b isMax α β d = some (r, b) ∧
      ∀ n, (emptyIdx b).length < n → minimaxFuel n b isMax α β d = some (r, b) := by
  refine ⟨fun i hi m => emptyIdx_set_mark_length_lt hi m, ?_⟩
  obtain ⟨r, hr, -⟩ := minimax_spec b hb.2 isMax α β d
  refine ⟨r, hr, ?_⟩
  intro n hn
  rw [minimaxFuel_eq_minimax b hb.2 isMax α β d n hn, hr]

/-- Witness for C17: the empty board with a window that prunes. -/
theorem minimax_terminates_witness :
    Board9 (List.replicate 9 Cell.null) ∧
    ∃ r, minimax (List.replicate 9 Cell.null) true (Num.fin (-1)) (Num.fin 1) 0 =
        some (r, List.replicate 9 Cell.null) ∧
      ∀ n, (emptyIdx (List.replicate 9 Cell.null)).length < n →
        minimaxFuel n (List.replicate 9 Cell.null) true (Num.fin (-1)) (Num.fin 1) 0 =
          some (r, List.replicate 9 Cell.null) :=
  ⟨by decide,
   (minimax_terminates (List.replicate 9 Cell.null) (by decide) true (Num.fin (-1))
      (Num.fin 1) 0).2⟩

/-! ### Positions O can hold -/

theorem holds_not_xwin {b : Board} {t : Bool} (h : Holds b t) :
    ∀ l, checkWinner b ≠ some (Result.win Mark.X l) := by
  intro l hl
  cases h with
  | done _ _ r hr hx =>
    rw [hl] at hr
    exact hx l (Option.some.inj hr).symm
  | xMove _ hn _ => rw [hl] at hn; exact absurd hn (by simp)
  | oMove _ i hn _ _ => rw [hl] at hn; exact absurd hn (by simp)

theorem holds_after_x {b : Board} (h : Holds b false) (hn : checkWinner b = none) :
    ∀ i ∈ emptyIdx b, Holds (b.set i (Cell.mark Mark.X)) true := by
  cases h with
  | done _ _ r hr _ => rw [hn] at hr; exact absurd hr (by simp)
  | xMove _ _ hall => exact hall

theorem holds_some_o {b : Board} (h : Holds b true) (hn : checkWinner b = none) :
    ∃ i ∈ emptyIdx b, Holds (b.set i (Cell.mark Mark.O)) false := by
  cases h with
  | done _ _ r hr _ => rw [hn] at hr; exact absurd hr (by simp)
  | oMove _ i _ hi hnext => exact ⟨i, hi, hnext⟩

theorem holds_plain_nonneg {b : Board} {t : Bool} (h : Holds b t) :
    ∀ d : Int, d + (emptyIdx b).length ≤ 10 → Num.fin 0 ≤ plainMinimax b t d := by
  induction h with
  | done b t r hr hx =>
    intro d hd
    rw [plainMinimax_unfold, hr]
    cases r with
    | draw => exact le_refl _
    | win m l =>
      cases m with
      | X => exact absurd rfl (hx l)
      | O => simp only [fin_le_fin]; omega
  | xMove b hn _ ih =>
    intro d hd
    rw [plainMinimax_unfold, hn]
    simp only [Bool.false_eq_true, if_false]
    apply le_foldl_min _ _ _ (le_posInf _)
    intro x hx
    obtain ⟨i, hi, rfl⟩ := List.mem_map.1 hx
    have hl := emptyIdx_set_mark_length_lt hi Mark.X
    exact ih i hi (d + 1) (by omega)
  | oMove b i hn hi _ ih =>
    intro d hd
    rw [plainMinimax_unfold, hn]
    simp only [if_true]
    have hl := emptyIdx_set_mark_length_lt hi Mark.O
    exact le_trans (ih (d + 1) (by omega))
      ((le_foldl_max _ _).2 _ (List.mem_map.2 ⟨i, hi, rfl⟩))

theorem foldl_max_lt (c : Num) : ∀ (l : List Num) (a : Num), a < c → (∀ x ∈ l, x < c) →
    l.foldl max a < c := by
  intro l
  induction l with
  | nil => intro a ha _; exact ha
  | cons x l ih =>
    intro a ha h
    exact ih (max a x) (max_lt ha (h x (List.mem_cons_self _ _)))
      (fun y hy => h y (List.mem_cons_of_mem _ hy))

theorem plain_nonneg_holds : ∀ (n : Nat) (b : Board) (t : Bool) (d : Int),
    (emptyIdx b).length ≤ n → d + n ≤ 9 → Num.fin 0 ≤ plainMinimax b t d → Holds b t := by
  intro n
  induction n with
  | zero =>
    intro b t d hlen hd hv
    rw [plainMinimax_unfold] at hv
    cases hcw : checkWinner b with
    | none =>
      have := emptyIdx_ne_nil_of_checkWinner_none hcw
      exact absurd (List.length_eq_zero.1 (Nat.le_zero.1 hlen)) this
    | some r =>
      refine Holds.done b t r hcw ?_
      intro l hl
      rw [hcw, hl] at hv
      simp only [fin_le_fin] at hv
      omega
  | succ n ih =>
    intro b t d hlen hd hv
    rw [plainMinimax_unfold] at hv
    cases hcw : checkWinner b with
    | some r =>
      refine Holds.done b t r hcw ?_
      intro l hl
      rw [hcw, hl] at hv
      simp only [fin_le_fin] at hv
      push_cast at hd
      omega
    | none =>
      rw [hcw] at hv
      simp only [] at hv
      cases t with
      | true =>
        simp only [if_true] at hv
        by_contra hno
        have hall : ∀ x ∈ (emptyIdx b).map
            (fun i => plainMinimax (b.set i (Cell.mark Mark.O)) false (d + 1)),
            x < Num.fin 0 := by
          intro x hx
          obtain ⟨i, hi, rfl⟩ := List.mem_map.1 hx
          by_contra hge
          have hl := emptyIdx_set_mark_length_lt hi Mark.O
          exact hno (Holds.oMove b i hcw hi
            (ih _ false (d + 1) (by omega) (by push_cast at hd ⊢; omega) (not_lt.1 hge)))
        have := foldl_max_lt (Num.fin 0) _ Num.negInf (by decide) hall
        exact absurd hv (not_le.2 this)
      | false =>
        simp only [Bool.false_eq_true, if_false] at hv
        refine Holds.xMove b hcw ?_
        intro i hi
        have hl := emptyIdx_set_mark_length_lt hi Mark.X
        have hle := (foldl_min_le
          ((emptyIdx b).map (fun i => plainMinimax (b.set i (Cell.mark Mark.X)) true (d + 1)))
          Num.posInf).2 _ (List.mem_map.2 ⟨i, hi, rfl⟩)
        exact ih _ true (d + 1) (by omega) (by push_cast at hd ⊢; omega) (le_trans hv hle)

/-- When O can hold a position with O to move, the move of the Hard branch
leads to a position O can still hold. -/
theorem hardMove_keeps_holding {b : Board} (hb : Board9 b) (hn : checkWinner b = none)
    (h : Holds b true) :
    ∃ i, hardMove (emptyIdx b) b = some (some i, b) ∧ b[i]? = some Cell.null ∧
      Holds (b.set i (Cell.mark Mark.O)) false := by
  obtain ⟨i0, hi0, h0⟩ := holds_some_o h hn
  have h9 := board9_emptyIdx_length_le hb
  have hl0 := emptyIdx_set_mark_length_lt hi0 Mark.O
  have hs0 : Num.fin 0 ≤ hardScore b i0 := holds_plain_nonneg h0 0 (by omega)
  obtain ⟨i, h1, h2, h3, -⟩ := hardMove_first_argmax b hb.2 (List.ne_nil_of_mem hi0)
  refine ⟨i, h1, h2, ?_⟩
  have hi : i ∈ emptyIdx b := (clean_mem_emptyIdx hb.2 i).2 h2
  have hl := emptyIdx_set_mark_length_lt hi Mark.O
  have hs : Num.fin 0 ≤ hardScore b i :=
    le_trans hs0 (h3 i0 ((clean_mem_emptyIdx hb.2 i0).1 hi0))
  exact plain_nonneg_holds 8 _ false 0 (by omega) (by norm_num) hs

/-! ### A certificate that O can hold the empty board -/

theorem isMark_iff (m : Mark) (c : Cell) : c.isMark m = true ↔ c = Cell.mark m := by
  cases c with
  | mark k => cases k <;> cases m <;> simp [Cell.isMark]
  | hole => simp [Cell.isMark]
  | undef => simp [Cell.isMark]
  | null => simp [Cell.isMark]

theorem isNull_iff (c : Cell) : c.isNull = true ↔ c = Cell.null := by
  cases c <;> simp [Cell.isNull]

theorem wins9_iff (m : Mark) (a b c d e f g h i : Cell) :
    wins9 m a b c d e f g h i = true ↔
      ∃ l ∈ WIN_LINES, Uniform [a, b, c, d, e, f, g, h, i] l m := by
  unfold wins9
  simp only [Bool.or_eq_true, Bool.and_eq_true, isMark_iff]
  constructor
  · rintro (((((((⟨⟨h1, h2⟩, h3⟩ | ⟨⟨h1, h2⟩, h3⟩) | ⟨⟨h1, h2⟩, h3⟩) | ⟨⟨h1, h2⟩, h3⟩) |
      ⟨⟨h1, h2⟩, h3⟩) | ⟨⟨h1, h2⟩, h3⟩) | ⟨⟨h1, h2⟩, h3⟩) | ⟨⟨h1, h2⟩, h3⟩)
    · exact ⟨(0, 1, 2), by decide, by simp [Uniform, h1, h2, h3]⟩
    · exact ⟨(3, 4, 5), by decide, by simp [Uniform, h1, h2, h3]⟩
    · exact ⟨(6, 7, 8), by decide, by simp [Uniform, h1, h2, h3]⟩
    · exact ⟨(0, 3, 6), by decide, by simp [Uniform, h1, h2, h3]⟩
    · exact ⟨(1, 4, 7), by decide, by simp [Uniform, h1, h2, h3]⟩
    · exact ⟨(2, 5, 8), by decide, by simp [Uniform, h1, h2, h3]⟩
    · exact ⟨(0, 4, 8), by decide, by simp [Uniform, h1, h2, h3]⟩
    · exact ⟨(2, 4, 6), by decide, by simp [Uniform, h1, h2, h3]⟩
  · rintro ⟨l, hl, hu⟩
    simp only [WIN_LINES, List.mem_cons, List.mem_singleton, List.not_mem_nil, or_false] at hl
    rcases hl with rfl | rfl | rfl | rfl | rfl | rfl | rfl | rfl <;>
      simp [Uniform] at hu <;> simp [hu]

theorem mem_emptyIdx9 {a b c d e f g h i : Cell} (hc : Clean [a, b, c, d, e, f, g, h, i])
    (k : Nat) :
    k ∈ emptyIdx [a, b, c, d, e, f, g, h, i] ↔
      (k = 0 ∧ a = Cell.null) ∨ (k = 1 ∧ b = Cell.null) ∨ (k = 2 ∧ c = Cell.null) ∨
      (k = 3 ∧ d = Cell.null) ∨ (k = 4 ∧ e = Cell.null) ∨ (k = 5 ∧ f = Cell.null) ∨
      (k = 6 ∧ g = Cell.null) ∨ (k = 7 ∧ h = Cell.null) ∨ (k = 8 ∧ i = Cell.null) := by
  rw [clean_mem_emptyIdx hc]
  constructor
  · intro hk
    have hlt : k < 9 := null_lt_length hk
    interval_cases k <;> simp at hk <;> simp [hk]
  · rintro (⟨rfl, rfl⟩ | ⟨rfl, rfl⟩ | ⟨rfl, rfl⟩ | ⟨rfl, rfl⟩ | ⟨rfl, rfl⟩ | ⟨rfl, rfl⟩ |
      ⟨rfl, rfl⟩ | ⟨rfl, rfl⟩ | ⟨rfl, rfl⟩) <;> rfl

theorem isNull_null_ne_false (h : Cell.null.isNull = false) : False := by
  simp [Cell.isNull] at h

theorem holds9_sound : ∀ (n : Nat) (t : Bool) (a b c d e f g h i : Cell),
    Clean [a, b, c, d, e, f, g, h, i] → holds9 n t a b c d e f g h i = true →
      Holds [a, b, c, d, e, f, g, h, i] t := by
  intro n
  induction n with
  | zero =>
    intro t a b c d e f g h i _ hh
    rw [holds9] at hh
    exact absurd hh (by simp)
  | succ n ih =>
    intro t a b c d e f g h i hc hh
    rw [holds9] at hh
    by_cases hX : wins9 Mark.X a b c d e f g h i = true
    · rw [if_pos hX] at hh
      exact absurd hh (by simp)
    rw [if_neg hX] at hh
    have hnx : ∀ l, checkWinner [a, b, c, d, e, f, g, h, i] ≠ some (Result.win Mark.X l) := by
      intro l hl
      obtain ⟨h1, h2⟩ := uniform_of_checkWinner_win hl
      exact hX ((wins9_iff Mark.X a b c d e f g h i).2 ⟨l, h1, h2⟩)
    cases hcw : checkWinner [a, b, c, d, e, f, g, h, i] with
    | some r =>
      exact Holds.done _ t r hcw (fun l hl => hnx l (by rw [hcw, hl]))
    | none =>
      have hO : ¬ wins9 Mark.O a b c d e f g h i = true := by
        intro hw
        obtain ⟨l, hl, hu⟩ := (wins9_iff Mark.O a b c d e f g h i).1 hw
        exact no_lines_of_checkWinner_none hcw l hl _ hu
      rw [if_neg hO] at hh
      have hcO : ∀ k, Clean ([a, b, c, d, e, f, g, h, i].set k (Cell.mark Mark.O)) :=
        fun k => clean_set_mark hc k Mark.O
      have hcX : ∀ k, Clean ([a, b, c, d, e, f, g, h, i].set k (Cell.mark Mark.X)) :=
        fun k => clean_set_mark hc k Mark.X
      cases t with
      | true =>
        simp only [if_true, Bool.or_eq_true, Bool.and_eq_true, Bool.not_eq_true',
          isNull_iff] at hh
        rcases hh with (((((((((hfull | ⟨h1, h2⟩) | ⟨h1, h2⟩) | ⟨h1, h2⟩) | ⟨h1, h2⟩) |
          ⟨h1, h2⟩) | ⟨h1, h2⟩) | ⟨h1, h2⟩) | ⟨h1, h2⟩) | ⟨h1, h2⟩)
        · exfalso
          obtain ⟨k, hk⟩ := List.exists_mem_of_ne_nil _ (emptyIdx_ne_nil_of_checkWinner_none hcw)
          obtain ⟨⟨⟨⟨⟨⟨⟨⟨f0, f1⟩, f2⟩, f3⟩, f4⟩, f5⟩, f6⟩, f7⟩, f8⟩ := hfull
          rcases (mem_emptyIdx9 hc k).1 hk with ⟨-, e⟩ | ⟨-, e⟩ | ⟨-, e⟩ | ⟨-, e⟩ | ⟨-, e⟩ |
            ⟨-, e⟩ | ⟨-, e⟩ | ⟨-, e⟩ | ⟨-, e⟩ <;> subst e <;>
            first
            | exact isNull_null_ne_false f0
            | exact isNull_null_ne_false f1
            | exact isNull_null_ne_false f2
            | exact isNull_null_ne_false f3
            | exact isNull_null_ne_false f4
            | exact isNull_null_ne_false f5
            | exact isNull_null_ne_false f6
            | exact isNull_null_ne_false f7
            | exact isNull_null_ne_false f8
        · exact Holds.oMove _ 4 hcw ((mem_emptyIdx9 hc 4).2 (by simp [h1]))
            (ih false _ _ _ _ _ _ _ _ _ (hcO 4) h2)
        · exact Holds.oMove _ 0 hcw ((mem_emptyIdx9 hc 0).2 (by simp [h1]))
            (ih false _ _ _ _ _ _ _ _ _ (hcO 0) h2)
        · exact Holds.oMove _ 2 hcw ((mem_emptyIdx9 hc 2).2 (by simp [h1]))
            (ih false _ _ _ _ _ _ _ _ _ (hcO 2) h2)
        · exact Holds.oMove _ 6 hcw ((mem_emptyIdx9 hc 6).2 (by simp [h1]))
            (ih false _ _ _ _ _ _ _ _ _ (hcO 6) h2)
        · exact Holds.oMove _ 8 hcw ((mem_emptyIdx9 hc 8).2 (by simp [h1]))
            (ih false _ _ _ _ _ _ _ _ _ (hcO 8) h2)
        · exact Holds.oMove _ 1 hcw ((mem_emptyIdx9 hc 1).2 (by simp [h1]))
            (ih false _ _ _ _ _ _ _ _ _ (hcO 1) h2)
        · exact Holds.oMove _ 3 hcw ((mem_emptyIdx9 hc 3).2 (by simp [h1]))
            (ih false _ _ _ _ _ _ _ _ _ (hcO 3) h2)
        · exact Holds.oMove _ 5 hcw ((mem_emptyIdx9 hc 5).2 (by simp [h1]))
            (ih false _ _ _ _ _ _ _ _ _ (hcO 5) h2)
        · exact Holds.oMove _ 7 hcw ((mem_emptyIdx9 hc 7).2 (by simp [h1]))
            (ih false _ _ _ _ _ _ _ _ _ (hcO 7) h2)
      | false =>
        simp only [Bool.false_eq_true, if_false, Bool.or_eq_true, Bool.and_eq_true,
          Bool.not_eq_true'] at hh
        obtain ⟨⟨⟨⟨⟨⟨⟨⟨c0, c1⟩, c2⟩, c3⟩, c4⟩, c5⟩, c6⟩, c7⟩, c8⟩ := hh
        refine Holds.xMove _ hcw ?_
        intro k hk
        rcases (mem_emptyIdx9 hc k).1 hk with ⟨rfl, e⟩ | ⟨rfl, e⟩ | ⟨rfl, e⟩ | ⟨rfl, e⟩ |
          ⟨rfl, e⟩ | ⟨rfl, e⟩ | ⟨rfl, e⟩ | ⟨rfl, e⟩ | ⟨rfl, e⟩ <;> subst e
        · rcases c0 with x | x
          · exact (isNull_null_ne_false x).elim
          · exact ih true _ _ _ _ _ _ _ _ _ (hcX 0) x
        · rcases c1 with x | x
          · exact (isNull_null_ne_false x).elim
          · exact ih true _ _ _ _ _ _ _ _ _ (hcX 1) x
        · rcases c2 with x | x
          · exact (isNull_null_ne_false x).elim
          · exact ih true _ _ _ _ _ _ _ _ _ (hcX 2) x
        · rcases c3 with x | x
          · exact (isNull_null_ne_false x).elim
          · exact ih true _ _ _ _ _ _ _ _ _ (hcX 3) x
        · rcases c4 with x | x
          · exact (isNull_null_ne_false x).elim
          · exact ih true _ _ _ _ _ _ _ _ _ (hcX 4) x
        · rcases c5 with x | x
          · exact (isNull_null_ne_false x).elim
          · exact ih true _ _ _ _ _ _ _ _ _ (hcX 5) x
        · rcases c6 with x | x
          · exact (isNull_null_ne_false x).elim
          · exact ih true _ _ _ _ _ _ _ _ _ (hcX 6) x
        · rcases c7 with x | x
          · exact (isNull_null_ne_false x).elim
          · exact ih true _ _ _ _ _ _ _ _ _ (hcX 7) x
        · rcases c8 with x | x
          · exact (isNull_null_ne_false x).elim
          · exact ih true _ _ _ _ _ _ _ _ _ (hcX 8) x

/-- From the empty board with X to move, O can avoid losing. -/
theorem holds_empty_board : Holds (List.replicate 9 Cell.null) false :=
  holds9_sound 10 false Cell.null Cell.null Cell.null Cell.null Cell.null Cell.null
    Cell.null Cell.null Cell.null (by decide) (by decide)

/-! ### The computer on Hard never loses -/

theorem hardInv_start {s0 : State} (h0 : HardBotGame s0) : HardInv s0 := by
  obtain ⟨⟨hb, hc, hg, hbt, ht⟩, hm, hd⟩ := h0
  refine ⟨hm, hd, by rw [hb]; decide, Or.inr (Or.inl ⟨hg, hbt, hc, ?_, ?_, ?_⟩)⟩
  · rw [hb]; decide
  · rw [hb]; exact holds_empty_board
  · rw [ht]; rfl

theorem count_botMove_result (pre post : List Timer) (r : Result) :
    (pre ++ Timer.showResult r :: post).count Timer.botMove =
      (pre ++ post).count Timer.botMove := by
  simp [List.count_append, List.count_cons]

theorem count_botMove_bot (pre post : List Timer) :
    (pre ++ Timer.botMove :: post).count Timer.botMove =
      (pre ++ post).count Timer.botMove + 1 := by
  simp [List.count_append, List.count_cons]
  omega

theorem count_botMove_snoc_result (l : List Timer) (r : Result) :
    (l ++ [Timer.showResult r]).count Timer.botMove = l.count Timer.botMove := by
  simp [List.count_append, List.count_cons]

theorem count_botMove_snoc_bot (l : List Timer) :
    (l ++ [Timer.botMove]).count Timer.botMove = l.count Timer.botMove + 1 := by
  simp [List.count_append, List.count_cons]

theorem hardInv_click {s : State} (h : HardInv s) (idx : Int) (h0 : 0 ≤ idx) (h8 : idx ≤ 8) :
    HardInv (handleMove s idx) := by
  cases hguard : ((boardGet s idx).truthy || s.gameOver || s.botThinking) with
  | true => rw [handleMove_of_guard s idx hguard]; exact h
  | false =>
    obtain ⟨hm, hd, hb, hph⟩ := h
    have hg : s.gameOver = false := by
      cases hx : s.gameOver
      · rfl
      · rw [hx] at hguard; simp at hguard
    have hbt : s.botThinking = false := by
      cases hx : s.botThinking
      · rfl
      · rw [hx] at hguard; simp at hguard
    have hc : (boardGet s idx).truthy = false := by
      cases hx : (boardGet s idx).truthy
      · rfl
      · rw [hx] at hguard; simp at hguard
    rcases hph with ⟨hgo, -⟩ | ⟨-, -, hcur, hcw, hh, hcnt⟩ | ⟨-, hbt', -⟩
    · rw [hg] at hgo; exact absurd hgo (by simp)
    · have hi : idx.toNat < 9 := by omega
      have hcell : s.board[idx.toNat]? = some Cell.null := by
        unfold boardGet at hc
        rw [if_pos (isArrayIndex_of_range idx h0 h8)] at hc
        exact board9_null_of_falsy hb _ hi hc
      have hlt := null_lt_length hcell
      have hmem : idx.toNat ∈ emptyIdx s.board := (clean_mem_emptyIdx hb.2 _).2 hcell
      obtain ⟨e1, -, e3, e4, -, hwin, hnone⟩ := handleMove_accept s idx hguard
      rw [boardPut_board_in_range s idx s.current h0 h8 hlt, hcur] at e1 hwin hnone
      have hh' := holds_after_x hh hcw _ hmem
      refine ⟨by rw [e3]; exact hm, by rw [e4]; exact hd,
        by rw [e1]; exact board9_set_mark hb _ _, ?_⟩
      cases hcw' : checkWinner (s.board.set idx.toNat (Cell.mark Mark.X)) with
      | some r =>
        obtain ⟨f1, -, -, f4⟩ := hwin r hcw'
        refine Or.inl ⟨f1, ?_, ?_⟩
        · rw [e1]; exact holds_not_xwin hh'
        · rw [f4, count_botMove_snoc_result]; exact hcnt
      | none =>
        obtain ⟨f1, -, f3, f4⟩ := hnone hcw'
        have hbot : s.mode = Mode.bot ∧ Mark.X.other = Mark.O := ⟨hm, rfl⟩
        refine Or.inr (Or.inr ⟨f1, f3.2 hbot, by rw [e1]; exact hcw', by rw [e1]; exact hh', ?_⟩)
        rw [f4, if_pos hbot, count_botMove_snoc_bot, hcnt]
    · rw [hbt] at hbt'; exact absurd hbt' (by simp)

theorem hardInv_result {s : State} (h : HardInv s) (pre post : List Timer) (r : Result)
    (ht : s.timers = pre ++ Timer.showResult r :: post) :
    HardInv (showResult { s with timers := pre ++ post } r) := by
  obtain ⟨mode, diff, board, props, cur, go, sc, bt, tm⟩ := s
  simp only at ht
  subst ht
  unfold HardInv at h ⊢
  simp only [count_botMove_result] at h
  cases r with
  | draw => exact h
  | win m l => cases m <;> exact h

theorem hardInv_bot {s s' : State} (h : HardInv s) (pre post : List Timer) (r1 r2 : ℚ)
    (ht : s.timers = pre ++ Timer.botMove :: post)
    (hcb : botMoveCallback { s with timers := pre ++ post } r1 r2 = some s') :
    HardInv s' := by
  obtain ⟨mode, diff, board, props, cur, go, sc, bt, tm⟩ := s
  simp only at ht
  subst ht
  obtain ⟨hm, hd, hb, hph⟩ := h
  simp only at hm hd hb hph
  subst hm hd
  rw [count_botMove_bot] at hph
  rcases hph with ⟨-, -, hcnt⟩ | ⟨-, -, -, -, -, hcnt⟩ | ⟨hgo, -, hcw, hh, hcnt⟩
  · exact absurd hcnt (Nat.succ_ne_zero _)
  · exact absurd hcnt (Nat.succ_ne_zero _)
  · have hcnt0 : (pre ++ post).count Timer.botMove = 0 := by omega
    subst hgo
    obtain ⟨i, hi1, hi2, hi3⟩ := hardMove_keeps_holding hb hcw hh
    have hlt := null_lt_length hi2
    have hnil := emptyIdx_ne_nil_of_null hi2
    unfold botMoveCallback at hcb
    simp only [] at hcb
    rw [spread_clean hb.2, getBotMove_hard_eq board r1 r2 hnil, hi1] at hcb
    simp only [Bool.false_eq_true, if_false, jsSet_in_range _ _ _ hlt] at hcb
    have hb' := board9_set_mark hb i Mark.O
    cases hcw' : checkWinner (board.set i (Cell.mark Mark.O)) with
    | some r =>
      rw [hcw'] at hcb
      simp only [Option.some.injEq] at hcb
      subst hcb
      refine ⟨rfl, rfl, hb', Or.inl ⟨rfl, holds_not_xwin hi3, ?_⟩⟩
      simp only []
      rw [count_botMove_snoc_result]
      exact hcnt0
    | none =>
      rw [hcw'] at hcb
      simp only [Option.some.injEq] at hcb
      subst hcb
      exact ⟨rfl, rfl, hb', Or.inr (Or.inl ⟨rfl, rfl, rfl, hcw', hi3, hcnt0⟩)⟩

theorem hardInv_reachable {s0 s : State} (h0 : HardBotGame s0) (hr : Reachable s0 s) :
    HardInv s := by
  induction hr with
  | start => exact hardInv_start h0
  | step _ hs ih =>
    cases hs with
    | click idx h0 h8 => exact hardInv_click ih idx h0 h8
    | result pre post r ht => exact hardInv_result ih pre post r ht
    | bot _ pre post r1 r2 ht _ _ hcb => exact hardInv_bot ih pre post r1 r2 ht hcb

/-- Claim C3.  In a game against the computer on Hard, started from the empty
board, where the human plays X on any cell at any time and O replies with
`getBotMove(board, 'hard')` through the callback of `triggerBotMove`, no
reachable board has `checkWinner` reporting X as the winner; and the
pending bot callback always returns a state, so the game is not stopped
by the search. -/
theorem hard_bot_never_loses (s0 s : State) (h0 : HardBotGame s0) (hr : Reachable s0 s) :
    (∀ l, checkWinner s.board ≠ some (Result.win Mark.X l)) ∧
    (∀ (pre post : List Timer) (r1 r2 : ℚ), s.timers = pre ++ Timer.botMove :: post →
      0 ≤ r2 → r2 < 1 →
      ∃ s', botMoveCallback { s with timers := pre ++ post } r1 r2 = some s') := by
  obtain ⟨-, -, hb, hph⟩ := hardInv_reachable h0 hr
  constructor
  · rcases hph with ⟨-, h, -⟩ | ⟨-, -, -, h, -⟩ | ⟨-, -, h, -⟩
    · exact h
    · intro l hl; rw [h] at hl; exact absurd hl (by simp)
    · intro l hl; rw [h] at hl; exact absurd hl (by simp)
  · intro pre post r1 r2 _ _ _
    obtain ⟨s', hs', -⟩ :=
      botMoveCallback_board_cases { s with timers := pre ++ post } hb r1 r2
    exact ⟨s', hs'⟩

/-- Witness for C3: after the human opens in the centre and the computer
replies, X has not won. -/
theorem hard_bot_never_loses_witness :
    HardBotGame hardStart ∧
    ∃ s', Reachable hardStart s' ∧ s'.board[4]? = some (Cell.mark Mark.X) ∧
      ∀ l, checkWinner s'.board ≠ some (Result.win Mark.X l) := by
  have hg : HardBotGame hardStart := ⟨⟨rfl, rfl, rfl, rfl, rfl⟩, rfl, rfl⟩
  have h1 : Reachable hardStart (handleMove hardStart 4) :=
    Reachable.step Reachable.start (Step.click hardStart 4 (by decide) (by decide))
  have ht : (handleMove hardStart 4).timers = [] ++ Timer.botMove :: [] := by decide
  obtain ⟨s', hs'⟩ := (hard_bot_never_loses hardStart (handleMove hardStart 4) hg h1).2
    [] [] 0 0 ht (by norm_num) (by norm_num)
  have h2 : Reachable hardStart s' :=
    Reachable.step h1 (Step.bot _ s' [] [] 0 0 ht (by norm_num) (by norm_num) hs')
  refine ⟨hg, s', h2, ?_, (hard_bot_never_loses hardStart s' hg h2).1⟩
  have hkeep := botMoveCallback_keeps_marks
    { handleMove hardStart 4 with timers := [] ++ [] } (by decide) 0 0
  obtain ⟨s'', hs'', -, hk⟩ := hkeep
  rw [hs'] at hs''
  have : s' = s'' := Option.some.inj hs''
  subst this
  exact hk 4 Mark.X (by decide)

/-! ### Immediate wins and single threats, in terms of completed lines -/

theorem completes_iff_winAt {b : Board} (hnt : checkWinner b = none) (m : Mark) (i : Nat) :
    Completes m b i ↔ WinAt m b i := by
  constructor
  · rintro ⟨h1, l, hl, hu⟩
    exact ⟨h1, win_of_uniform_after_move hnt m (null_lt_length h1) hl hu⟩
  · rintro ⟨h1, l, hl⟩
    obtain ⟨h2, h3⟩ := uniform_of_checkWinner_win hl
    exact ⟨h1, l, h2, h3⟩

/-- Claim C13.  On a non-terminal 9-cell board on which some empty cell completes
a line of three O marks, `getBotMove(board, 'hard')` returns an index that
completes such a line, so that `checkWinner` then reports an O win: a
completing placement scores 10 in the loop and every other empty index
scores at most 9. -/
theorem getBotMove_hard_takes_win (b : Board) (hb : Board9 b) (hnt : checkWinner b = none)
    (hwin : ∃ i, Completes Mark.O b i) (r1 r2 : ℚ) :
    (∃ i, getBotMove b Difficulty.hard r1 r2 = some (some i, b) ∧ Completes Mark.O b i ∧
      ∃ l, checkWinner (b.set i (Cell.mark Mark.O)) = some (Result.win Mark.O l)) ∧
    (∀ j, Completes Mark.O b j →
      minimax (b.set j (Cell.mark Mark.O)) false Num.negInf Num.posInf 0 =
        some (Num.fin 10, b.set j (Cell.mark Mark.O))) ∧
    (∀ j, b[j]? = some Cell.null → ¬ Completes Mark.O b j →
      ∃ v, minimax (b.set j (Cell.mark Mark.O)) false Num.negInf Num.posInf 0 =
        some (v, b.set j (Cell.mark Mark.O)) ∧ v ≤ Num.fin 9) := by
  obtain ⟨i0, hi0⟩ := hwin
  obtain ⟨⟨i, h1, h2⟩, h3, h4⟩ :=
    hard_takes_winAt b hb ⟨i0, (completes_iff_winAt hnt Mark.O i0).1 hi0⟩ r1 r2
  refine ⟨⟨i, h1, (completes_iff_winAt hnt Mark.O i).2 h2, h2.2⟩, ?_, ?_⟩
  · intro j hj
    exact h3 j ((completes_iff_winAt hnt Mark.O j).1 hj)
  · intro j hj hn
    exact h4 j hj (fun hw => hn ((completes_iff_winAt hnt Mark.O j).2 hw))

/-- Witness for C13: with O on 0, 1 and X on 3, 4, Hard completes the row at
index 2 instead of blocking at 5. -/
theorem getBotMove_hard_takes_win_witness :
    Board9 winOrBlock ∧ checkWinner winOrBlock = none ∧
    ∃ i, getBotMove winOrBlock Difficulty.hard 0 0 = some (some i, winOrBlock) ∧
      Completes Mark.O winOrBlock i ∧
      ∃ l, checkWinner (winOrBlock.set i (Cell.mark Mark.O)) = some (Result.win Mark.O l) :=
  ⟨by decide, by decide,
   (getBotMove_hard_takes_win winOrBlock (by decide) (by decide)
      ⟨2, by decide, (0, 1, 2), by decide, by decide⟩ 0 0).1⟩

/-- Claim C18.  On a non-terminal 9-cell board on which no empty cell completes
an O line and exactly one empty cell `c` completes an X line,
`getBotMove(board, 'hard')` returns `c`: every other empty index scores `-9`
in the loop and `c` scores at least `-8`. -/
theorem getBotMove_hard_blocks_single_threat (b : Board) (hb : Board9 b)
    (hnt : checkWinner b = none) (hno : ∀ j, ¬ Completes Mark.O b j) (c : Nat)
    (hc : Completes Mark.X b c) (huniq : ∀ j, Completes Mark.X b j → j = c) (r1 r2 : ℚ) :
    getBotMove b Difficulty.hard r1 r2 = some (some c, b) ∧
    (∀ j, b[j]? = some Cell.null → j ≠ c →
      minimax (b.set j (Cell.mark Mark.O)) false Num.negInf Num.posInf 0 =
        some (Num.fin (-9), b.set j (Cell.mark Mark.O))) ∧
    (∃ v, minimax (b.set c (Cell.mark Mark.O)) false Num.negInf Num.posInf 0 =
        some (v, b.set c (Cell.mark Mark.O)) ∧ Num.fin (-8) ≤ v) :=
  hard_blocks_winAt b hb hnt
    (fun j hj => hno j ((completes_iff_winAt hnt Mark.O j).2 hj)) c
    ((completes_iff_winAt hnt Mark.X c).1 hc)
    (fun j hj => huniq j ((completes_iff_winAt hnt Mark.X j).2 hj)) r1 r2

/-- Witness for C18: X on 0, 1 and O on 4; the only threat is at index 2 and
Hard blocks it. -/
theorem getBotMove_hard_blocks_single_threat_witness :
    Board9 singleThreat ∧ checkWinner singleThreat = none ∧
    getBotMove singleThreat Difficulty.hard 0 0 = some (some 2, singleThreat) := by
  have hb : Board9 singleThreat := by decide
  have hnt : checkWinner singleThreat = none := by decide
  have hO : ∀ j ∈ emptyIdx singleThreat, placeWins Mark.O singleThreat j = false := by
    decide
  have hX : ∀ j ∈ emptyIdx singleThreat, placeWins Mark.X singleThreat j = true → j = 2 := by
    decide
  refine ⟨hb, hnt, ?_⟩
  refine (getBotMove_hard_blocks_single_threat singleThreat hb hnt ?_ 2 ?_ ?_ 0 0).1
  · intro j hj
    obtain ⟨h1, h2⟩ := (winAt_iff_mem_placeWins hb.2 Mark.O j).1
      ((completes_iff_winAt hnt Mark.O j).1 hj)
    rw [hO j h1] at h2
    exact absurd h2 (by simp)
  · exact ⟨by decide, (0, 1, 2), by decide, by decide⟩
  · intro j hj
    obtain ⟨h1, h2⟩ := (winAt_iff_mem_placeWins hb.2 Mark.X j).1
      ((completes_iff_winAt hnt Mark.X j).1 hj)
    exact hX j h1 h2

end TicTacToe
